import Mathlib

/-!
# Verification of the RSA timing-attack demonstrator

Shallow embedding of the RSA signer (src/src/rsa.cpp, src/src/rsa.h) and of
the vendored TTMath big-integer engine (src/src/lib/ttmathuint.h,
src/src/lib/ttmathuint_noasm.h), together with proofs about the embedded
definitions.

The RSA layer works over `ℕ`: the program's `num` type (`ttmath::Int<16>`,
1024 bits) realizes exact integer arithmetic on the value ranges exercised
here, so its values are embedded as natural numbers.

Bodies of `Rsa::numBits`, `Rsa::nPrime`, `Rsa::MontgomeryProduct` and the
branch bodies of `Rsa::PoweringLadder` are not present in the source tree
(rsa.cpp is truncated right after the `// The bit is 0` comment); those
definitions are modelled from the specification, as marked in their doc
comments.
-/

/-- Modelled from the spec: the word width used by the Montgomery radix
derivation.  §3 fixes `r = 2^k` with `k` the smallest multiple of the word
width strictly exceeding the bit length of `n`, and §8 S2 instantiates
`r = 2^16` for `n = 9991` (bit length 14), fixing the width at 16. -/
def wordWidth : ℕ := 16

/-- Fuel-driven helper for `numBits`; the fuel only bounds the recursion
depth and is always instantiated with the argument itself. -/
def numBitsAux : ℕ → ℕ → ℕ
  | 0, _ => 0
  | fuel + 1, a => if a = 0 then 0 else numBitsAux fuel (a / 2) + 1

/-- Modelled from the spec: `Rsa::numBits` (body missing from rsa.cpp);
§4.1: index of the highest set bit plus one, and 0 for a zero argument. -/
def numBits (a : ℕ) : ℕ := numBitsAux a a

/-- Modelled from the spec, §4.2: one round of the bit-wise derivation of
`(r⁻¹, n')`: if `r⁻¹` is even then `(r⁻¹/2, n'/2)`, else
`((r⁻¹ + n)/2, n'/2 + r/2 + 1)`. -/
def nPrimeStep (n r : ℕ) (xy : ℕ × ℕ) : ℕ × ℕ :=
  if xy.1 % 2 = 0 then (xy.1 / 2, xy.2 / 2)
  else ((xy.1 + n) / 2, xy.2 / 2 + r / 2 + 1)

/-- Runs `k` iterations of `nPrimeStep` starting from `(1, 0)` (spec §4.2). -/
def nPrimeIter (n r : ℕ) : ℕ → ℕ × ℕ
  | 0 => (1, 0)
  | k + 1 => nPrimeStep n r (nPrimeIter n r k)

/-- The exponent of the Montgomery radix: the smallest multiple of
`wordWidth` strictly exceeding `numBits n` (spec §3). -/
def nPrimeK (n : ℕ) : ℕ := wordWidth * (numBits n / wordWidth + 1)

/-- Modelled from the spec: `Rsa::nPrime` (body missing from rsa.cpp).
Returns `(r, n', r⁻¹)`: the radix `r = 2^k` and the pair produced by the
§4.2 bit-wise algorithm after `k` iterations. -/
def nPrime (n : ℕ) : ℕ × ℕ × ℕ :=
  let k := nPrimeK n
  let r := 2 ^ k
  let xy := nPrimeIter n r k
  (r, xy.2, xy.1)

/-- Modelled from the spec, §4.2: the Montgomery product
`MP(a, b, n', r, n)`: `t ← a·b`; `m ← (t mod r)·n' mod r`;
`u ← (t + m·n)/r`; final conditional subtraction. -/
def MontgomeryProduct (a b nprime r n : ℕ) : ℕ :=
  let t := a * b
  let m := t % r * nprime % r
  let u := (t + m * n) / r
  if n ≤ u then u - n else u

/-- Embeds `MontgomeryProductSleep`, which computes the same value as
`MontgomeryProduct`; the source-level difference is a fixed thread sleep
per product (rsa.cpp), which has no effect on the returned number. -/
def MontgomeryProductSleep (a b nprime r n : ℕ) : ℕ :=
  MontgomeryProduct a b nprime r n

/-- The `for (; k >= 0; k--)` loop of `Rsa::ModExp` (rsa.cpp lines 50-55):
`modExpLoop Mb nprime r n d i xb` processes bit indices `i-1, …, 0`, each
iteration squaring `x̄` and multiplying by `M̄` when the bit is set. -/
def modExpLoop (Mb nprime r n d : ℕ) : ℕ → ℕ → ℕ
  | 0, xb => xb
  | i + 1, xb =>
      let x1 := MontgomeryProduct xb xb nprime r n
      let x2 := if d.testBit i then MontgomeryProduct Mb x1 nprime r n else x1
      modExpLoop Mb nprime r n d i x2

/-- Embeds `Rsa::ModExp` (rsa.cpp lines 39-57): guard on odd modulus (returning 0
otherwise), Montgomery-form square-and-multiply over the bits of `d`. -/
def ModExp (M d n : ℕ) : ℕ :=
  if n % 2 ≠ 1 then 0
  else
    let p := nPrime n
    let r := p.1
    let nprime := p.2.1
    let Mb := M * r % n
    let xb := r % n
    let x := modExpLoop Mb nprime r n d (numBits d) xb
    MontgomeryProduct x 1 nprime r n

/-- The loop of `Rsa::ModExpSleep` (rsa.cpp lines 77-82), identical to
`modExpLoop` but through `MontgomeryProductSleep`. -/
def modExpSleepLoop (Mb nprime r n d : ℕ) : ℕ → ℕ → ℕ
  | 0, xb => xb
  | i + 1, xb =>
      let x1 := MontgomeryProductSleep xb xb nprime r n
      let x2 :=
        if d.testBit i then MontgomeryProductSleep Mb x1 nprime r n else x1
      modExpSleepLoop Mb nprime r n d i x2

/-- Embeds `Rsa::ModExpSleep` (rsa.cpp lines 66-84): same structure as `ModExp`
with the sleeping Montgomery product. -/
def ModExpSleep (M d n : ℕ) : ℕ :=
  if n % 2 ≠ 1 then 0
  else
    let p := nPrime n
    let r := p.1
    let nprime := p.2.1
    let Mb := M * r % n
    let xb := r % n
    let x := modExpSleepLoop Mb nprime r n d (numBits d) xb
    MontgomeryProductSleep x 1 nprime r n

/-- Number of Montgomery products executed by `ModExp` on the same control
path: zero on the even-modulus guard; otherwise one per loop iteration,
one more per set exponent bit, plus the final conversion product. -/
def modExpMPCountLoop (d : ℕ) : ℕ → ℕ
  | 0 => 0
  | i + 1 => (1 + if d.testBit i then 1 else 0) + modExpMPCountLoop d i

/-- Montgomery products executed by `ModExp M d n` (rsa.cpp lines 39-57). -/
def ModExpMPCount (M d n : ℕ) : ℕ :=
  if n % 2 ≠ 1 then 0 else modExpMPCountLoop d (numBits d) + 1

/-- Montgomery products executed by `ModExpSleep M d n` (rsa.cpp lines
66-84); each one also sleeps for the fixed interval. -/
def ModExpSleepMPCount (M d n : ℕ) : ℕ :=
  if n % 2 ≠ 1 then 0 else modExpMPCountLoop d (numBits d) + 1

/-- Semantic error kinds of spec §7. -/
inductive RsaError where
  | invalidModulus : RsaError
  | divByZero : RsaError
  deriving DecidableEq, Repr

/-- The error-kind view of `Rsa::ModExp` (rsa.cpp lines 40-43): the guard
branch that reports `Exponentiation failed. Modulus must be odd!` is the
`InvalidModulus` failure of spec §7; the remaining path is the successful
computation. -/
def ModExpE (M d n : ℕ) : Except RsaError ℕ :=
  if n % 2 ≠ 1 then .error .invalidModulus else .ok (ModExp M d n)

/-- The error-kind view of `Rsa::ModExpSleep` (rsa.cpp lines 67-70). -/
def ModExpSleepE (M d n : ℕ) : Except RsaError ℕ :=
  if n % 2 ≠ 1 then .error .invalidModulus else .ok (ModExpSleep M d n)

/-- Modelled from the spec, §4.2: Montgomery-parameter construction with
its precondition; `n` odd, otherwise the algorithm fails with
`InvalidModulus`. -/
def nPrimeE (n : ℕ) : Except RsaError (ℕ × ℕ × ℕ) :=
  if n % 2 ≠ 1 then .error .invalidModulus else .ok (nPrime n)

/-- One iteration of `Rsa::PoweringLadder` (rsa.cpp lines 94-96 and, for
the branch bodies missing from the truncated source, spec §4.3.2):
bit 0: `R₁ ← R₀·R₁ mod n; R₀ ← R₀² mod n`;
bit 1: `R₀ ← R₀·R₁ mod n; R₁ ← R₁² mod n`. -/
def ladderStep (n R0 R1 : ℕ) (b : Bool) : ℕ × ℕ :=
  if !b then (R0 * R0 % n, R0 * R1 % n)
  else (R0 * R1 % n, R1 * R1 % n)

/-- Computes `ladderRun M d n t j`: the register pair `(R₀, R₁)` after the first `j`
iterations of the `for (long i = t-1; i >= 0; i--)` loop of
`Rsa::PoweringLadder`, starting from `(1, M)`. -/
def ladderRun (M d n t : ℕ) : ℕ → ℕ × ℕ
  | 0 => (1, M)
  | j + 1 =>
      let s := ladderRun M d n t j
      ladderStep n s.1 s.2 (d.testBit (t - (j + 1)))

/-- Embeds `Rsa::PoweringLadder` (rsa.cpp lines 90-96, branch bodies modelled
from spec §4.3.2): run all `numBits d` iterations and return `R₀`. -/
def PoweringLadder (M d n : ℕ) : ℕ :=
  (ladderRun M d n (numBits d) (numBits d)).1

/-- The derived Montgomery parameters of `n` satisfy the §3 invariant
`r·r⁻¹ − n·n' = 1`, written over `ℕ`. -/
def montParamsOk (n : ℕ) : Prop :=
  (nPrime n).1 * (nPrime n).2.2 = 1 + n * (nPrime n).2.1

instance (n : ℕ) : Decidable (montParamsOk n) := by
  unfold montParamsOk; infer_instance

/-- Fuel-driven extended Euclid: `egcdAux fuel a b = (x, y)` with
`a·x + b·y = gcd a b` (coefficients over `ℤ`). -/
def egcdAux : ℕ → ℕ → ℕ → ℤ × ℤ
  | 0, _, _ => (1, 0)
  | fuel + 1, a, b =>
      if b = 0 then (1, 0)
      else
        let p := egcdAux fuel b (a % b)
        (p.2, p.1 - (a / b : ℕ) * p.2)

/-- Modelled from the spec, §3: the modular inverse `e⁻¹ mod m` used by the
key derivation `d = e⁻¹ mod φ` (the key-construction code of the `Rsa`
class is missing from the truncated rsa.h). -/
def modInverse (e m : ℕ) : ℕ :=
  (((egcdAux m e m).1 % (m : ℤ) + m) % (m : ℤ)).toNat

/-- Modelled from the spec, §3: `n = p·q`. -/
def rsaN (p q : ℕ) : ℕ := p * q

/-- Modelled from the spec, §3: `φ = (p−1)(q−1)`. -/
def rsaPhi (p q : ℕ) : ℕ := (p - 1) * (q - 1)

/-- Modelled from the spec, §3: the private exponent `d = e⁻¹ mod φ`. -/
def rsaD (p q e : ℕ) : ℕ := modInverse e (rsaPhi p q)

/-- Modelled from the spec, §2: signing is `s = M^d mod n`, through the
default exponentiation routine `Rsa::ModExp` (rsa.cpp line 14:
`Default is MODEXP`). -/
def rsaSign (p q e M : ℕ) : ℕ := ModExp M (rsaD p q e) (rsaN p q)

/-- Modelled from the spec, §8 S1: verification computes `s^e mod n` with
the public exponent, again through the default `Rsa::ModExp`. -/
def rsaVerify (p q e S : ℕ) : ℕ := ModExp S e (rsaN p q)

/-- The exponentiation variants of rsa.h lines 19-23. -/
inductive ExpType where
  | POWERLADDER : ExpType
  | MODEXP : ExpType
  | MODEXP_SLEEP : ExpType
  deriving DecidableEq, Repr

/-- Which member function the pointer `ef` (rsa.h line 29) refers to. -/
inductive ExpFuncId where
  | modExpF : ExpFuncId
  | modExpSleepF : ExpFuncId
  | poweringLadderF : ExpFuncId
  deriving DecidableEq, Repr

/-- The `switch` of `Rsa::setExpFunc` (rsa.cpp lines 16-31); its `default`
branch also selects `Rsa::ModExp` and is unreachable for the three closed
enumerators. -/
def setExpFuncSel : ExpType → ExpFuncId
  | .POWERLADDER => .poweringLadderF
  | .MODEXP => .modExpF
  | .MODEXP_SLEEP => .modExpSleepF

/-- The signer state: fields `p`, `q`, `theta` and the exponentiation
function pointer `ef` of `class Rsa` (rsa.h lines 25-29). -/
structure Rsa where
  p : ℕ
  q : ℕ
  theta : ℕ
  ef : ExpFuncId
  deriving DecidableEq, Repr

/-- Embeds `Rsa::setExpFunc` (rsa.cpp lines 16-31): reassigns the exponentiation
function pointer of an existing signer. -/
def setExpFunc (s : Rsa) (t : ExpType) : Rsa := { s with ef := setExpFuncSel t }

/-- Modelled from the spec: signer construction (the constructors of
rsa.h are truncated away); the selector starts at the default `MODEXP`
(rsa.cpp line 14: `Default is MODEXP.`). -/
def mkRsa (p q : ℕ) : Rsa := ⟨p, q, (p - 1) * (q - 1), .modExpF⟩

/-- The function a selector value dispatches to. -/
def expFuncOf : ExpFuncId → ℕ → ℕ → ℕ → ℕ
  | .modExpF => ModExp
  | .modExpSleepF => ModExpSleep
  | .poweringLadderF => PoweringLadder

/-- Signing with a signer state: dispatch through `ef`; returns the
signature and leaves the state untouched (signing is `const` apart from
the dispatch). -/
def rsaStateSign (s : Rsa) (M d n : ℕ) : ℕ := expFuncOf s.ef M d n

/-!
## Word-level big-integer engine (TTMath `UInt<value_size>`)

`UInt<value_size>` (ttmathuint.h line 513: `uint table[value_size]`) is
embedded as a little-endian `List ℕ` of machine words, each below
`2^64` — the library is built on the 64-bit platform (rsa.h line 17:
`16 words. 16*64 = 1024 bit`), so `TTMATH_BITS_PER_UINT = 64`.  The word
primitives are from the portable `ttmathuint_noasm.h` implementation.
-/

/-- Embeds `TTMATH_BITS_PER_UINT` on the 64-bit platform. -/
def wordBits : ℕ := 64

/-- One machine word's modulus, `2^64`. -/
def wB : ℕ := 2 ^ wordBits

/-- All entries are genuine machine words. -/
def Bounded (xs : List ℕ) : Prop := ∀ x ∈ xs, x < wB

instance (xs : List ℕ) : Decidable (Bounded xs) := by
  unfold Bounded; infer_instance

/-- The value of a little-endian word list. -/
def wval : List ℕ → ℕ
  | [] => 0
  | x :: xs => x + wB * wval xs

/-- Embeds `UInt::AddTwoWords` (ttmathuint_noasm.h lines 105-128): returns
`(result, carry-out)`; unsigned word addition wraps modulo `2^64`. -/
def AddTwoWords (a b carry : ℕ) : ℕ × ℕ :=
  if carry = 0 then
    let temp := (a + b) % wB
    (temp, if temp < a then 1 else 0)
  else
    let temp := (a + b + 1) % wB
    (temp, if a < temp then 0 else 1)

/-- Embeds `UInt::SubTwoWords` (ttmathuint_noasm.h lines 292-311): returns
`(result, borrow-out)`; unsigned word subtraction wraps modulo `2^64`. -/
def SubTwoWords (a b carry : ℕ) : ℕ × ℕ :=
  if carry = 0 then
    ((a + wB - b) % wB, if a < b then 1 else 0)
  else
    ((a + wB - b - 1) % wB, if b < a then 0 else 1)

/-- Embeds `UInt::Add` (ttmathuint_noasm.h lines 141-152): word-wise addition
with carry propagation over same-width operands; returns the sum table and
the final carry.  (Named `UIntAdd` because `Add` is taken by core Lean.) -/
def UIntAdd : List ℕ → List ℕ → ℕ → List ℕ × ℕ
  | x :: xs, y :: ys, c =>
      let r := AddTwoWords x y c
      let rest := UIntAdd xs ys r.2
      (r.1 :: rest.1, rest.2)
  | _, _, c => ([], c)

/-- Embeds `UInt::Sub` (ttmathuint_noasm.h lines 325-340): word-wise subtraction
with borrow propagation; returns the difference table and the final
borrow.  (Named `UIntSub` because `Sub` is taken by core Lean.) -/
def UIntSub : List ℕ → List ℕ → ℕ → List ℕ × ℕ
  | x :: xs, y :: ys, c =>
      let r := SubTwoWords x y c
      let rest := UIntSub xs ys r.2
      (r.1 :: rest.1, rest.2)
  | _, _, c => ([], c)

/-- Embeds `UInt::MulTwoWords` (ttmathuint_noasm.h lines 668-729, 64-bit branch):
the full `64×64 → 128`-bit product computed from 32-bit halves; returns
`(high, low)`. -/
def MulTwoWords (a b : ℕ) : ℕ × ℕ :=
  let aLow := a % 2 ^ 32
  let aHigh := a / 2 ^ 32
  let bLow := b % 2 ^ 32
  let bHigh := b / 2 ^ 32
  let resLow1 := bLow * aLow
  let temp1 := resLow1 / 2 ^ 32 + bLow * aHigh
  let low1 := resLow1 % 2 ^ 32 + temp1 % 2 ^ 32 * 2 ^ 32
  let high1 := temp1 / 2 ^ 32
  let temp2 := bHigh * aLow
  let low2 := temp2 % 2 ^ 32 * 2 ^ 32
  let high2 := bHigh * aHigh + temp2 / 2 ^ 32
  let lowPair := AddTwoWords low1 low2 0
  let highPair := AddTwoWords high1 high2 lowPair.2
  (highPair.1, lowPair.1)

/-- The early-exiting carry loop `for(i=.. ; i<value_size && c ; ++i)`
shared by `UInt::AddInt`/`UInt::AddTwoInts`: adds a carry into the
remaining words, stopping as soon as it dies out. -/
def addCarry : List ℕ → ℕ → List ℕ × ℕ
  | xs, 0 => (xs, 0)
  | [], c => ([], c)
  | x :: xs, c =>
      let r := AddTwoWords x 0 c
      let rest := addCarry xs r.2
      (r.1 :: rest.1, rest.2)

/-- Embeds `UInt::AddTwoInts` (ttmathuint_noasm.h lines 224-241): add the word
`x1` at `index` and `x2` at `index+1`, propagating the carry upward;
an out-of-range index (asserted against in the source) leaves the table
unchanged. -/
def AddTwoInts (tbl : List ℕ) (x2 x1 : ℕ) : ℕ → List ℕ × ℕ
  | 0 =>
      match tbl with
      | t0 :: t1 :: rest =>
          let r0 := AddTwoWords t0 x1 0
          let r1 := AddTwoWords t1 x2 r0.2
          let rr := addCarry rest r1.2
          (r0.1 :: r1.1 :: rr.1, rr.2)
      | _ => (tbl, 0)
  | i + 1 =>
      match tbl with
      | t0 :: rest =>
          let r := AddTwoInts rest x2 x1 i
          (t0 :: r.1, r.2)
      | [] => ([], 0)

/-- One body of the nested loop of `UInt::Mul2Big3`: multiply the words at
`x1` and `x2` and accumulate the two-word product at position `x1+x2`. -/
def mulAccum (ss1 ss2 acc : List ℕ) (x1 x2 : ℕ) : List ℕ :=
  let r := MulTwoWords (ss1.getD x1 0) (ss2.getD x2 0)
  (AddTwoInts acc r.1 r.2 (x1 + x2)).1

/-- Embeds `UInt::Mul2Big3` (ttmathuint.h lines 1585-1604): schoolbook
multiplication into a zeroed `2·ss_size`-word result, accumulating the
word products for `x1 ∈ [x1start, x1size)`, `x2 ∈ [x2start, x2size)`. -/
def Mul2Big3 (ss1 ss2 : List ℕ) (x1start x1size x2start x2size : ℕ) : List ℕ :=
  (List.range' x1start (x1size - x1start)).foldl
    (fun acc x1 =>
      (List.range' x2start (x2size - x2start)).foldl
        (fun acc2 x2 => mulAccum ss1 ss2 acc2 x1 x2) acc)
    (List.replicate (2 * ss1.length) 0)

/-- The `for(x1size=ss_size ; x1size>0 && ss1[x1size-1]==0 ; --x1size)`
scan of `UInt::Mul2Big2`: the index one past the last nonzero word. -/
def topSize : List ℕ → ℕ
  | [] => 0
  | x :: xs =>
      let t := topSize xs
      if t = 0 then (if x = 0 then 0 else 1) else t + 1

/-- The `for(x1start=0 ; x1start<x1size && ss1[x1start]==0 ; ++x1start)`
scan of `UInt::Mul2Big2`: the first nonzero index, stopped at `size`. -/
def botStart : List ℕ → ℕ → ℕ
  | _, 0 => 0
  | [], _ + 1 => 0
  | x :: xs, s + 1 => if x = 0 then botStart xs s + 1 else 0

/-- Embeds `UInt::Mul2Big2` (ttmathuint.h lines 1559-1578): for more than two
words, skip leading and trailing zero words of both operands before
calling `Mul2Big3`; otherwise multiply over the full ranges. -/
def Mul2Big2 (ss1 ss2 : List ℕ) : List ℕ :=
  if 2 < ss1.length then
    Mul2Big3 ss1 ss2 (botStart ss1 (topSize ss1)) (topSize ss1)
      (botStart ss2 (topSize ss2)) (topSize ss2)
  else Mul2Big3 ss1 ss2 0 ss1.length 0 ss1.length

/-- Embeds `UInt::Mul2Big` (ttmathuint.h lines 1542-1547): the full double-width
product. -/
def Mul2Big (a b : List ℕ) : List ℕ := Mul2Big2 a b

/-- Embeds `UInt::Mul2` (ttmathuint.h lines 1511-1533): keep the low half of
`Mul2Big` and report a carry when any discarded high word is nonzero. -/
def Mul2 (a b : List ℕ) : List ℕ × ℕ :=
  let result := Mul2Big a b
  (result.take a.length, if (result.drop a.length).all (· = 0) then 0 else 1)

/-- The value contributed by the index window `[start, start+len)` of a
word table, used to state the schoolbook-multiplication lemmas. -/
def sliceVal (ss : List ℕ) (start len : ℕ) : ℕ :=
  ((List.range' start len).map (fun i => ss.getD i 0 * wB ^ i)).sum

/-!
## Division (TTMath `UInt::Div`, default algorithm 3)

`Div` dispatches to `Div3` (ttmathuint.h lines 2035-2051), which runs
`Div_StandardTest` and then either the single-word `DivInt` or the Knuth
algorithm-D loop `Div3_Division`.  The word tables are the same
little-endian lists as above; `this` threading becomes explicit state.
-/

/-- Modelled from the spec/in-source doc comment: `UInt::DivTwoWords`
(body truncated out of ttmathuint_noasm.h; its contract is `r = a:b / c`
with remainder, `c` large enough for a one-word result): the exact
two-word by one-word division. -/
def DivTwoWords (a b c : ℕ) : ℕ × ℕ := ((a * wB + b) / c, (a * wB + b) % c)

/-- The word loop of `UInt::DivInt` (ttmathuint.h lines 1977-2017),
processing words from index `i-1` down to 0 with running remainder `r`;
the source first skips zero words above the top nonzero one, which is
behaviourally identical because `DivTwoWords 0 0 c = (0, 0)` reproduces
the zeroed result words. -/
def divIntLoop (dividend : List ℕ) (divisor : ℕ) : ℕ → ℕ → List ℕ × ℕ
  | 0, r => ([], r)
  | i + 1, r =>
      let q := DivTwoWords r (dividend.getD i 0) divisor
      let rest := divIntLoop dividend divisor i q.2
      (rest.1 ++ [q.1], rest.2)

/-- Embeds `UInt::DivInt` (ttmathuint.h lines 1977-2017): division by a single
word; returns `(quotient table, remainder, return code)`, code 1 on a
zero divisor (table left unchanged, remainder 0). -/
def DivIntL (xs : List ℕ) (divisor : ℕ) : List ℕ × ℕ × ℕ :=
  if divisor = 0 then (xs, 0, 1)
  else if divisor = 1 then (xs, 0, 0)
  else
    let l := divIntLoop xs divisor xs.length 0
    (l.1, l.2, 0)

/-- The word-wise comparison loop of `Div_CalculatingSize` (ttmathuint.h
lines 2140-2148): scan down from index `i` while words agree, then order
by the first disagreeing word. -/
def cmpWordsDown (u v : List ℕ) : ℕ → Ordering
  | 0 =>
      if u.getD 0 0 < v.getD 0 0 then .lt
      else if u.getD 0 0 = v.getD 0 0 then .eq else .gt
  | i + 1 =>
      if u.getD (i + 1) 0 = v.getD (i + 1) 0 then cmpWordsDown u v i
      else if u.getD (i + 1) 0 < v.getD (i + 1) 0 then .lt else .gt

/-- Embeds `UInt::Div_CalculatingSize` (ttmathuint.h lines 2122-2148): returns
`(code, m, n)` with `m`, `n` the top nonzero word indices; code 1 when the
divisor is zero, 2 when the dividend is zero, 3 when dividend < divisor,
4 on equality, 0 when a real division must be made. -/
def Div_CalculatingSize (u v : List ℕ) : ℕ × ℕ × ℕ :=
  if topSize v = 0 then (1, 0, 0)
  else if topSize u = 0 then (2, 0, 0)
  else
    let m := topSize u - 1
    let n := topSize v - 1
    if m < n then (3, m, n)
    else if m = n then
      match cmpWordsDown u v n with
      | .lt => (3, m, n)
      | .eq => (4, m, n)
      | .gt => (0, m, n)
    else (0, m, n)

/-- Embeds `UInt::Div_StandardTest` (ttmathuint.h lines 2068-2106): dispatch on
`Div_CalculatingSize`; returns `(test, this, remainder, m, n)` where
`test` 0 means the trivial cases were handled, 1 division by zero, 2 the
real division is still to be done. -/
def Div_StandardTest (u v : List ℕ) : ℕ × List ℕ × List ℕ × ℕ × ℕ :=
  let size := u.length
  let c := Div_CalculatingSize u v
  match c.1 with
  | 4 => (0, 1 :: List.replicate (size - 1) 0, List.replicate size 0, c.2.1, c.2.2)
  | 3 => (0, List.replicate size 0, u, c.2.1, c.2.2)
  | 2 => (0, List.replicate size 0, List.replicate size 0, c.2.1, c.2.2)
  | 1 => (1, u, List.replicate size 0, c.2.1, c.2.2)
  | _ => (2, u, List.replicate size 0, c.2.1, c.2.2)

/-- Embeds `UInt::Rcl2_one` (ttmathuint_noasm.h lines 430-448): shift all
words left one bit, feeding `c` into the lowest bit; returns the table and
the bit shifted out.  The source's `(x << 1) | c` is written `x*2 % wB + c`
(the OR target bit is always clear). -/
def Rcl2_one : List ℕ → ℕ → List ℕ × ℕ
  | [], c => ([], c)
  | x :: xs, c =>
      let nc := if 2 ^ 63 ≤ x then 1 else 0
      let rest := Rcl2_one xs nc
      ((x * 2 % wB + c) :: rest.1, rest.2)

/-- Embeds `UInt::Rcl2` (ttmathuint_noasm.h lines 506-527): shift left by
`bits ∈ (0, 64)`, feeding `c` copies of the carry bit into the lowest
bits; the per-word carry `new_c = x >> move` travels upward, and the
returned value is the low bit of the final carry. -/
def rcl2Aux (bits : ℕ) : List ℕ → ℕ → List ℕ × ℕ
  | [], c => ([], c)
  | x :: xs, c =>
      let move := 64 - bits
      let nc := x / 2 ^ move
      let rest := rcl2Aux bits xs nc
      ((x * 2 ^ bits % wB + c) :: rest.1, rest.2)

/-- Dispatch wrapper of `rcl2Aux` matching `UInt::Rcl2`: an incoming
nonzero `c` becomes `bits` low one-bits. -/
def Rcl2 (xs : List ℕ) (bits c : ℕ) : List ℕ × ℕ :=
  let cin := if c ≠ 0 then 2 ^ bits - 1 else 0
  let r := rcl2Aux bits xs cin
  (r.1, r.2 % 2)

/-- Embeds `UInt::RclMoveAllWords` (ttmathuint.h lines 841-878): the
whole-word part of a left rotation; returns
`(table, rest_bits, last_c)`. -/
def RclMoveAllWords (xs : List ℕ) (bits c : ℕ) : List ℕ × ℕ × ℕ :=
  let size := xs.length
  let restBits := bits % 64
  let allWords := bits / 64
  let mask := if c ≠ 0 then wB - 1 else 0
  if size ≤ allWords then
    let lastC := if allWords = size ∧ restBits = 0 then xs.getD 0 0 % 2 else 0
    (List.replicate size mask, 0, lastC)
  else if 0 < allWords then
    (List.replicate allWords mask ++ xs.take (size - allWords),
      restBits, xs.getD (size - allWords) 0 % 2)
  else (xs, restBits, 0)

/-- Embeds `UInt::Rcl` (ttmathuint.h lines 892-928): general left shift;
returns the table and the last moved bit. -/
def Rcl (xs : List ℕ) (bits c : ℕ) : List ℕ × ℕ :=
  if bits = 0 then (xs, 0)
  else
    let w := if 64 ≤ bits then RclMoveAllWords xs bits c
             else (xs, bits, 0)
    let restBits := w.2.1
    if restBits = 0 then (w.1, w.2.2)
    else if restBits = 1 then Rcl2_one w.1 c
    else if restBits = 2 then
      let s1 := Rcl2_one w.1 c
      Rcl2_one s1.1 c
    else Rcl2 w.1 restBits c

/-- Embeds `UInt::Rcr2_one` (ttmathuint_noasm.h lines 468-489): shift all
words right one bit, feeding `c` into the highest bit; carries travel from
the top word downward. -/
def rcr2OneAux : List ℕ → ℕ → List ℕ × ℕ
  | [], c => ([], c)
  | x :: xs, c =>
      let rest := rcr2OneAux xs c
      let nc := x % 2 * 2 ^ 63
      ((x / 2 + rest.2) :: rest.1, nc)

/-- Embeds the wrapper of `UInt::Rcr2_one`: carry in as the top bit, carry
out normalized to 0/1. -/
def Rcr2_one (xs : List ℕ) (c : ℕ) : List ℕ × ℕ :=
  let r := rcr2OneAux xs (if c ≠ 0 then 2 ^ 63 else 0)
  (r.1, if r.2 ≠ 0 then 1 else 0)

/-- Embeds `UInt::Rcr2` (ttmathuint_noasm.h lines 536-566): shift right by
`bits ∈ (0, 64)`; per-word carry `new_c = x << move (mod 2^64)` travels
downward; returns the top bit of the final carry. -/
def rcr2Aux (bits : ℕ) : List ℕ → ℕ → List ℕ × ℕ
  | [], c => ([], c)
  | x :: xs, c =>
      let move := 64 - bits
      let rest := rcr2Aux bits xs c
      let nc := x % 2 ^ bits * 2 ^ move
      ((x / 2 ^ bits + rest.2) :: rest.1, nc)

/-- Dispatch wrapper of `rcr2Aux` matching `UInt::Rcr2`. -/
def Rcr2 (xs : List ℕ) (bits c : ℕ) : List ℕ × ℕ :=
  let cin := if c ≠ 0 then (wB - 1) / 2 ^ (64 - bits) * 2 ^ (64 - bits) else 0
  let r := rcr2Aux bits xs cin
  (r.1, if 2 ^ 63 ≤ r.2 then 1 else 0)

/-- Embeds `UInt::RcrMoveAllWords` (ttmathuint.h lines 937-973). -/
def RcrMoveAllWords (xs : List ℕ) (bits c : ℕ) : List ℕ × ℕ × ℕ :=
  let size := xs.length
  let restBits := bits % 64
  let allWords := bits / 64
  let mask := if c ≠ 0 then wB - 1 else 0
  if size ≤ allWords then
    let lastC := if allWords = size ∧ restBits = 0
                 then (if 2 ^ 63 ≤ xs.getD (size - 1) 0 then 1 else 0) else 0
    (List.replicate size mask, 0, lastC)
  else if 0 < allWords then
    (xs.drop allWords ++ List.replicate allWords mask,
      restBits, if 2 ^ 63 ≤ xs.getD (allWords - 1) 0 then 1 else 0)
  else (xs, restBits, 0)

/-- Embeds `UInt::Rcr` (ttmathuint.h lines 987-1023): general right
shift. -/
def Rcr (xs : List ℕ) (bits c : ℕ) : List ℕ × ℕ :=
  if bits = 0 then (xs, 0)
  else
    let w := if 64 ≤ bits then RcrMoveAllWords xs bits c
             else (xs, bits, 0)
    let restBits := w.2.1
    if restBits = 0 then (w.1, w.2.2)
    else if restBits = 1 then Rcr2_one w.1 c
    else if restBits = 2 then
      let s1 := Rcr2_one w.1 c
      Rcr2_one s1.1 c
    else Rcr2 w.1 restBits c

/-- The shift loop of `UInt::FindLeadingBitInWord` (ttmathuint_noasm.h
lines 577-591): shift left until the top bit is set, decrementing the bit
index. -/
def flbLoop : ℕ → ℕ → ℕ → ℕ
  | 0, _, bit => bit
  | f + 1, x, bit =>
      if x / 2 ^ 63 = 0 then flbLoop f (x * 2 % wB) (bit - 1) else bit

/-- Embeds `UInt::FindLeadingBitInWord`; the `-1` answer for a zero word
is represented by the sentinel value 64 (the callers in the division path
only use it on nonzero words). -/
def FindLeadingBitInWord (x : ℕ) : ℕ :=
  if x = 0 then 64 else flbLoop 64 x 63

/-- Embeds the carry loop of `UInt::AddInt` (ttmathuint_noasm.h lines
172-188): add one word at `index`, propagating the carry. -/
def AddIntL (tbl : List ℕ) (value : ℕ) : ℕ → List ℕ × ℕ
  | 0 =>
      match tbl with
      | t0 :: rest =>
          let r := AddTwoWords t0 value 0
          let rr := addCarry rest r.2
          (r.1 :: rr.1, rr.2)
      | [] => ([], 0)
  | i + 1 =>
      match tbl with
      | t0 :: rest =>
          let r := AddIntL rest value i
          (t0 :: r.1, r.2)
      | [] => ([], 0)

/-- Embeds `UInt::MulInt` (ttmathuint.h lines 1267-1295): multiply the
table by one word, accumulating the two-word partial products; returns
the truncated table and the 0/1 carry. -/
def MulIntL (xs : List ℕ) (ss2 : ℕ) : List ℕ × ℕ :=
  let size := xs.length
  if ss2 = 0 then (List.replicate size 0, 0)
  else
    let step := (List.range' 0 (size - 1)).foldl
      (fun (acc : List ℕ × ℕ) x1 =>
        let r := MulTwoWords (xs.getD x1 0) ss2
        let s := AddTwoInts acc.1 r.1 r.2 x1
        (s.1, acc.2 + s.2))
      (List.replicate size 0, 0)
    let rlast := MulTwoWords (xs.getD (size - 1) 0) ss2
    let clast := if rlast.1 ≠ 0 then 1 else 0
    let a := AddIntL step.1 rlast.2 (size - 1)
    (a.1, if step.2 + clast + a.2 = 0 then 0 else 1)

/-- Embeds `UInt::Div3_Normalize` (ttmathuint.h lines 2690-2713): shift
divisor and dividend left until the top bit of `v.table[n-1]` is set;
returns `(u shifted, v shifted, d, u_value_size)` where `d` is the shift
count and `u_value_size` the bits shifted out of the dividend. -/
def Div3_Normalize (u v : List ℕ) (n : ℕ) : List ℕ × List ℕ × ℕ × ℕ :=
  let bit := FindLeadingBitInWord (v.getD (n - 1) 0)
  let move := 64 - bit - 1
  let res := u.getD (u.length - 1) 0
  if 0 < move then
    ((Rcl u move 0).1, (Rcl v move 0).1, move, res / 2 ^ (bit + 1))
  else (u, v, move, 0)

/-- Embeds `UInt::Div3_Unnormalize` (ttmathuint.h lines 2716-2726): zero the
words from index `n` up, shift right by `d`; the result is the remainder. -/
def Div3_Unnormalize (u : List ℕ) (n d : ℕ) : List ℕ :=
  (Rcr (u.take n ++ List.replicate (u.length - n) 0) d 0).1

/-- Embeds `UInt::Div3_MakeNewU` (ttmathuint.h lines 2637-2654): the
`n+1`-word window `table[j..j+n-1], u_max` padded with zeros to
`size+1` words. -/
def Div3_MakeNewU (u : List ℕ) (j n uMax : ℕ) : List ℕ :=
  (u.drop j).take n ++ [uMax] ++ List.replicate (u.length - n) 0

/-- Embeds `UInt::Div3_CopyNewU` (ttmathuint.h lines 2657-2668): write
`uu.table[0..n-1]` back at offset `j`, plus word `n` when it still fits. -/
def Div3_CopyNewU (u uu : List ℕ) (j n : ℕ) : List ℕ :=
  let count := if j + n < u.length then n + 1 else n
  u.take j ++ uu.take count ++ u.drop (j + count)

/-- Embeds `UInt::Div3_MultiplySubtract` (ttmathuint.h lines 2780-2806):
`uu -= vv*qp`, and on borrow decrement `qp` and add `vv` back (ignoring
the final carry); returns `(uu, qp)`. -/
def Div3_MultiplySubtract (uu vv : List ℕ) (qp : ℕ) : List ℕ × ℕ :=
  let vvTemp := (MulIntL vv qp).1
  let s := UIntSub uu vvTemp 0
  if s.2 ≠ 0 then ((UIntAdd s.1 vv 0).1, qp - 1)
  else (s.1, qp)

/-- The correction loop of `UInt::Div3_Calculate` (ttmathuint.h lines
2729-2776), on the two-word value `qv` of `u_temp` and running remainder
`rp`; `SubOne` wraps modulo `wB^2` and `rp += v1` wraps modulo `wB`. -/
def div3CalcLoop (v1 v0 u0 : ℕ) : ℕ → ℕ → ℕ → ℕ
  | 0, qv, _ => qv % wB
  | f + 1, qv, rp =>
      let t := MulTwoWords (qv % wB) v0
      if qv / wB = 1 ∨ rp < t.1 ∨ (rp = t.1 ∧ u0 < t.2) then
        let qv2 := (qv + wB * wB - 1) % (wB * wB)
        let rp2 := (rp + v1) % wB
        if v1 ≤ rp2 then div3CalcLoop v1 v0 u0 f qv2 rp2
        else qv2 % wB
      else qv % wB

/-- Embeds `UInt::Div3_Calculate`: estimate the quotient digit from the
top three dividend words and top two divisor words, then run the
correction loop (fuel `qv + 2` strictly dominates its decrement count). -/
def Div3_Calculate (u2 u1 u0 v1 v0 : ℕ) : ℕ :=
  let d := DivIntL [u1, u2] v1
  let qv := d.1.getD 0 0 + wB * d.1.getD 1 0
  div3CalcLoop v1 v0 u0 (qv + 2) qv d.2.1

/-- The body at index `j` of the `while(true)` loop of
`UInt::Div3_Division` (ttmathuint.h lines 2586-2634): estimate the digit,
multiply-subtract on the window, copy the window back; returns the new
dividend table and the digit. -/
def div3Step (vv vnorm : List ℕ) (n j : ℕ) (u : List ℕ) (u2 : ℕ) : List ℕ × ℕ :=
  let qp := Div3_Calculate u2 (u.getD (j + n - 1) 0) (u.getD (j + n - 2) 0)
              (vnorm.getD (n - 1) 0) (vnorm.getD (n - 2) 0)
  let ms := Div3_MultiplySubtract (Div3_MakeNewU u j n u2) vv qp
  (Div3_CopyNewU u ms.1 j n, ms.2)

/-- The `while(true)` loop of `UInt::Div3_Division`, from index `j` down
to 0; the next `u2` is reloaded from `table[j+n]` after the write-back. -/
def div3Loop (vv vnorm : List ℕ) (n : ℕ) : ℕ → List ℕ → ℕ → List ℕ → List ℕ × List ℕ
  | 0, u, u2, q =>
      let s := div3Step vv vnorm n 0 u u2
      (s.1, q.set 0 s.2)
  | j + 1, u, u2, q =>
      let s := div3Step vv vnorm n (j + 1) u u2
      div3Loop vv vnorm n j s.1 (s.1.getD (j + n) 0) (q.set (j + 1) s.2)

/-- Embeds `UInt::Div3_Division` (ttmathuint.h lines 2586-2634): normalize,
run the digit loop for `j = m .. 0`, unnormalize; returns
`(quotient, remainder)`. -/
def Div3_Division (u v : List ℕ) (m n : ℕ) : List ℕ × List ℕ :=
  let size := u.length
  let norm := Div3_Normalize u v n
  let un := norm.1
  let vn := norm.2.1
  let d := norm.2.2.1
  let u2 := if m + n = size then norm.2.2.2 else un.getD (m + n) 0
  let vv := vn ++ [0]
  let r := div3Loop vv vn n m un u2 (List.replicate size 0)
  (r.2, Div3_Unnormalize r.1 n d)

/-- Embeds `UInt::Div3`/`Div3Ref` (ttmathuint.h lines 2517-2583): the
standard test, then the one-word `DivInt` when the divisor fits a word,
else `Div3_Division` with `m := m-n`, `n := n+1`; returns
`(code, quotient, remainder)`. -/
def Div3 (u v : List ℕ) : ℕ × List ℕ × List ℕ :=
  let st := Div_StandardTest u v
  if st.1 < 2 then (st.1, st.2.1, st.2.2.1)
  else
    let m := st.2.2.2.1
    let n := st.2.2.2.2
    if n = 0 then
      let di := DivIntL u (v.getD 0 0)
      (0, di.1, di.2.1 :: List.replicate (u.length - 1) 0)
    else (0, (Div3_Division u v (m - n) (n + 1)).1, (Div3_Division u v (m - n) (n + 1)).2)

/-- Embeds `UInt::Div` (ttmathuint.h lines 2035-2051) at its default
`algorithm = 3`: dispatch to `Div3`.  (Named `UIntDiv` because `Div` is
taken by core Lean.) -/
def UIntDiv (u v : List ℕ) : ℕ × List ℕ × List ℕ := Div3 u v

-- ### more definitions are inserted above this line ###

/-! ## Helper lemmas -/

theorem lt_two_pow_numBitsAux : ∀ fuel a : ℕ, a ≤ fuel → a < 2 ^ numBitsAux fuel a := by
  intro fuel
  induction fuel with
  | zero => intro a ha; interval_cases a; simp [numBitsAux]
  | succ fuel ih =>
      intro a ha
      by_cases h0 : a = 0
      · subst h0; simp [numBitsAux]
      · have hdiv : a / 2 ≤ fuel := by omega
        have := ih (a / 2) hdiv
        have h2 : a < 2 * 2 ^ numBitsAux fuel (a / 2) := by omega
        simpa [numBitsAux, h0, pow_succ, Nat.mul_comm] using h2

theorem lt_two_pow_numBits (a : ℕ) : a < 2 ^ numBits a :=
  lt_two_pow_numBitsAux a a le_rfl

theorem numBits_zero_iff (a : ℕ) : numBits a = 0 ↔ a = 0 := by
  constructor
  · intro h
    by_contra h0
    have ha : a < 2 ^ numBits a := lt_two_pow_numBits a
    rw [h] at ha
    omega
  · intro h; subst h; rfl

theorem numBits_lt_nPrimeK (n : ℕ) : numBits n < nPrimeK n := by
  unfold nPrimeK wordWidth
  omega

theorem lt_nPrimeR (n : ℕ) : n < 2 ^ nPrimeK n :=
  lt_of_lt_of_le (lt_two_pow_numBits n)
    (Nat.pow_le_pow_right (by omega) (le_of_lt (numBits_lt_nPrimeK n)))

theorem div_pow_bit (d i : ℕ) :
    d / 2 ^ i = 2 * (d / 2 ^ (i + 1)) + (if d.testBit i then 1 else 0) := by
  have h1 : d / 2 ^ i / 2 = d / 2 ^ (i + 1) := by
    rw [Nat.div_div_eq_div_mul, pow_succ]
  have h2 := Nat.div_add_mod (d / 2 ^ i) 2
  have h3 : d.testBit i = decide (d / 2 ^ i % 2 = 1) := Nat.testBit_to_div_mod
  by_cases hb : d / 2 ^ i % 2 = 1
  · simp [h3, hb]; omega
  · have : d / 2 ^ i % 2 = 0 := by omega
    simp [h3, this]; omega

/-- Correctness of the Montgomery product, given parameters satisfying the
Montgomery relation `r·r⁻¹ = 1 + n·n'`. -/
theorem montgomeryProduct_spec (a b nprime r n ri : ℕ)
    (hrel : r * ri = 1 + n * nprime) (hab : a * b < n * r) :
    MontgomeryProduct a b nprime r n < n ∧
      MontgomeryProduct a b nprime r n * r ≡ a * b [MOD n] := by
  have hr : 0 < r := by
    rcases Nat.eq_zero_or_pos r with h | h
    · rw [h] at hrel; omega
    · exact h
  have hn : 0 < n := by
    rcases Nat.eq_zero_or_pos n with h | h
    · rw [h] at hab; omega
    · exact h
  set t := a * b with ht
  set m := t % r * nprime % r with hm
  -- r divides t + m * n
  have hdvd : r ∣ t + m * n := by
    have h1 : m ≡ t * nprime [MOD r] := by
      calc m ≡ t % r * nprime [MOD r] := Nat.mod_modEq _ r
        _ ≡ t * nprime [MOD r] := Nat.ModEq.mul_right nprime (Nat.mod_modEq t r)
    have h2 : t + m * n ≡ t + t * nprime * n [MOD r] :=
      Nat.ModEq.add (Nat.ModEq.refl t) (Nat.ModEq.mul_right n h1)
    have h3 : t + t * nprime * n = t * ri * r := by
      calc t + t * nprime * n = t * (1 + n * nprime) := by ring
        _ = t * (r * ri) := by rw [hrel]
        _ = t * ri * r := by ring
    have h4 : t + m * n ≡ 0 [MOD r] := by
      calc t + m * n ≡ t * ri * r [MOD r] := by rw [← h3]; exact h2
        _ ≡ 0 [MOD r] := by
            unfold Nat.ModEq
            simp [Nat.mul_mod_left]
    exact Nat.dvd_of_mod_eq_zero (by simpa [Nat.ModEq] using h4)
  set u := (t + m * n) / r with hu
  have hur : u * r = t + m * n := Nat.div_mul_cancel hdvd
  have hmr : m < r := Nat.mod_lt _ hr
  have hub : u < n + n := by
    rw [hu, Nat.div_lt_iff_lt_mul hr]
    have h5 : m * n < r * n := Nat.mul_lt_mul_of_lt_of_le hmr le_rfl hn
    have h6 : (n + n) * r = n * r + r * n := by ring
    omega
  have hcong : u * r ≡ t [MOD n] := by
    rw [hur]
    unfold Nat.ModEq
    simp [Nat.add_mul_mod_self_left]
  have hchar : MontgomeryProduct a b nprime r n = if n ≤ u then u - n else u := rfl
  rw [hchar]
  by_cases hcase : n ≤ u
  · rw [if_pos hcase]
    refine ⟨by omega, ?_⟩
    have h1 : (u - n) * r + n * r = u * r := by
      rw [← Nat.add_mul, Nat.sub_add_cancel hcase]
    have h2 : (u - n) * r ≡ u * r [MOD n] := by
      unfold Nat.ModEq
      rw [← h1, Nat.add_mul_mod_self_left]
    exact h2.trans hcong
  · rw [if_neg hcase]
    exact ⟨by omega, hcong⟩

/-- Embeds `r` is invertible modulo `n` under the Montgomery relation. -/
theorem montRel_unit (nprime r n ri : ℕ) (hrel : r * ri = 1 + n * nprime) :
    r * ri ≡ 1 [MOD n] := by
  rw [hrel]
  unfold Nat.ModEq
  simp [Nat.add_mul_mod_self_left]

/-- Cancel one factor `r` in a congruence, using the Montgomery relation. -/
theorem cancel_r (x y nprime r n ri : ℕ) (hrel : r * ri = 1 + n * nprime)
    (h : x * r ≡ y * r [MOD n]) : x ≡ y [MOD n] := by
  have h1 : x * (r * ri) ≡ y * (r * ri) [MOD n] := by
    have := h.mul_right ri
    calc x * (r * ri) = x * r * ri := by ring
      _ ≡ y * r * ri [MOD n] := this
      _ = y * (r * ri) := by ring
  have hu := montRel_unit nprime r n ri hrel
  calc x = x * 1 := by ring
    _ ≡ x * (r * ri) [MOD n] := (hu.symm.mul_left x)
    _ ≡ y * (r * ri) [MOD n] := h1
    _ ≡ y * 1 [MOD n] := (hu.mul_left y)
    _ = y := by ring

/-- Invariant of the `ModExp` loop: if `x̄` holds `M^(d >> j)·r (mod n)`
and is reduced, then running the remaining `j` iterations yields
`M^d·r (mod n)`, reduced. -/
theorem modExpLoop_inv (Mb nprime r n d ri M : ℕ)
    (hrel : r * ri = 1 + n * nprime) (hnr : n < r)
    (hMb : Mb < n) (hMbc : Mb ≡ M * r [MOD n]) :
    ∀ j xb, xb < n → xb ≡ M ^ (d / 2 ^ j) * r [MOD n] →
      modExpLoop Mb nprime r n d j xb < n ∧
        modExpLoop Mb nprime r n d j xb ≡ M ^ d * r [MOD n] := by
  intro j
  induction j with
  | zero =>
      intro xb hlt hc
      simpa [modExpLoop] using ⟨hlt, by simpa using hc⟩
  | succ j ih =>
      intro xb hlt hc
      have hn : 0 < n := by omega
      set p := d / 2 ^ (j + 1) with hp
      have hab1 : xb * xb < n * r := lt_of_lt_of_le
        (Nat.mul_lt_mul_of_lt_of_le hlt (le_of_lt hlt) hn)
        (Nat.mul_le_mul_left n (le_of_lt hnr))
      obtain ⟨h1lt, h1c⟩ := montgomeryProduct_spec xb xb nprime r n ri hrel hab1
      set x1 := MontgomeryProduct xb xb nprime r n with hx1
      have hx1c : x1 ≡ M ^ (2 * p) * r [MOD n] := by
        apply cancel_r _ _ nprime r n ri hrel
        calc x1 * r ≡ xb * xb [MOD n] := h1c
          _ ≡ (M ^ p * r) * (M ^ p * r) [MOD n] := hc.mul hc
          _ = (M ^ (2 * p) * r) * r := by ring
      by_cases hbit : d.testBit j
      · have hab2 : Mb * x1 < n * r := lt_of_lt_of_le
          (Nat.mul_lt_mul_of_lt_of_le hMb (le_of_lt h1lt) hn)
          (Nat.mul_le_mul_left n (le_of_lt hnr))
        obtain ⟨h2lt, h2c⟩ := montgomeryProduct_spec Mb x1 nprime r n ri hrel hab2
        set x2 := MontgomeryProduct Mb x1 nprime r n with hx2
        have hx2c : x2 ≡ M ^ (2 * p + 1) * r [MOD n] := by
          apply cancel_r _ _ nprime r n ri hrel
          calc x2 * r ≡ Mb * x1 [MOD n] := h2c
            _ ≡ (M * r) * (M ^ (2 * p) * r) [MOD n] := hMbc.mul hx1c
            _ = (M ^ (2 * p + 1) * r) * r := by ring
        have hstep : modExpLoop Mb nprime r n d (j + 1) xb
            = modExpLoop Mb nprime r n d j x2 := by
          simp [modExpLoop, hbit, ← hx1, ← hx2]
        rw [hstep]
        apply ih x2 h2lt
        have hd : d / 2 ^ j = 2 * p + 1 := by
          have := div_pow_bit d j
          rw [if_pos hbit] at this
          omega
        rw [hd]
        exact hx2c
      · have hstep : modExpLoop Mb nprime r n d (j + 1) xb
            = modExpLoop Mb nprime r n d j x1 := by
          simp [modExpLoop, hbit, ← hx1]
        rw [hstep]
        apply ih x1 h1lt
        have hd : d / 2 ^ j = 2 * p := by
          have := div_pow_bit d j
          rw [if_neg hbit] at this
          omega
        rw [hd]
        exact hx1c

/-- Embeds `ModExp` computes `M^d mod n` whenever the modulus is odd, greater
than one, and its derived Montgomery parameters satisfy the Montgomery
relation. -/
theorem ModExp_eq_pow (M d n : ℕ) (hn : 1 < n) (hodd : n % 2 = 1)
    (hok : montParamsOk n) : ModExp M d n = M ^ d % n := by
  unfold montParamsOk at hok
  set r := (nPrime n).1 with hr
  set nprime := (nPrime n).2.1 with hnp
  set ri := (nPrime n).2.2 with hri
  have hnr : n < r := by
    rw [hr]
    show n < (nPrime n).1
    unfold nPrime
    exact lt_nPrimeR n
  have hn0 : 0 < n := by omega
  have hMblt : M * r % n < n := Nat.mod_lt _ hn0
  have hMbc : M * r % n ≡ M * r [MOD n] := Nat.mod_modEq _ n
  have hxblt : r % n < n := Nat.mod_lt _ hn0
  have hxbc : r % n ≡ M ^ (d / 2 ^ numBits d) * r [MOD n] := by
    have hd0 : d / 2 ^ numBits d = 0 := Nat.div_eq_of_lt (lt_two_pow_numBits d)
    rw [hd0]
    simpa using Nat.mod_modEq r n
  obtain ⟨hxlt, hxc⟩ := modExpLoop_inv (M * r % n) nprime r n d ri M hok hnr
    hMblt hMbc (numBits d) (r % n) hxblt hxbc
  set x := modExpLoop (M * r % n) nprime r n d (numBits d) (r % n) with hx
  have hab : x * 1 < n * r := by
    have : x * 1 = x := by ring
    rw [this]
    calc x < n := hxlt
      _ ≤ n * r := Nat.le_mul_of_pos_right n (by omega)
  obtain ⟨hult, huc⟩ := montgomeryProduct_spec x 1 nprime r n ri hok hab
  have hfin : MontgomeryProduct x 1 nprime r n ≡ M ^ d [MOD n] := by
    apply cancel_r _ _ nprime r n ri hok
    calc MontgomeryProduct x 1 nprime r n * r ≡ x * 1 [MOD n] := huc
      _ = x := by ring
      _ ≡ M ^ d * r [MOD n] := hxc
  have hme : ModExp M d n = MontgomeryProduct x 1 nprime r n := by
    unfold ModExp
    rw [if_neg (by omega)]
  rw [hme]
  have := hfin
  unfold Nat.ModEq at this
  rw [Nat.mod_eq_of_lt hult] at this
  exact this

/-- Both branches of a ladder iteration leave `R₀` reduced. -/
theorem ladderStep_fst_lt (n a b : ℕ) (c : Bool) (hn : 0 < n) :
    (ladderStep n a b c).1 < n := by
  unfold ladderStep
  cases c
  · simpa using Nat.mod_lt (a * a) hn
  · simpa using Nat.mod_lt (a * b) hn

/-- The ladder invariant: after the first `j` of `numBits d` iterations,
with `p` the integer formed by the processed high bits of `d`, the
registers hold `M^p` and `M^(p+1)` modulo `n`. -/
theorem ladderRun_inv (M d n : ℕ) :
    ∀ j, j ≤ numBits d →
      (ladderRun M d n (numBits d) j).1 ≡ M ^ (d / 2 ^ (numBits d - j)) [MOD n] ∧
        (ladderRun M d n (numBits d) j).2
          ≡ M ^ (d / 2 ^ (numBits d - j) + 1) [MOD n] := by
  intro j
  induction j with
  | zero =>
      intro _
      have hd0 : d / 2 ^ (numBits d - 0) = 0 := by
        simpa using Nat.div_eq_of_lt (lt_two_pow_numBits d)
      rw [hd0]
      simp only [ladderRun, pow_zero, zero_add, pow_one]
      exact ⟨Nat.ModEq.refl 1, Nat.ModEq.refl M⟩
  | succ j ih =>
      intro hj
      obtain ⟨h0, h1⟩ := ih (by omega)
      set t := numBits d with htdef
      set p := d / 2 ^ (t - j) with hp
      have hsplit : t - j = (t - (j + 1)) + 1 := by omega
      have hstep : d / 2 ^ (t - (j + 1))
          = 2 * p + (if d.testBit (t - (j + 1)) then 1 else 0) := by
        rw [hp, hsplit]
        exact div_pow_bit d (t - (j + 1))
      set s := ladderRun M d n t j with hs
      have hrun : ladderRun M d n t (j + 1)
          = ladderStep n s.1 s.2 (d.testBit (t - (j + 1))) := rfl
      rw [hrun]
      by_cases hbit : d.testBit (t - (j + 1))
      · rw [hstep, if_pos hbit]
        unfold ladderStep
        rw [hbit]
        constructor
        · show s.1 * s.2 % n ≡ M ^ (2 * p + 1) [MOD n]
          calc s.1 * s.2 % n ≡ s.1 * s.2 [MOD n] := Nat.mod_modEq _ n
            _ ≡ M ^ p * M ^ (p + 1) [MOD n] := h0.mul h1
            _ = M ^ (2 * p + 1) := by ring
        · show s.2 * s.2 % n ≡ M ^ (2 * p + 1 + 1) [MOD n]
          calc s.2 * s.2 % n ≡ s.2 * s.2 [MOD n] := Nat.mod_modEq _ n
            _ ≡ M ^ (p + 1) * M ^ (p + 1) [MOD n] := h1.mul h1
            _ = M ^ (2 * p + 1 + 1) := by ring
      · rw [hstep, if_neg hbit]
        unfold ladderStep
        rw [Bool.eq_false_iff.mpr hbit]
        constructor
        · show s.1 * s.1 % n ≡ M ^ (2 * p + 0) [MOD n]
          calc s.1 * s.1 % n ≡ s.1 * s.1 [MOD n] := Nat.mod_modEq _ n
            _ ≡ M ^ p * M ^ p [MOD n] := h0.mul h0
            _ = M ^ (2 * p + 0) := by ring
        · show s.1 * s.2 % n ≡ M ^ (2 * p + 0 + 1) [MOD n]
          calc s.1 * s.2 % n ≡ s.1 * s.2 [MOD n] := Nat.mod_modEq _ n
            _ ≡ M ^ p * M ^ (p + 1) [MOD n] := h0.mul h1
            _ = M ^ (2 * p + 0 + 1) := by ring

/-- Embeds `PoweringLadder` computes `M^d mod n` for every modulus `n > 1`. -/
theorem PoweringLadder_eq_pow (M d n : ℕ) (hn : 1 < n) :
    PoweringLadder M d n = M ^ d % n := by
  unfold PoweringLadder
  rcases Nat.eq_zero_or_pos (numBits d) with h0 | hpos
  · have hd : d = 0 := (numBits_zero_iff d).mp h0
    subst hd
    rw [h0]
    simp [ladderRun, Nat.mod_eq_of_lt hn]
  · obtain ⟨j, hj⟩ := Nat.exists_eq_add_of_lt hpos
    have hinv := (ladderRun_inv M d n (numBits d) le_rfl).1
    have hred : (ladderRun M d n (numBits d) (numBits d)).1 < n := by
      rw [hj]
      have h' : 0 + j + 1 = j + 1 := by omega
      rw [h']
      exact ladderStep_fst_lt n (ladderRun M d n (j + 1) j).1
        (ladderRun M d n (j + 1) j).2 (d.testBit (j + 1 - (j + 1))) (by omega)
    have hd0 : numBits d - numBits d = 0 := by omega
    rw [hd0] at hinv
    simp only [pow_zero, Nat.div_one] at hinv
    unfold Nat.ModEq at hinv
    rw [Nat.mod_eq_of_lt hred] at hinv
    exact hinv

/-! ## Word-level lemmas -/

theorem wB_val : wB = 18446744073709551616 := by norm_num [wB, wordBits]

theorem wB_pos : 0 < wB := by rw [wB_val]; norm_num

theorem bounded_nil : Bounded [] := by intro x hx; cases hx

theorem bounded_cons {x : ℕ} {xs : List ℕ} :
    Bounded (x :: xs) ↔ x < wB ∧ Bounded xs := by
  constructor
  · intro h
    exact ⟨h x (List.mem_cons_self x xs), fun y hy => h y (List.mem_cons_of_mem x hy)⟩
  · rintro ⟨h1, h2⟩ y hy
    rcases List.mem_cons.mp hy with rfl | hy
    · exact h1
    · exact h2 y hy

theorem addTwoWords_spec (a b c : ℕ) (ha : a < wB) (hb : b < wB) (hc : c ≤ 1) :
    (AddTwoWords a b c).1 + wB * (AddTwoWords a b c).2 = a + b + c ∧
      (AddTwoWords a b c).1 < wB ∧ (AddTwoWords a b c).2 ≤ 1 := by
  rw [wB_val] at ha hb ⊢
  unfold AddTwoWords
  rw [wB_val]
  rcases Nat.le_one_iff_eq_zero_or_eq_one.mp hc with rfl | rfl
  · simp only [if_pos rfl]
    split_ifs <;> omega
  · simp only [if_neg one_ne_zero]
    split_ifs <;> omega

theorem subTwoWords_spec (a b c : ℕ) (ha : a < wB) (hb : b < wB) (hc : c ≤ 1) :
    (SubTwoWords a b c).1 + b + c = a + wB * (SubTwoWords a b c).2 ∧
      (SubTwoWords a b c).1 < wB ∧ (SubTwoWords a b c).2 ≤ 1 := by
  rw [wB_val] at ha hb ⊢
  unfold SubTwoWords
  rw [wB_val]
  rcases Nat.le_one_iff_eq_zero_or_eq_one.mp hc with rfl | rfl
  · simp only [if_pos rfl]
    split_ifs <;> omega
  · simp only [if_neg one_ne_zero]
    split_ifs <;> omega

theorem wval_lt {xs : List ℕ} (h : Bounded xs) : wval xs < wB ^ xs.length := by
  induction xs with
  | nil => simp [wval]
  | cons x xs ih =>
      obtain ⟨hx, hxs⟩ := bounded_cons.mp h
      have h1 := ih hxs
      have h2 : wval xs + 1 ≤ wB ^ xs.length := h1
      calc x + wB * wval xs + 1 ≤ wB + wB * wval xs := by omega
        _ = wB * (wval xs + 1) := by ring
        _ ≤ wB * wB ^ xs.length := Nat.mul_le_mul_left wB h2
        _ = wB ^ (x :: xs).length := by rw [List.length_cons, pow_succ]; ring

theorem wval_inj : ∀ xs ys : List ℕ, xs.length = ys.length →
    Bounded xs → Bounded ys → wval xs = wval ys → xs = ys := by
  intro xs
  induction xs with
  | nil => intro ys hlen _ _ _; cases ys with
      | nil => rfl
      | cons y ys => simp at hlen
  | cons x xs ih =>
      intro ys hlen hbx hby hv
      cases ys with
      | nil => simp at hlen
      | cons y ys =>
          obtain ⟨hx, hxs⟩ := bounded_cons.mp hbx
          obtain ⟨hy, hys⟩ := bounded_cons.mp hby
          have hveq : x + wB * wval xs = y + wB * wval ys := hv
          have hxy : x = y := by
            have e1 : (x + wval xs * wB) % wB = x := by
              rw [Nat.add_mul_mod_self_right, Nat.mod_eq_of_lt hx]
            have e2 : (y + wval ys * wB) % wB = y := by
              rw [Nat.add_mul_mod_self_right, Nat.mod_eq_of_lt hy]
            rw [← e1, ← e2]
            congr 1
            calc x + wval xs * wB = x + wB * wval xs := by ring
              _ = y + wB * wval ys := hveq
              _ = y + wval ys * wB := by ring
          subst hxy
          have hrest : wval xs = wval ys :=
            Nat.eq_of_mul_eq_mul_left wB_pos (by omega)
          have := ih ys (by simpa using hlen) hxs hys hrest
          rw [this]

theorem uintAdd_spec : ∀ xs ys : List ℕ, ∀ c : ℕ, xs.length = ys.length →
    Bounded xs → Bounded ys → c ≤ 1 →
    wval (UIntAdd xs ys c).1 + wB ^ xs.length * (UIntAdd xs ys c).2
        = wval xs + wval ys + c ∧
      (UIntAdd xs ys c).1.length = xs.length ∧
      Bounded (UIntAdd xs ys c).1 ∧ (UIntAdd xs ys c).2 ≤ 1 := by
  intro xs
  induction xs with
  | nil =>
      intro ys c hlen _ _ hc
      cases ys with
      | nil => simpa [UIntAdd, wval] using ⟨bounded_nil, hc⟩
      | cons y ys => simp at hlen
  | cons x xs ih =>
      intro ys c hlen hbx hby hc
      cases ys with
      | nil => simp at hlen
      | cons y ys =>
          obtain ⟨hx, hxs⟩ := bounded_cons.mp hbx
          obtain ⟨hy, hys⟩ := bounded_cons.mp hby
          obtain ⟨hr, hrlt, hrc⟩ := addTwoWords_spec x y c hx hy hc
          obtain ⟨ihv, ihl, ihb, ihc⟩ :=
            ih ys (AddTwoWords x y c).2 (by simpa using hlen) hxs hys hrc
          have hrun : UIntAdd (x :: xs) (y :: ys) c
              = ((AddTwoWords x y c).1 :: (UIntAdd xs ys (AddTwoWords x y c).2).1,
                 (UIntAdd xs ys (AddTwoWords x y c).2).2) := rfl
          rw [hrun]
          refine ⟨?_, by simpa using ihl, bounded_cons.mpr ⟨hrlt, ihb⟩, ihc⟩
          show (AddTwoWords x y c).1
              + wB * wval (UIntAdd xs ys (AddTwoWords x y c).2).1
              + wB ^ (x :: xs).length * (UIntAdd xs ys (AddTwoWords x y c).2).2
              = (x + wB * wval xs) + (y + wB * wval ys) + c
          rw [List.length_cons, pow_succ]
          calc (AddTwoWords x y c).1
              + wB * wval (UIntAdd xs ys (AddTwoWords x y c).2).1
              + wB ^ xs.length * wB * (UIntAdd xs ys (AddTwoWords x y c).2).2
              = (AddTwoWords x y c).1
                + wB * (wval (UIntAdd xs ys (AddTwoWords x y c).2).1
                  + wB ^ xs.length * (UIntAdd xs ys (AddTwoWords x y c).2).2) := by
                ring
            _ = (AddTwoWords x y c).1
                + wB * (wval xs + wval ys + (AddTwoWords x y c).2) := by rw [ihv]
            _ = ((AddTwoWords x y c).1 + wB * (AddTwoWords x y c).2)
                + wB * wval xs + wB * wval ys := by ring
            _ = (x + y + c) + wB * wval xs + wB * wval ys := by rw [hr]
            _ = (x + wB * wval xs) + (y + wB * wval ys) + c := by ring

theorem uintSub_spec : ∀ xs ys : List ℕ, ∀ c : ℕ, xs.length = ys.length →
    Bounded xs → Bounded ys → c ≤ 1 →
    wval (UIntSub xs ys c).1 + wval ys + c
        = wval xs + wB ^ xs.length * (UIntSub xs ys c).2 ∧
      (UIntSub xs ys c).1.length = xs.length ∧
      Bounded (UIntSub xs ys c).1 ∧ (UIntSub xs ys c).2 ≤ 1 := by
  intro xs
  induction xs with
  | nil =>
      intro ys c hlen _ _ hc
      cases ys with
      | nil => simpa [UIntSub, wval] using ⟨bounded_nil, hc⟩
      | cons y ys => simp at hlen
  | cons x xs ih =>
      intro ys c hlen hbx hby hc
      cases ys with
      | nil => simp at hlen
      | cons y ys =>
          obtain ⟨hx, hxs⟩ := bounded_cons.mp hbx
          obtain ⟨hy, hys⟩ := bounded_cons.mp hby
          obtain ⟨hr, hrlt, hrc⟩ := subTwoWords_spec x y c hx hy hc
          obtain ⟨ihv, ihl, ihb, ihc⟩ :=
            ih ys (SubTwoWords x y c).2 (by simpa using hlen) hxs hys hrc
          have hrun : UIntSub (x :: xs) (y :: ys) c
              = ((SubTwoWords x y c).1 :: (UIntSub xs ys (SubTwoWords x y c).2).1,
                 (UIntSub xs ys (SubTwoWords x y c).2).2) := rfl
          rw [hrun]
          refine ⟨?_, by simpa using ihl, bounded_cons.mpr ⟨hrlt, ihb⟩, ihc⟩
          show (SubTwoWords x y c).1
              + wB * wval (UIntSub xs ys (SubTwoWords x y c).2).1
              + (y + wB * wval ys) + c
              = (x + wB * wval xs)
                + wB ^ (x :: xs).length * (UIntSub xs ys (SubTwoWords x y c).2).2
          rw [List.length_cons, pow_succ]
          calc (SubTwoWords x y c).1
              + wB * wval (UIntSub xs ys (SubTwoWords x y c).2).1
              + (y + wB * wval ys) + c
              = ((SubTwoWords x y c).1 + y + c)
                + wB * (wval (UIntSub xs ys (SubTwoWords x y c).2).1 + wval ys) := by
                ring
            _ = (x + wB * (SubTwoWords x y c).2)
                + wB * (wval (UIntSub xs ys (SubTwoWords x y c).2).1 + wval ys) := by
                rw [hr]
            _ = x + wB * (wval (UIntSub xs ys (SubTwoWords x y c).2).1 + wval ys
                  + (SubTwoWords x y c).2) := by ring
            _ = x + wB * (wval xs + wB ^ xs.length
                  * (UIntSub xs ys (SubTwoWords x y c).2).2) := by rw [ihv]
            _ = (x + wB * wval xs) + wB ^ xs.length * wB
                  * (UIntSub xs ys (SubTwoWords x y c).2).2 := by ring

set_option maxHeartbeats 1000000 in
theorem mulTwoWords_spec (a b : ℕ) (ha : a < wB) (hb : b < wB) :
    (MulTwoWords a b).1 * wB + (MulTwoWords a b).2 = a * b ∧
      (MulTwoWords a b).1 < wB ∧ (MulTwoWords a b).2 < wB := by
  rw [wB_val] at ha hb ⊢
  have h32 : (2 : ℕ) ^ 32 = 4294967296 := by norm_num
  simp only [MulTwoWords, h32]
  set aL := a % 4294967296 with haL
  set aH := a / 4294967296 with haH
  set bL := b % 4294967296 with hbL
  set bH := b / 4294967296 with hbH
  have haLb : aL < 4294967296 := by omega
  have haHb : aH < 4294967296 := by omega
  have hbLb : bL < 4294967296 := by omega
  have hbHb : bH < 4294967296 := by omega
  have hp1 : bL * aL ≤ 4294967295 * 4294967295 := Nat.mul_le_mul (by omega) (by omega)
  have hp2 : bL * aH ≤ 4294967295 * 4294967295 := Nat.mul_le_mul (by omega) (by omega)
  have hp3 : bH * aL ≤ 4294967295 * 4294967295 := Nat.mul_le_mul (by omega) (by omega)
  have hp4 : bH * aH ≤ 4294967295 * 4294967295 := Nat.mul_le_mul (by omega) (by omega)
  have hda : aH * 4294967296 + aL = a := by omega
  have hdb : bH * 4294967296 + bL = b := by omega
  have hab : a * b = 18446744073709551616 * (bH * aH) + 4294967296 * (bL * aH)
      + 4294967296 * (bH * aL) + bL * aL := by
    rw [← hda, ← hdb]
    ring
  set p1 := bL * aL with hp1d
  set p2 := bL * aH with hp2d
  set p3 := bH * aL with hp3d
  set p4 := bH * aH with hp4d
  set t1 := p1 / 4294967296 + p2 with ht1
  set lo1 := p1 % 4294967296 + t1 % 4294967296 * 4294967296 with hlo1
  set hi1 := t1 / 4294967296 with hhi1
  set lo2 := p3 % 4294967296 * 4294967296 with hlo2
  set hi2 := p4 + p3 / 4294967296 with hhi2
  obtain ⟨e1, e2, e3⟩ := addTwoWords_spec lo1 lo2 0 (by rw [wB_val]; omega)
    (by rw [wB_val]; omega) (by omega)
  obtain ⟨f1, f2, f3⟩ := addTwoWords_spec hi1 hi2 (AddTwoWords lo1 lo2 0).2
    (by rw [wB_val]; omega) (by rw [wB_val]; omega) e3
  rw [wB_val] at e1 e2 f1 f2
  refine ⟨?_, f2, e2⟩
  rw [hab]
  omega

theorem addCarry_spec : ∀ xs : List ℕ, ∀ c : ℕ, Bounded xs → c ≤ 1 →
    wval (addCarry xs c).1 + wB ^ xs.length * (addCarry xs c).2 = wval xs + c ∧
      (addCarry xs c).1.length = xs.length ∧
      Bounded (addCarry xs c).1 ∧ (addCarry xs c).2 ≤ 1 := by
  intro xs
  induction xs with
  | nil =>
      intro c hb hc
      rcases Nat.le_one_iff_eq_zero_or_eq_one.mp hc with rfl | rfl
      · exact ⟨by simp [addCarry], rfl, hb, by simp [addCarry]⟩
      · exact ⟨by simp [addCarry, wval], rfl, hb, by simp [addCarry]⟩
  | cons x xs ih =>
      intro c hb hc
      obtain ⟨hx, hxs⟩ := bounded_cons.mp hb
      rcases Nat.le_one_iff_eq_zero_or_eq_one.mp hc with rfl | rfl
      · exact ⟨by simp [addCarry], rfl, hb, by simp [addCarry]⟩
      · have hrun : addCarry (x :: xs) 1
            = ((AddTwoWords x 0 1).1 :: (addCarry xs (AddTwoWords x 0 1).2).1,
               (addCarry xs (AddTwoWords x 0 1).2).2) := rfl
        obtain ⟨hr, hrlt, hrc⟩ := addTwoWords_spec x 0 1 hx wB_pos le_rfl
        obtain ⟨ihv, ihl, ihb, ihc⟩ := ih (AddTwoWords x 0 1).2 hxs hrc
        rw [hrun]
        refine ⟨?_, by simpa using ihl, bounded_cons.mpr ⟨hrlt, ihb⟩, ihc⟩
        show (AddTwoWords x 0 1).1 + wB * wval (addCarry xs (AddTwoWords x 0 1).2).1
            + wB ^ (x :: xs).length * (addCarry xs (AddTwoWords x 0 1).2).2
            = (x + wB * wval xs) + 1
        rw [List.length_cons, pow_succ]
        calc (AddTwoWords x 0 1).1 + wB * wval (addCarry xs (AddTwoWords x 0 1).2).1
            + wB ^ xs.length * wB * (addCarry xs (AddTwoWords x 0 1).2).2
            = (AddTwoWords x 0 1).1
              + wB * (wval (addCarry xs (AddTwoWords x 0 1).2).1
                + wB ^ xs.length * (addCarry xs (AddTwoWords x 0 1).2).2) := by ring
          _ = (AddTwoWords x 0 1).1 + wB * (wval xs + (AddTwoWords x 0 1).2) := by
              rw [ihv]
          _ = ((AddTwoWords x 0 1).1 + wB * (AddTwoWords x 0 1).2) + wB * wval xs := by
              ring
          _ = (x + 0 + 1) + wB * wval xs := by rw [hr]
          _ = (x + wB * wval xs) + 1 := by ring

theorem addTwoInts_spec : ∀ index : ℕ, ∀ tbl : List ℕ, ∀ x2 x1 : ℕ,
    index + 2 ≤ tbl.length → Bounded tbl → x1 < wB → x2 < wB →
    wval (AddTwoInts tbl x2 x1 index).1
        + wB ^ tbl.length * (AddTwoInts tbl x2 x1 index).2
      = wval tbl + (x1 + wB * x2) * wB ^ index ∧
      (AddTwoInts tbl x2 x1 index).1.length = tbl.length ∧
      Bounded (AddTwoInts tbl x2 x1 index).1 ∧
      (AddTwoInts tbl x2 x1 index).2 ≤ 1 := by
  intro index
  induction index with
  | zero =>
      intro tbl x2 x1 hlen hb hx1 hx2
      match tbl, hlen with
      | t0 :: t1 :: rest, _ =>
        obtain ⟨ht0, hb1⟩ := bounded_cons.mp hb
        obtain ⟨ht1, hrest⟩ := bounded_cons.mp hb1
        obtain ⟨h0, h0lt, h0c⟩ := addTwoWords_spec t0 x1 0 ht0 hx1 (by omega)
        obtain ⟨h1, h1lt, h1c⟩ :=
          addTwoWords_spec t1 x2 (AddTwoWords t0 x1 0).2 ht1 hx2 h0c
        obtain ⟨hcv, hcl, hcb, hcc⟩ :=
          addCarry_spec rest (AddTwoWords t1 x2 (AddTwoWords t0 x1 0).2).2 hrest h1c
        have hrun : AddTwoInts (t0 :: t1 :: rest) x2 x1 0
            = ((AddTwoWords t0 x1 0).1
                :: (AddTwoWords t1 x2 (AddTwoWords t0 x1 0).2).1
                :: (addCarry rest (AddTwoWords t1 x2 (AddTwoWords t0 x1 0).2).2).1,
               (addCarry rest (AddTwoWords t1 x2 (AddTwoWords t0 x1 0).2).2).2) := rfl
        rw [hrun]
        refine ⟨?_, by simpa using hcl,
          bounded_cons.mpr ⟨h0lt, bounded_cons.mpr ⟨h1lt, hcb⟩⟩, hcc⟩
        show (AddTwoWords t0 x1 0).1
            + wB * ((AddTwoWords t1 x2 (AddTwoWords t0 x1 0).2).1
              + wB * wval (addCarry rest (AddTwoWords t1 x2 (AddTwoWords t0 x1 0).2).2).1)
            + wB ^ (t0 :: t1 :: rest).length
              * (addCarry rest (AddTwoWords t1 x2 (AddTwoWords t0 x1 0).2).2).2
            = (t0 + wB * (t1 + wB * wval rest)) + (x1 + wB * x2) * wB ^ 0
        have hlen2 : (t0 :: t1 :: rest).length = rest.length + 2 := by simp
        rw [hlen2, pow_succ, pow_succ, pow_zero]
        calc (AddTwoWords t0 x1 0).1
            + wB * ((AddTwoWords t1 x2 (AddTwoWords t0 x1 0).2).1
              + wB * wval (addCarry rest (AddTwoWords t1 x2 (AddTwoWords t0 x1 0).2).2).1)
            + wB ^ rest.length * wB * wB
              * (addCarry rest (AddTwoWords t1 x2 (AddTwoWords t0 x1 0).2).2).2
            = (AddTwoWords t0 x1 0).1
              + wB * ((AddTwoWords t1 x2 (AddTwoWords t0 x1 0).2).1
                + wB * (wval (addCarry rest (AddTwoWords t1 x2 (AddTwoWords t0 x1 0).2).2).1
                  + wB ^ rest.length
                    * (addCarry rest (AddTwoWords t1 x2 (AddTwoWords t0 x1 0).2).2).2)) := by
              ring
          _ = (AddTwoWords t0 x1 0).1
              + wB * ((AddTwoWords t1 x2 (AddTwoWords t0 x1 0).2).1
                + wB * (wval rest + (AddTwoWords t1 x2 (AddTwoWords t0 x1 0).2).2)) := by
              rw [hcv]
          _ = (AddTwoWords t0 x1 0).1
              + wB * (((AddTwoWords t1 x2 (AddTwoWords t0 x1 0).2).1
                  + wB * (AddTwoWords t1 x2 (AddTwoWords t0 x1 0).2).2)
                + wB * wval rest) := by ring
          _ = (AddTwoWords t0 x1 0).1
              + wB * ((t1 + x2 + (AddTwoWords t0 x1 0).2) + wB * wval rest) := by
              rw [h1]
          _ = ((AddTwoWords t0 x1 0).1 + wB * (AddTwoWords t0 x1 0).2)
              + wB * t1 + wB * x2 + wB * wB * wval rest := by ring
          _ = (t0 + x1 + 0) + wB * t1 + wB * x2 + wB * wB * wval rest := by rw [h0]
          _ = (t0 + wB * (t1 + wB * wval rest)) + (x1 + wB * x2) * 1 := by ring
  | succ i ih =>
      intro tbl x2 x1 hlen hb hx1 hx2
      match tbl, hlen with
      | t0 :: rest, hlen2 =>
        obtain ⟨ht0, hrest⟩ := bounded_cons.mp hb
        obtain ⟨ihv, ihl, ihb, ihc⟩ := ih rest x2 x1 (by simpa using hlen2) hrest hx1 hx2
        have hrun : AddTwoInts (t0 :: rest) x2 x1 (i + 1)
            = (t0 :: (AddTwoInts rest x2 x1 i).1, (AddTwoInts rest x2 x1 i).2) := rfl
        rw [hrun]
        refine ⟨?_, by simpa using ihl, bounded_cons.mpr ⟨ht0, ihb⟩, ihc⟩
        show t0 + wB * wval (AddTwoInts rest x2 x1 i).1
            + wB ^ (t0 :: rest).length * (AddTwoInts rest x2 x1 i).2
            = (t0 + wB * wval rest) + (x1 + wB * x2) * wB ^ (i + 1)
        rw [List.length_cons, pow_succ, pow_succ]
        calc t0 + wB * wval (AddTwoInts rest x2 x1 i).1
            + wB ^ rest.length * wB * (AddTwoInts rest x2 x1 i).2
            = t0 + wB * (wval (AddTwoInts rest x2 x1 i).1
              + wB ^ rest.length * (AddTwoInts rest x2 x1 i).2) := by ring
          _ = t0 + wB * (wval rest + (x1 + wB * x2) * wB ^ i) := by rw [ihv]
          _ = (t0 + wB * wval rest) + (x1 + wB * x2) * (wB ^ i * wB) := by ring

theorem getD_lt_of_bounded {xs : List ℕ} (h : Bounded xs) (j : ℕ) :
    xs.getD j 0 < wB := by
  by_cases hj : j < xs.length
  · rw [List.getD_eq_getElem?_getD, List.getElem?_eq_getElem hj]
    exact h _ (List.getElem_mem hj)
  · push_neg at hj
    rw [List.getD_eq_getElem?_getD, List.getElem?_eq_none hj]
    exact wB_pos

theorem sliceVal_zero_len (ss : List ℕ) (s : ℕ) : sliceVal ss s 0 = 0 := rfl

theorem sliceVal_succ (ss : List ℕ) (s l : ℕ) :
    sliceVal ss s (l + 1) = ss.getD s 0 * wB ^ s + sliceVal ss (s + 1) l := by
  unfold sliceVal
  rw [List.range'_succ]
  simp

theorem sliceVal_split (ss : List ℕ) (s l1 l2 : ℕ) :
    sliceVal ss s (l1 + l2) = sliceVal ss s l1 + sliceVal ss (s + l1) l2 := by
  unfold sliceVal
  have h := List.range'_append s l1 l2 1
  simp only [one_mul, Nat.mul_one] at h
  rw [Nat.add_comm l1 l2, ← h, List.map_append, List.sum_append]

theorem sliceVal_eq_zero (ss : List ℕ) :
    ∀ l s, (∀ i, s ≤ i → i < s + l → ss.getD i 0 = 0) → sliceVal ss s l = 0 := by
  intro l
  induction l with
  | zero => intro s _; rfl
  | succ l ih =>
      intro s h
      rw [sliceVal_succ, h s le_rfl (by omega), ih (s + 1) (fun i h1 h2 => h i (by omega) (by omega))]
      simp

theorem sliceVal_cons_shift (x : ℕ) (xs : List ℕ) :
    ∀ l s, sliceVal (x :: xs) (s + 1) l = wB * sliceVal xs s l := by
  intro l
  induction l with
  | zero => intro s; simp [sliceVal_zero_len]
  | succ l ih =>
      intro s
      rw [sliceVal_succ, sliceVal_succ, ih (s + 1)]
      rw [List.getD_cons_succ, pow_succ]
      ring

theorem wval_eq_sliceVal (ss : List ℕ) : wval ss = sliceVal ss 0 ss.length := by
  induction ss with
  | nil => rfl
  | cons x xs ih =>
      show x + wB * wval xs = sliceVal (x :: xs) 0 (xs.length + 1)
      have h1 : xs.length + 1 = 1 + xs.length := by omega
      rw [h1, sliceVal_split, sliceVal_succ, sliceVal_zero_len]
      have h2 : sliceVal (x :: xs) (0 + 1) xs.length = wB * sliceVal xs 0 xs.length :=
        sliceVal_cons_shift x xs xs.length 0
      rw [h2, ih]
      simp

theorem topSize_le (xs : List ℕ) : topSize xs ≤ xs.length := by
  induction xs with
  | nil => simp [topSize]
  | cons x xs ih =>
      show (if topSize xs = 0 then (if x = 0 then 0 else 1) else topSize xs + 1)
          ≤ xs.length + 1
      split_ifs <;> omega

theorem getD_eq_zero_of_topSize_le :
    ∀ xs : List ℕ, ∀ j, topSize xs ≤ j → xs.getD j 0 = 0 := by
  intro xs
  induction xs with
  | nil => intro j _; simp
  | cons x xs ih =>
      intro j hj
      have hdef : topSize (x :: xs)
          = if topSize xs = 0 then (if x = 0 then 0 else 1) else topSize xs + 1 := rfl
      rw [hdef] at hj
      cases j with
      | zero =>
          simp only [List.getD_cons_zero]
          by_contra hx0
          by_cases ht : topSize xs = 0
          · rw [if_pos ht, if_neg hx0] at hj; omega
          · rw [if_neg ht] at hj; omega
      | succ j =>
          simp only [List.getD_cons_succ]
          apply ih
          by_cases ht : topSize xs = 0
          · omega
          · rw [if_neg ht] at hj; omega

theorem botStart_le : ∀ xs : List ℕ, ∀ s, botStart xs s ≤ s := by
  intro xs
  induction xs with
  | nil => intro s; cases s <;> simp [botStart]
  | cons x xs ih =>
      intro s
      cases s with
      | zero => simp [botStart]
      | succ s =>
          unfold botStart
          split_ifs
          · have := ih s; omega
          · omega

theorem getD_eq_zero_of_lt_botStart :
    ∀ xs : List ℕ, ∀ s j, j < botStart xs s → xs.getD j 0 = 0 := by
  intro xs
  induction xs with
  | nil => intro s j h; cases s <;> simp [botStart] at h
  | cons x xs ih =>
      intro s j h
      cases s with
      | zero => simp [botStart] at h
      | succ s =>
          unfold botStart at h
          by_cases hx : x = 0
          · rw [if_pos hx] at h
            cases j with
            | zero => simpa using hx
            | succ j => simpa using ih s j (by omega)
          · rw [if_neg hx] at h
            omega

/-- With the scan bounds of `Mul2Big2`, the pruned window carries the full
value of the table. -/
theorem sliceVal_prune (ss : List ℕ) :
    sliceVal ss (botStart ss (topSize ss)) (topSize ss - botStart ss (topSize ss))
      = wval ss := by
  set ts := topSize ss with hts
  set bs := botStart ss ts with hbs
  have h1 : bs ≤ ts := botStart_le ss ts
  have h2 : ts ≤ ss.length := topSize_le ss
  have hsplit1 : ss.length = bs + ((ts - bs) + (ss.length - ts)) := by omega
  rw [wval_eq_sliceVal, hsplit1, sliceVal_split, sliceVal_split]
  have hz1 : sliceVal ss 0 bs = 0 := by
    apply sliceVal_eq_zero
    intro i h1i h2i
    exact getD_eq_zero_of_lt_botStart ss ts i (by omega)
  have hz2 : sliceVal ss (0 + bs + (ts - bs)) (ss.length - ts) = 0 := by
    apply sliceVal_eq_zero
    intro i h1i h2i
    exact getD_eq_zero_of_topSize_le ss i (by omega)
  rw [hz1, hz2]
  simp

theorem wval_replicate_zero (n : ℕ) : wval (List.replicate n 0) = 0 := by
  induction n with
  | zero => rfl
  | succ n ih => simp [List.replicate_succ, wval, ih]

theorem bounded_replicate_zero (n : ℕ) : Bounded (List.replicate n 0) := by
  intro x hx
  rw [List.eq_of_mem_replicate hx]
  exact wB_pos

theorem wval_take_drop (k : ℕ) (xs : List ℕ) :
    wval xs = wval (xs.take k) + wB ^ k * wval (xs.drop k) := by
  induction xs generalizing k with
  | nil => simp [wval]
  | cons x xs ih =>
      cases k with
      | zero => simp [wval]
      | succ k =>
          show x + wB * wval xs
              = (x + wB * wval (xs.take k)) + wB ^ (k + 1) * wval (xs.drop k)
          rw [ih k, pow_succ]
          ring

/-- Effect of the inner `x2` loop of `Mul2Big3` for a fixed `x1`: it adds
`ss1[x1] · (Σ ss2[x2]·wB^x2) · wB^x1` to the accumulator, with no carry
out as long as the result value fits the accumulator width. -/
theorem mulAccum_inner (ss1 ss2 : List ℕ) (hb1 : Bounded ss1) (hb2 : Bounded ss2)
    (x1 a b : ℕ) (hx1 : x1 + 1 ≤ a) :
    ∀ l x2s acc, x2s + l ≤ b → a + b ≤ acc.length → Bounded acc →
      wval acc + ss1.getD x1 0 * sliceVal ss2 x2s l * wB ^ x1 < wB ^ acc.length →
      wval (List.foldl (fun acc2 x2 => mulAccum ss1 ss2 acc2 x1 x2) acc
          (List.range' x2s l))
          = wval acc + ss1.getD x1 0 * sliceVal ss2 x2s l * wB ^ x1 ∧
        (List.foldl (fun acc2 x2 => mulAccum ss1 ss2 acc2 x1 x2) acc
          (List.range' x2s l)).length = acc.length ∧
        Bounded (List.foldl (fun acc2 x2 => mulAccum ss1 ss2 acc2 x1 x2) acc
          (List.range' x2s l)) := by
  intro l
  induction l with
  | zero =>
      intro x2s acc _ _ hbacc _
      simp [sliceVal_zero_len, hbacc]
  | succ l ih =>
      intro x2s acc hx2 hlen hbacc hbound
      rw [List.range'_succ, List.foldl_cons]
      have ha1 : ss1.getD x1 0 < wB := getD_lt_of_bounded hb1 x1
      have ha2 : ss2.getD x2s 0 < wB := getD_lt_of_bounded hb2 x2s
      obtain ⟨hiRel, hiLt, loLt⟩ :=
        mulTwoWords_spec (ss1.getD x1 0) (ss2.getD x2s 0) ha1 ha2
      obtain ⟨e1, elen, ebnd, ec⟩ := addTwoInts_spec (x1 + x2s) acc
        (MulTwoWords (ss1.getD x1 0) (ss2.getD x2s 0)).1
        (MulTwoWords (ss1.getD x1 0) (ss2.getD x2s 0)).2
        (by omega) hbacc
        (mulTwoWords_spec (ss1.getD x1 0) (ss2.getD x2s 0) ha1 ha2).2.2
        (mulTwoWords_spec (ss1.getD x1 0) (ss2.getD x2s 0) ha1 ha2).2.1
      have hterm : (MulTwoWords (ss1.getD x1 0) (ss2.getD x2s 0)).2
          + wB * (MulTwoWords (ss1.getD x1 0) (ss2.getD x2s 0)).1
          = ss1.getD x1 0 * ss2.getD x2s 0 := by
        rw [← hiRel]; ring
      rw [hterm] at e1
      have hpow : wB ^ (x1 + x2s) = wB ^ x2s * wB ^ x1 := by
        rw [pow_add]; ring
      rw [hpow] at e1
      have hslice : ss1.getD x1 0 * sliceVal ss2 x2s (l + 1) * wB ^ x1
          = ss1.getD x1 0 * ss2.getD x2s 0 * (wB ^ x2s * wB ^ x1)
            + ss1.getD x1 0 * sliceVal ss2 (x2s + 1) l * wB ^ x1 := by
        rw [sliceVal_succ]; ring
      rw [hslice] at hbound
      have hv'lt : wval (AddTwoInts acc
          (MulTwoWords (ss1.getD x1 0) (ss2.getD x2s 0)).1
          (MulTwoWords (ss1.getD x1 0) (ss2.getD x2s 0)).2 (x1 + x2s)).1
          < wB ^ acc.length := by
        have := wval_lt ebnd
        rwa [elen] at this
      have hc0 : (AddTwoInts acc
          (MulTwoWords (ss1.getD x1 0) (ss2.getD x2s 0)).1
          (MulTwoWords (ss1.getD x1 0) (ss2.getD x2s 0)).2 (x1 + x2s)).2 = 0 := by
        rcases Nat.le_one_iff_eq_zero_or_eq_one.mp ec with h0 | h1
        · exact h0
        · rw [h1, Nat.mul_one] at e1
          omega
      rw [hc0, Nat.mul_zero, Nat.add_zero] at e1
      have hstep : mulAccum ss1 ss2 acc x1 x2s
          = (AddTwoInts acc
              (MulTwoWords (ss1.getD x1 0) (ss2.getD x2s 0)).1
              (MulTwoWords (ss1.getD x1 0) (ss2.getD x2s 0)).2 (x1 + x2s)).1 := rfl
      rw [hstep]
      obtain ⟨ihv, ihl, ihb⟩ := ih (x2s + 1)
        (AddTwoInts acc
          (MulTwoWords (ss1.getD x1 0) (ss2.getD x2s 0)).1
          (MulTwoWords (ss1.getD x1 0) (ss2.getD x2s 0)).2 (x1 + x2s)).1
        (by omega) (by omega) ebnd (by rw [elen, e1]; omega)
      refine ⟨?_, by rw [ihl, elen], ihb⟩
      rw [ihv, e1, hslice]
      ring

/-- Effect of the outer `x1` loop of `Mul2Big3`: the accumulator gains the
product of the two window values. -/
theorem mulAccum_outer (ss1 ss2 : List ℕ) (hb1 : Bounded ss1) (hb2 : Bounded ss2)
    (x2s l2 a b : ℕ) (hx2 : x2s + l2 ≤ b) :
    ∀ l x1s acc, x1s + l ≤ a → a + b ≤ acc.length → Bounded acc →
      wval acc + sliceVal ss1 x1s l * sliceVal ss2 x2s l2 < wB ^ acc.length →
      wval (List.foldl
          (fun acc x1 => List.foldl
            (fun acc2 x2 => mulAccum ss1 ss2 acc2 x1 x2) acc
            (List.range' x2s l2)) acc (List.range' x1s l))
          = wval acc + sliceVal ss1 x1s l * sliceVal ss2 x2s l2 ∧
        (List.foldl
          (fun acc x1 => List.foldl
            (fun acc2 x2 => mulAccum ss1 ss2 acc2 x1 x2) acc
            (List.range' x2s l2)) acc (List.range' x1s l)).length = acc.length ∧
        Bounded (List.foldl
          (fun acc x1 => List.foldl
            (fun acc2 x2 => mulAccum ss1 ss2 acc2 x1 x2) acc
            (List.range' x2s l2)) acc (List.range' x1s l)) := by
  intro l
  induction l with
  | zero =>
      intro x1s acc _ _ hbacc _
      simp [sliceVal_zero_len, hbacc]
  | succ l ih =>
      intro x1s acc hx1 hlen hbacc hbound
      rw [List.range'_succ, List.foldl_cons]
      have hslice : sliceVal ss1 x1s (l + 1) * sliceVal ss2 x2s l2
          = ss1.getD x1s 0 * sliceVal ss2 x2s l2 * wB ^ x1s
            + sliceVal ss1 (x1s + 1) l * sliceVal ss2 x2s l2 := by
        rw [sliceVal_succ]; ring
      rw [hslice] at hbound
      obtain ⟨iv, il, ib⟩ := mulAccum_inner ss1 ss2 hb1 hb2 x1s a b (by omega)
        l2 x2s acc hx2 hlen hbacc (by omega)
      obtain ⟨ihv, ihl, ihb⟩ := ih (x1s + 1)
        (List.foldl (fun acc2 x2 => mulAccum ss1 ss2 acc2 x1s x2) acc
          (List.range' x2s l2))
        (by omega) (by omega) ib (by rw [il, iv]; omega)
      refine ⟨?_, by rw [ihl, il], ihb⟩
      rw [ihv, iv, hslice]
      ring

theorem mul2Big3_spec (ss1 ss2 : List ℕ) (hb1 : Bounded ss1) (hb2 : Bounded ss2)
    (x1s x1sz x2s x2sz : ℕ) (hs1 : x1s ≤ x1sz) (hs2 : x2s ≤ x2sz)
    (h1 : x1sz ≤ ss1.length) (h2 : x2sz ≤ ss1.length)
    (hprod : sliceVal ss1 x1s (x1sz - x1s) * sliceVal ss2 x2s (x2sz - x2s)
      < wB ^ (2 * ss1.length)) :
    wval (Mul2Big3 ss1 ss2 x1s x1sz x2s x2sz)
        = sliceVal ss1 x1s (x1sz - x1s) * sliceVal ss2 x2s (x2sz - x2s) ∧
      (Mul2Big3 ss1 ss2 x1s x1sz x2s x2sz).length = 2 * ss1.length ∧
      Bounded (Mul2Big3 ss1 ss2 x1s x1sz x2s x2sz) := by
  have hrepl : (List.replicate (2 * ss1.length) (0 : ℕ)).length = 2 * ss1.length :=
    List.length_replicate _ _
  obtain ⟨hv, hl, hb⟩ := mulAccum_outer ss1 ss2 hb1 hb2 x2s (x2sz - x2s)
    ss1.length ss1.length (by omega) (x1sz - x1s) x1s
    (List.replicate (2 * ss1.length) 0) (by omega) (by omega)
    (bounded_replicate_zero _)
    (by rw [wval_replicate_zero, hrepl]; omega)
  rw [wval_replicate_zero, Nat.zero_add] at hv
  rw [hrepl] at hl
  exact ⟨hv, hl, hb⟩

theorem mul2Big_spec (a b : List ℕ) (hlen : a.length = b.length)
    (hba : Bounded a) (hbb : Bounded b) :
    wval (Mul2Big a b) = wval a * wval b ∧
      (Mul2Big a b).length = 2 * a.length ∧ Bounded (Mul2Big a b) := by
  have hprod : wval a * wval b < wB ^ (2 * a.length) := by
    have h1 := wval_lt hba
    have h2 := wval_lt hbb
    rw [← hlen] at h2
    calc wval a * wval b < wB ^ a.length * wB ^ a.length :=
          Nat.mul_lt_mul'' h1 h2
      _ = wB ^ (2 * a.length) := by rw [← pow_add]; ring_nf
  unfold Mul2Big Mul2Big2
  by_cases hgt : 2 < a.length
  · rw [if_pos hgt]
    have hts1 := topSize_le a
    have hts2 := topSize_le b
    have hbs1 := botStart_le a (topSize a)
    have hbs2 := botStart_le b (topSize b)
    have hp1 := sliceVal_prune a
    have hp2 := sliceVal_prune b
    obtain ⟨hv, hl, hb⟩ := mul2Big3_spec a b hba hbb
      (botStart a (topSize a)) (topSize a) (botStart b (topSize b)) (topSize b)
      (by omega) (by omega) (by omega) (by omega)
      (by rw [hp1, hp2]; exact hprod)
    rw [hp1, hp2] at hv
    exact ⟨hv, hl, hb⟩
  · rw [if_neg hgt]
    have he1 : sliceVal a 0 (a.length - 0) = wval a := by
      rw [Nat.sub_zero, ← wval_eq_sliceVal]
    have he2 : sliceVal b 0 (a.length - 0) = wval b := by
      rw [Nat.sub_zero, hlen, ← wval_eq_sliceVal]
    obtain ⟨hv, hl, hb⟩ := mul2Big3_spec a b hba hbb 0 a.length 0 a.length
      (by omega) (by omega) le_rfl le_rfl
      (by rw [he1, he2]; exact hprod)
    rw [he1, he2] at hv
    exact ⟨hv, hl, hb⟩

theorem mul2_spec (a b : List ℕ) (hlen : a.length = b.length)
    (hba : Bounded a) (hbb : Bounded b) :
    wval (Mul2 a b).1 = wval a * wval b % wB ^ a.length ∧
      (Mul2 a b).1.length = a.length ∧ Bounded (Mul2 a b).1 := by
  obtain ⟨hv, hl, hb⟩ := mul2Big_spec a b hlen hba hbb
  have htake : (Mul2 a b).1 = (Mul2Big a b).take a.length := rfl
  rw [htake]
  have hlt : ((Mul2Big a b).take a.length).length = a.length := by
    rw [List.length_take, hl]
    omega
  have hbt : Bounded ((Mul2Big a b).take a.length) := by
    intro x hx
    exact hb x (List.mem_of_mem_take hx)
  refine ⟨?_, hlt, hbt⟩
  have hsplit := wval_take_drop a.length (Mul2Big a b)
  have hvt : wval ((Mul2Big a b).take a.length) < wB ^ a.length := by
    have := wval_lt hbt
    rwa [hlt] at this
  rw [hv] at hsplit
  rw [hsplit, Nat.add_mul_mod_self_left, Nat.mod_eq_of_lt hvt]

theorem uintAdd_val (xs ys : List ℕ) (hlen : xs.length = ys.length)
    (hbx : Bounded xs) (hby : Bounded ys) :
    wval (UIntAdd xs ys 0).1 = (wval xs + wval ys) % wB ^ xs.length := by
  obtain ⟨hv, hl, hb, hc⟩ := uintAdd_spec xs ys 0 hlen hbx hby (by omega)
  have hvl : wval (UIntAdd xs ys 0).1 < wB ^ xs.length := by
    have := wval_lt hb
    rwa [hl] at this
  rw [Nat.add_zero] at hv
  rw [← hv, Nat.add_mul_mod_self_left, Nat.mod_eq_of_lt hvl]

/-! ### Division: list and digit utilities -/

theorem wval_append (xs ys : List ℕ) :
    wval (xs ++ ys) = wval xs + wB ^ xs.length * wval ys := by
  induction xs with
  | nil => simp [wval]
  | cons x xs ih =>
      show x + wB * wval (xs ++ ys)
          = (x + wB * wval xs) + wB ^ (xs.length + 1) * wval ys
      rw [ih, pow_succ]
      ring

theorem bounded_append {xs ys : List ℕ} (hx : Bounded xs) (hy : Bounded ys) :
    Bounded (xs ++ ys) := by
  intro a ha
  rcases List.mem_append.mp ha with h | h
  · exact hx a h
  · exact hy a h

theorem bounded_take {xs : List ℕ} (h : Bounded xs) (k : ℕ) :
    Bounded (xs.take k) :=
  fun a ha => h a (List.take_subset k xs ha)

theorem bounded_drop {xs : List ℕ} (h : Bounded xs) (k : ℕ) :
    Bounded (xs.drop k) :=
  fun a ha => h a (List.drop_subset k xs ha)

theorem getD_eq_digit {xs : List ℕ} (h : Bounded xs) :
    ∀ i, xs.getD i 0 = wval xs / wB ^ i % wB := by
  induction xs with
  | nil => intro i; simp [wval]
  | cons x xs ih =>
      intro i
      obtain ⟨hx, hxs⟩ := bounded_cons.mp h
      cases i with
      | zero =>
          show x = (x + wB * wval xs) / 1 % wB
          rw [Nat.div_one, Nat.add_mul_mod_self_left, Nat.mod_eq_of_lt hx]
      | succ i =>
          show xs.getD i 0 = (x + wB * wval xs) / wB ^ (i + 1) % wB
          have hdiv : (x + wB * wval xs) / wB ^ (i + 1)
              = wval xs / wB ^ i := by
            rw [pow_succ, Nat.mul_comm (wB ^ i) wB, ← Nat.div_div_eq_div_mul]
            congr 1
            rw [Nat.add_mul_div_left x (wval xs) wB_pos,
              Nat.div_eq_of_lt hx, Nat.zero_add]
          rw [hdiv, ih hxs i]

theorem getD_take (xs : List ℕ) : ∀ n i : ℕ, i < n →
    (xs.take n).getD i 0 = xs.getD i 0 := by
  induction xs with
  | nil => intro n i _; simp
  | cons x xs ih =>
      intro n i hin
      cases n with
      | zero => omega
      | succ n =>
          cases i with
          | zero => simp
          | succ i => simpa using ih n i (by omega)

theorem getD_drop (xs : List ℕ) : ∀ j i : ℕ,
    (xs.drop j).getD i 0 = xs.getD (j + i) 0 := by
  induction xs with
  | nil => intro j i; simp
  | cons x xs ih =>
      intro j i
      cases j with
      | zero => simp
      | succ j =>
          show (xs.drop j).getD i 0 = (x :: xs).getD (j + 1 + i) 0
          have : j + 1 + i = (j + i) + 1 := by omega
          rw [this, List.getD_cons_succ, ih]

theorem getD_set (d : ℕ) : ∀ q : List ℕ, ∀ i k : ℕ,
    (q.set i d).getD k 0
      = if k = i ∧ i < q.length then d else q.getD k 0 := by
  intro q
  induction q with
  | nil => intro i k; simp
  | cons x xs ih =>
      intro i k
      cases i with
      | zero =>
          cases k with
          | zero => simp
          | succ k => simp
      | succ i =>
          cases k with
          | zero => simp
          | succ k =>
              show (xs.set i d).getD k 0
                  = if k + 1 = i + 1 ∧ i + 1 < xs.length + 1 then d
                    else xs.getD k 0
              rw [ih i k]
              by_cases h1 : k = i ∧ i < xs.length
              · rw [if_pos h1, if_pos (by omega)]
              · rw [if_neg h1, if_neg (by omega)]

theorem wval_set (d : ℕ) : ∀ q : List ℕ, ∀ i : ℕ, i < q.length →
    q.getD i 0 = 0 → wval (q.set i d) = wval q + d * wB ^ i := by
  intro q
  induction q with
  | nil => intro i hi _; simp at hi
  | cons x xs ih =>
      intro i hi h0
      cases i with
      | zero =>
          simp only [List.getD_cons_zero] at h0
          subst h0
          show d + wB * wval xs = (0 + wB * wval xs) + d * 1
          ring
      | succ i =>
          simp only [List.getD_cons_succ] at h0
          show x + wB * wval (xs.set i d)
              = (x + wB * wval xs) + d * wB ^ (i + 1)
          rw [ih i (by simpa using hi) h0, pow_succ]
          ring

theorem bounded_set {q : List ℕ} (h : Bounded q) {d : ℕ} (hd : d < wB) (i : ℕ) :
    Bounded (q.set i d) := by
  intro a ha
  rcases List.mem_or_eq_of_mem_set ha with h1 | h1
  · exact h a h1
  · rw [h1]; exact hd

theorem wval_take_of_lt_pow {xs : List ℕ} (n : ℕ)
    (hlt : wval xs < wB ^ n) : wval (xs.take n) = wval xs := by
  have htd := wval_take_drop n xs
  have hz : wval (xs.drop n) = 0 := by
    by_contra h0
    have h1 : 1 ≤ wval (xs.drop n) := by omega
    have h2 := Nat.mul_le_mul_left (wB ^ n) h1
    omega
  rw [htd, hz]
  ring

theorem wval_take_lt {xs : List ℕ} (h : Bounded xs) (k : ℕ) :
    wval (xs.take k) < wB ^ k := by
  have hb := bounded_take h k
  have h1 := wval_lt hb
  have h2 : wB ^ (xs.take k).length ≤ wB ^ k := by
    apply Nat.pow_le_pow_right (by rw [wB_val]; omega)
    simpa using Nat.min_le_left k xs.length
  omega

/-! ### Division: the single-word loop `DivInt` -/

theorem divIntLoop_spec (dividend : List ℕ) (divisor : ℕ)
    (hb : Bounded dividend) (hd2 : 2 ≤ divisor) (hdw : divisor ≤ wB) :
    ∀ i r, r < divisor →
      wval (divIntLoop dividend divisor i r).1 * divisor
          + (divIntLoop dividend divisor i r).2
        = wval (dividend.take i) + r * wB ^ i ∧
      (divIntLoop dividend divisor i r).1.length = i ∧
      Bounded (divIntLoop dividend divisor i r).1 ∧
      (divIntLoop dividend divisor i r).2 < divisor := by
  intro i
  induction i with
  | zero =>
      intro r hr
      exact ⟨by simp [divIntLoop, wval], rfl, bounded_nil, hr⟩
  | succ i ih =>
      intro r hr
      have hw : dividend.getD i 0 < wB := getD_lt_of_bounded hb i
      set x := dividend.getD i 0 with hx
      have hq2 : (r * wB + x) % divisor < divisor :=
        Nat.mod_lt _ (by omega)
      obtain ⟨ihv, ihl, ihb, ihr⟩ := ih ((r * wB + x) % divisor) hq2
      set ld := divIntLoop dividend divisor i ((r * wB + x) % divisor) with hld
      have hrun : divIntLoop dividend divisor (i + 1) r
          = (ld.1 ++ [(r * wB + x) / divisor], ld.2) := rfl
      rw [hrun]
      have hqlt : (r * wB + x) / divisor < wB := by
        apply Nat.div_lt_of_lt_mul
        calc r * wB + x < r * wB + wB := by omega
          _ = (r + 1) * wB := by ring
          _ ≤ divisor * wB := Nat.mul_le_mul_right wB (by omega)
      refine ⟨?_, by simp [ihl], ?_, ihr⟩
      · have htake : wval (dividend.take (i + 1))
            = wval (dividend.take i) + x * wB ^ i := by
          have h1 : dividend.take (i + 1) = dividend.take i
              ++ (dividend.drop i).take 1 := by
            rw [← List.take_add]
          by_cases hil : i < dividend.length
          · have h3 : dividend.drop i
                = dividend.getD i 0 :: dividend.drop (i + 1) := by
              rw [List.drop_eq_getElem_cons hil, List.getD_eq_getElem?_getD,
                List.getElem?_eq_getElem hil]
              rfl
            have h2 : (dividend.drop i).take 1 = [x] := by
              rw [h3, ← hx]
              rfl
            have h4 : (dividend.take i).length = i :=
              List.length_take_of_le (by omega)
            rw [h1, h2, wval_append, h4]
            show wval (dividend.take i) + wB ^ i * (x + wB * 0)
                = wval (dividend.take i) + x * wB ^ i
            ring
          · push_neg at hil
            have h2 : dividend.take (i + 1) = dividend :=
              List.take_of_length_le (by omega)
            have h3 : dividend.take i = dividend :=
              List.take_of_length_le (by omega)
            have h4 : x = 0 := by
              rw [hx, List.getD_eq_getElem?_getD, List.getElem?_eq_none hil]
              rfl
            rw [h2, h3, h4]
            ring
        have hsingle : wval [(r * wB + x) / divisor] = (r * wB + x) / divisor := by
          show (r * wB + x) / divisor + wB * 0 = (r * wB + x) / divisor
          ring
        show wval (ld.1 ++ [(r * wB + x) / divisor]) * divisor + ld.2
            = wval (dividend.take (i + 1)) + r * wB ^ (i + 1)
        rw [wval_append, ihl, hsingle, htake]
        have hdm : (r * wB + x) / divisor * divisor + (r * wB + x) % divisor
            = r * wB + x := Nat.div_add_mod' _ _
        calc (wval ld.1 + wB ^ i * ((r * wB + x) / divisor)) * divisor + ld.2
            = (wval ld.1 * divisor + ld.2)
              + ((r * wB + x) / divisor * divisor) * wB ^ i := by ring
          _ = (wval (dividend.take i) + (r * wB + x) % divisor * wB ^ i)
              + ((r * wB + x) / divisor * divisor) * wB ^ i := by rw [ihv]
          _ = wval (dividend.take i)
              + ((r * wB + x) / divisor * divisor + (r * wB + x) % divisor) * wB ^ i := by
              ring
          _ = wval (dividend.take i) + (r * wB + x) * wB ^ i := by rw [hdm]
          _ = wval (dividend.take i) + x * wB ^ i + r * wB ^ (i + 1) := by
              rw [pow_succ]; ring
      · intro a ha
        rcases List.mem_append.mp ha with h | h
        · exact ihb a h
        · rw [List.mem_singleton.mp h]; exact hqlt

theorem divIntL_spec (xs : List ℕ) (divisor : ℕ)
    (hb : Bounded xs) (hd : divisor ≠ 0) (hdw : divisor ≤ wB) :
    (DivIntL xs divisor).2.2 = 0 ∧
    (DivIntL xs divisor).1.length = xs.length ∧
    Bounded (DivIntL xs divisor).1 ∧
    wval (DivIntL xs divisor).1 * divisor + (DivIntL xs divisor).2.1 = wval xs ∧
    (DivIntL xs divisor).2.1 < divisor := by
  by_cases h1 : divisor = 1
  · subst h1
    have : DivIntL xs 1 = (xs, 0, 0) := rfl
    rw [this]
    exact ⟨rfl, rfl, hb, by simp, by show (0 : ℕ) < 1; omega⟩
  · have h2 : 2 ≤ divisor := by omega
    have hrun : DivIntL xs divisor
        = ((divIntLoop xs divisor xs.length 0).1,
           (divIntLoop xs divisor xs.length 0).2, 0) := by
      unfold DivIntL
      rw [if_neg hd, if_neg h1]
    obtain ⟨hv, hl, hbq, hr⟩ :=
      divIntLoop_spec xs divisor hb h2 hdw xs.length 0 (by omega)
    rw [hrun]
    refine ⟨rfl, hl, hbq, ?_, hr⟩
    rw [List.take_length] at hv
    simpa using hv

/-! ### Division: size scan and the standard test -/

theorem topSize_zero_iff (xs : List ℕ) : topSize xs = 0 ↔ wval xs = 0 := by
  induction xs with
  | nil => simp [topSize, wval]
  | cons x xs ih =>
      have hdef : topSize (x :: xs)
          = if topSize xs = 0 then (if x = 0 then 0 else 1) else topSize xs + 1 := rfl
      have hv : wval (x :: xs) = x + wB * wval xs := rfl
      rw [hdef, hv]
      by_cases ht : topSize xs = 0
      · rw [if_pos ht]
        have hx0 : wval xs = 0 := ih.mp ht
        by_cases hx : x = 0
        · simp [hx, hx0]
        · rw [if_neg hx, hx0]
          constructor
          · intro h; omega
          · intro h
            have := wB_pos
            omega
      · rw [if_neg ht]
        have hx0 : wval xs ≠ 0 := fun h => ht (ih.mpr h)
        constructor
        · intro h; omega
        · intro h
          have := wB_pos
          have : wB * wval xs = 0 := by omega
          have : wval xs = 0 := by
            rcases Nat.mul_eq_zero.mp this with h1 | h1
            · omega
            · exact h1
          exact absurd this hx0

theorem getD_topSize_ne_zero : ∀ xs : List ℕ, 0 < topSize xs →
    xs.getD (topSize xs - 1) 0 ≠ 0 := by
  intro xs
  induction xs with
  | nil => intro h; simp [topSize] at h
  | cons x xs ih =>
      intro h
      have hdef : topSize (x :: xs)
          = if topSize xs = 0 then (if x = 0 then 0 else 1) else topSize xs + 1 := rfl
      by_cases ht : topSize xs = 0
      · rw [hdef, if_pos ht] at h ⊢
        by_cases hx : x = 0
        · rw [if_pos hx] at h; omega
        · rw [if_neg hx]
          simpa using hx
      · rw [hdef, if_neg ht] at h ⊢
        have h1 : 0 < topSize xs := by omega
        have h2 : topSize xs + 1 - 1 = (topSize xs - 1) + 1 := by omega
        rw [h2, List.getD_cons_succ]
        exact ih h1

theorem wval_lt_topSize_pow (xs : List ℕ) (hb : Bounded xs) :
    wval xs < wB ^ topSize xs := by
  induction xs with
  | nil => simp [topSize, wval]
  | cons x xs ih =>
      obtain ⟨hx, hxs⟩ := bounded_cons.mp hb
      have hdef : topSize (x :: xs)
          = if topSize xs = 0 then (if x = 0 then 0 else 1) else topSize xs + 1 := rfl
      have hv : wval (x :: xs) = x + wB * wval xs := rfl
      rw [hdef, hv]
      by_cases ht : topSize xs = 0
      · have h0 : wval xs = 0 := (topSize_zero_iff xs).mp ht
        rw [if_pos ht, h0]
        by_cases hxz : x = 0
        · simp [hxz]
        · rw [if_neg hxz, pow_one]
          omega
      · rw [if_neg ht, pow_succ]
        have h1 := ih hxs
        calc x + wB * wval xs < wB + wB * wval xs := by omega
          _ = wB * (wval xs + 1) := by ring
          _ ≤ wB * wB ^ topSize xs := Nat.mul_le_mul_left wB (by omega)
          _ = wB ^ topSize xs * wB := by ring

theorem pow_le_wval_topSize : ∀ xs : List ℕ, 0 < topSize xs →
    wB ^ (topSize xs - 1) ≤ wval xs := by
  intro xs
  induction xs with
  | nil => intro h; simp [topSize] at h
  | cons x xs ih =>
      intro h
      have hdef : topSize (x :: xs)
          = if topSize xs = 0 then (if x = 0 then 0 else 1) else topSize xs + 1 := rfl
      have hv : wval (x :: xs) = x + wB * wval xs := rfl
      by_cases ht : topSize xs = 0
      · rw [hdef, if_pos ht] at h ⊢
        by_cases hx : x = 0
        · rw [if_pos hx] at h; omega
        · rw [if_neg hx, hv]
          have h10 : wB ^ (1 - 1) = 1 := by norm_num
          rw [h10]
          omega
      · rw [hdef, if_neg ht] at h ⊢
        rw [hv]
        have h1 : 0 < topSize xs := by omega
        have h2 := ih h1
        have h3 : topSize xs + 1 - 1 = (topSize xs - 1) + 1 := by omega
        rw [h3, pow_succ]
        calc wB ^ (topSize xs - 1) * wB = wB * wB ^ (topSize xs - 1) := by ring
          _ ≤ wB * wval xs := Nat.mul_le_mul_left wB h2
          _ ≤ x + wB * wval xs := by omega

theorem wval_take_succ (xs : List ℕ) (k : ℕ) :
    wval (xs.take (k + 1)) = wval (xs.take k) + xs.getD k 0 * wB ^ k := by
  have h1 : xs.take (k + 1) = xs.take k ++ (xs.drop k).take 1 := by
    rw [← List.take_add]
  by_cases hil : k < xs.length
  · have h3 : xs.drop k = xs.getD k 0 :: xs.drop (k + 1) := by
      rw [List.drop_eq_getElem_cons hil, List.getD_eq_getElem?_getD,
        List.getElem?_eq_getElem hil]
      rfl
    have h2 : (xs.drop k).take 1 = [xs.getD k 0] := by rw [h3]; rfl
    have h4 : (xs.take k).length = k := List.length_take_of_le (by omega)
    rw [h1, h2, wval_append, h4]
    show wval (xs.take k) + wB ^ k * (xs.getD k 0 + wB * 0)
        = wval (xs.take k) + xs.getD k 0 * wB ^ k
    ring
  · push_neg at hil
    have h2 : xs.take (k + 1) = xs := List.take_of_length_le (by omega)
    have h3 : xs.take k = xs := List.take_of_length_le (by omega)
    have h4 : xs.getD k 0 = 0 := by
      rw [List.getD_eq_getElem?_getD, List.getElem?_eq_none hil]
      rfl
    rw [h2, h3, h4]
    ring

theorem compare_add_right (a b c : ℕ) : compare (a + c) (b + c) = compare a b := by
  rcases Nat.lt_trichotomy a b with h | h | h
  · rw [Nat.compare_eq_lt.mpr h, Nat.compare_eq_lt.mpr (by omega)]
  · rw [h, Nat.compare_eq_eq.mpr rfl, Nat.compare_eq_eq.mpr rfl]
  · rw [Nat.compare_eq_gt.mpr h, Nat.compare_eq_gt.mpr (by omega)]

theorem cmpWordsDown_spec (u v : List ℕ) (hbu : Bounded u) (hbv : Bounded v) :
    ∀ i, cmpWordsDown u v i
      = compare (wval (u.take (i + 1))) (wval (v.take (i + 1))) := by
  intro i
  induction i with
  | zero =>
      have hu : wval (u.take 1) = u.getD 0 0 := by
        rw [wval_take_succ u 0]
        show 0 + u.getD 0 0 * 1 = u.getD 0 0
        ring
      have hv : wval (v.take 1) = v.getD 0 0 := by
        rw [wval_take_succ v 0]
        show 0 + v.getD 0 0 * 1 = v.getD 0 0
        ring
      show (if u.getD 0 0 < v.getD 0 0 then Ordering.lt
            else if u.getD 0 0 = v.getD 0 0 then Ordering.eq else Ordering.gt)
          = compare (wval (u.take 1)) (wval (v.take 1))
      rw [hu, hv]
      rcases Nat.lt_trichotomy (u.getD 0 0) (v.getD 0 0) with h | h | h
      · rw [if_pos h, Nat.compare_eq_lt.mpr h]
      · rw [if_neg (by omega), if_pos h, Nat.compare_eq_eq.mpr h]
      · rw [if_neg (by omega), if_neg (by omega), Nat.compare_eq_gt.mpr h]
  | succ i ih =>
      have hsu := wval_take_succ u (i + 1)
      have hsv := wval_take_succ v (i + 1)
      show (if u.getD (i + 1) 0 = v.getD (i + 1) 0 then cmpWordsDown u v i
            else if u.getD (i + 1) 0 < v.getD (i + 1) 0 then Ordering.lt
            else Ordering.gt)
          = compare (wval (u.take (i + 2))) (wval (v.take (i + 2)))
      rw [hsu, hsv]
      by_cases he : u.getD (i + 1) 0 = v.getD (i + 1) 0
      · rw [if_pos he, he, compare_add_right]
        exact ih
      · rw [if_neg he]
        have hulow := wval_take_lt hbu (i + 1)
        have hvlow := wval_take_lt hbv (i + 1)
        by_cases hlt : u.getD (i + 1) 0 < v.getD (i + 1) 0
        · rw [if_pos hlt]
          symm
          apply Nat.compare_eq_lt.mpr
          calc wval (u.take (i + 1)) + u.getD (i + 1) 0 * wB ^ (i + 1)
              < wB ^ (i + 1) + u.getD (i + 1) 0 * wB ^ (i + 1) := by omega
            _ = (u.getD (i + 1) 0 + 1) * wB ^ (i + 1) := by ring
            _ ≤ v.getD (i + 1) 0 * wB ^ (i + 1) :=
                Nat.mul_le_mul_right _ (by omega)
            _ ≤ wval (v.take (i + 1)) + v.getD (i + 1) 0 * wB ^ (i + 1) := by omega
        · rw [if_neg hlt]
          have hgt : v.getD (i + 1) 0 < u.getD (i + 1) 0 := by omega
          symm
          apply Nat.compare_eq_gt.mpr
          calc wval (v.take (i + 1)) + v.getD (i + 1) 0 * wB ^ (i + 1)
              < wB ^ (i + 1) + v.getD (i + 1) 0 * wB ^ (i + 1) := by omega
            _ = (v.getD (i + 1) 0 + 1) * wB ^ (i + 1) := by ring
            _ ≤ u.getD (i + 1) 0 * wB ^ (i + 1) :=
                Nat.mul_le_mul_right _ (by omega)
            _ ≤ wval (u.take (i + 1)) + u.getD (i + 1) 0 * wB ^ (i + 1) := by omega

/-- Case analysis of `Div_CalculatingSize`: the code together with the value
facts it implies. -/
theorem divCalculatingSize_spec (u v : List ℕ) (hbu : Bounded u) (hbv : Bounded v) :
    (Div_CalculatingSize u v = (1, 0, 0) ∧ wval v = 0) ∨
    (Div_CalculatingSize u v = (2, 0, 0) ∧ wval u = 0 ∧ wval v ≠ 0) ∨
    (Div_CalculatingSize u v = (3, topSize u - 1, topSize v - 1)
      ∧ wval u < wval v ∧ wval u ≠ 0) ∨
    (Div_CalculatingSize u v = (4, topSize u - 1, topSize v - 1)
      ∧ wval u = wval v ∧ wval v ≠ 0) ∨
    (Div_CalculatingSize u v = (0, topSize u - 1, topSize v - 1)
      ∧ wval v ≤ wval u ∧ wval v ≠ 0 ∧ topSize v ≤ topSize u ∧ 0 < topSize v) := by
  by_cases htv : topSize v = 0
  · left
    have hrun : Div_CalculatingSize u v = (1, 0, 0) := by
      unfold Div_CalculatingSize
      rw [if_pos htv]
    exact ⟨hrun, (topSize_zero_iff v).mp htv⟩
  · have hvne : wval v ≠ 0 := fun h => htv ((topSize_zero_iff v).mpr h)
    by_cases htu : topSize u = 0
    · right; left
      have hrun : Div_CalculatingSize u v = (2, 0, 0) := by
        unfold Div_CalculatingSize
        rw [if_neg htv, if_pos htu]
      exact ⟨hrun, (topSize_zero_iff u).mp htu, hvne⟩
    · have hune : wval u ≠ 0 := fun h => htu ((topSize_zero_iff u).mpr h)
      set m := topSize u - 1 with hm
      set n := topSize v - 1 with hn
      by_cases hmn : m < n
      · right; right; left
        have hrun : Div_CalculatingSize u v = (3, m, n) := by
          unfold Div_CalculatingSize
          rw [if_neg htv, if_neg htu, ← hm, ← hn, if_pos hmn]
        refine ⟨by rw [hrun], ?_, hune⟩
        calc wval u < wB ^ topSize u := wval_lt_topSize_pow u hbu
          _ ≤ wB ^ (topSize v - 1) := by
              apply Nat.pow_le_pow_right (by rw [wB_val]; omega)
              omega
          _ ≤ wval v := pow_le_wval_topSize v (by omega)
      · by_cases heq : m = n
        · have hcm := cmpWordsDown_spec u v hbu hbv n
          have huval : wval (u.take (n + 1)) = wval u := by
            apply wval_take_of_lt_pow
            have := wval_lt_topSize_pow u hbu
            have h2 : wB ^ topSize u ≤ wB ^ (n + 1) := by
              apply Nat.pow_le_pow_right (by rw [wB_val]; omega)
              omega
            omega
          have hvval : wval (v.take (n + 1)) = wval v := by
            apply wval_take_of_lt_pow
            have := wval_lt_topSize_pow v hbv
            have h2 : wB ^ topSize v ≤ wB ^ (n + 1) := by
              apply Nat.pow_le_pow_right (by rw [wB_val]; omega)
              omega
            omega
          rw [huval, hvval] at hcm
          rcases Nat.lt_trichotomy (wval u) (wval v) with hc | hc | hc
          · right; right; left
            have hrun : Div_CalculatingSize u v = (3, m, n) := by
              unfold Div_CalculatingSize
              rw [if_neg htv, if_neg htu, ← hm, ← hn, if_neg hmn, if_pos heq]
              rw [heq, hcm, Nat.compare_eq_lt.mpr hc]
            exact ⟨by rw [hrun], hc, hune⟩
          · right; right; right; left
            have hrun : Div_CalculatingSize u v = (4, m, n) := by
              unfold Div_CalculatingSize
              rw [if_neg htv, if_neg htu, ← hm, ← hn, if_neg hmn, if_pos heq]
              rw [heq, hcm, Nat.compare_eq_eq.mpr hc]
            exact ⟨by rw [hrun], hc, hvne⟩
          · right; right; right; right
            have hrun : Div_CalculatingSize u v = (0, m, n) := by
              unfold Div_CalculatingSize
              rw [if_neg htv, if_neg htu, ← hm, ← hn, if_neg hmn, if_pos heq]
              rw [heq, hcm, Nat.compare_eq_gt.mpr hc]
            exact ⟨by rw [hrun], by omega, hvne, by omega, by omega⟩
        · right; right; right; right
          have hgt : n < m := by omega
          have hrun : Div_CalculatingSize u v = (0, m, n) := by
            unfold Div_CalculatingSize
            rw [if_neg htv, if_neg htu, ← hm, ← hn, if_neg hmn, if_neg heq]
          refine ⟨by rw [hrun], ?_, hvne, by omega, by omega⟩
          apply le_of_lt
          calc wval v < wB ^ topSize v := wval_lt_topSize_pow v hbv
            _ ≤ wB ^ (topSize u - 1) := by
                apply Nat.pow_le_pow_right (by rw [wB_val]; omega)
                omega
            _ ≤ wval u := pow_le_wval_topSize u (by omega)

/-! ### Division: shifting lemmas -/

theorem rcl2Aux_spec (bits : ℕ) (hb1 : 1 ≤ bits) (hb2 : bits ≤ 63) :
    ∀ xs : List ℕ, ∀ cin : ℕ, Bounded xs → cin < 2 ^ bits →
    wval (rcl2Aux bits xs cin).1 + wB ^ xs.length * (rcl2Aux bits xs cin).2
        = wval xs * 2 ^ bits + cin ∧
      (rcl2Aux bits xs cin).1.length = xs.length ∧
      Bounded (rcl2Aux bits xs cin).1 ∧
      (rcl2Aux bits xs cin).2 < 2 ^ bits := by
  have hmb : (64 - bits) + bits = 64 := by omega
  have hWB : 2 ^ (64 - bits) * 2 ^ bits = wB := by
    rw [← pow_add, hmb, wB]
    rfl
  intro xs
  induction xs with
  | nil =>
      intro cin hb hc
      exact ⟨by simp [rcl2Aux, wval], rfl, bounded_nil, hc⟩
  | cons x xs ih =>
      intro cin hb hc
      obtain ⟨hx, hxs⟩ := bounded_cons.mp hb
      have hnc : x / 2 ^ (64 - bits) < 2 ^ bits := by
        apply Nat.div_lt_iff_lt_mul (Nat.pos_pow_of_pos _ (by omega)) |>.mpr
        calc x < wB := hx
          _ = 2 ^ bits * 2 ^ (64 - bits) := by rw [← hWB]; ring
      obtain ⟨ihv, ihl, ihb, ihc⟩ := ih (x / 2 ^ (64 - bits)) hxs hnc
      have hrun : rcl2Aux bits (x :: xs) cin
          = ((x * 2 ^ bits % wB + cin)
              :: (rcl2Aux bits xs (x / 2 ^ (64 - bits))).1,
             (rcl2Aux bits xs (x / 2 ^ (64 - bits))).2) := rfl
      rw [hrun]
      have hkey : x * 2 ^ bits % wB = x % 2 ^ (64 - bits) * 2 ^ bits := by
        rw [← hWB]
        exact Nat.mul_mod_mul_right _ _ _
      have hmlt : x % 2 ^ (64 - bits) < 2 ^ (64 - bits) :=
        Nat.mod_lt _ (Nat.pos_pow_of_pos _ (by omega))
      have hwlt : x * 2 ^ bits % wB + cin < wB := by
        rw [hkey]
        calc x % 2 ^ (64 - bits) * 2 ^ bits + cin
            < x % 2 ^ (64 - bits) * 2 ^ bits + 2 ^ bits := by omega
          _ = (x % 2 ^ (64 - bits) + 1) * 2 ^ bits := by ring
          _ ≤ 2 ^ (64 - bits) * 2 ^ bits := Nat.mul_le_mul_right _ (by omega)
          _ = wB := hWB
      refine ⟨?_, by simpa using ihl, bounded_cons.mpr ⟨hwlt, ihb⟩, ihc⟩
      have hxsplit : x % 2 ^ (64 - bits) * 2 ^ bits + x / 2 ^ (64 - bits) * wB
          = x * 2 ^ bits := by
        have hdm : 2 ^ (64 - bits) * (x / 2 ^ (64 - bits)) + x % 2 ^ (64 - bits)
            = x := Nat.div_add_mod x _
        calc x % 2 ^ (64 - bits) * 2 ^ bits + x / 2 ^ (64 - bits) * wB
            = x % 2 ^ (64 - bits) * 2 ^ bits
              + x / 2 ^ (64 - bits) * (2 ^ (64 - bits) * 2 ^ bits) := by rw [hWB]
          _ = (2 ^ (64 - bits) * (x / 2 ^ (64 - bits)) + x % 2 ^ (64 - bits))
              * 2 ^ bits := by ring
          _ = x * 2 ^ bits := by rw [hdm]
      show (x * 2 ^ bits % wB + cin)
          + wB * wval (rcl2Aux bits xs (x / 2 ^ (64 - bits))).1
          + wB ^ (xs.length + 1) * (rcl2Aux bits xs (x / 2 ^ (64 - bits))).2
          = (x + wB * wval xs) * 2 ^ bits + cin
      rw [pow_succ, hkey]
      calc x % 2 ^ (64 - bits) * 2 ^ bits + cin
          + wB * wval (rcl2Aux bits xs (x / 2 ^ (64 - bits))).1
          + wB ^ xs.length * wB * (rcl2Aux bits xs (x / 2 ^ (64 - bits))).2
          = x % 2 ^ (64 - bits) * 2 ^ bits + cin
            + wB * (wval (rcl2Aux bits xs (x / 2 ^ (64 - bits))).1
              + wB ^ xs.length * (rcl2Aux bits xs (x / 2 ^ (64 - bits))).2) := by
            ring
        _ = x % 2 ^ (64 - bits) * 2 ^ bits + cin
            + wB * (wval xs * 2 ^ bits + x / 2 ^ (64 - bits)) := by rw [ihv]
        _ = (x % 2 ^ (64 - bits) * 2 ^ bits + x / 2 ^ (64 - bits) * wB)
            + wB * wval xs * 2 ^ bits + cin := by ring
        _ = x * 2 ^ bits + wB * wval xs * 2 ^ bits + cin := by rw [hxsplit]
        _ = (x + wB * wval xs) * 2 ^ bits + cin := by ring

theorem rcl2One_spec : ∀ xs : List ℕ, ∀ cin : ℕ, Bounded xs → cin < 2 →
    wval (Rcl2_one xs cin).1 + wB ^ xs.length * (Rcl2_one xs cin).2
        = wval xs * 2 + cin ∧
      (Rcl2_one xs cin).1.length = xs.length ∧
      Bounded (Rcl2_one xs cin).1 ∧
      (Rcl2_one xs cin).2 < 2 := by
  intro xs
  induction xs with
  | nil =>
      intro cin hb hc
      exact ⟨by simp [Rcl2_one, wval], rfl, bounded_nil, hc⟩
  | cons x xs ih =>
      intro cin hb hc
      obtain ⟨hx, hxs⟩ := bounded_cons.mp hb
      have hnc : (if 2 ^ 63 ≤ x then 1 else 0) < 2 := by split_ifs <;> omega
      obtain ⟨ihv, ihl, ihb, ihc⟩ := ih (if 2 ^ 63 ≤ x then 1 else 0) hxs hnc
      have hrun : Rcl2_one (x :: xs) cin
          = ((x * 2 % wB + cin)
              :: (Rcl2_one xs (if 2 ^ 63 ≤ x then 1 else 0)).1,
             (Rcl2_one xs (if 2 ^ 63 ≤ x then 1 else 0)).2) := rfl
      rw [hrun]
      have hx63 : x < 2 ^ 63 * 2 := by rw [wB_val] at hx; norm_num; omega
      have hkey : x * 2 % wB + (if 2 ^ 63 ≤ x then 1 else 0) * wB = x * 2 := by
        rw [wB_val]
        rw [wB_val] at hx
        split_ifs with h63 <;> [skip; skip] <;>
          [ (rw [Nat.mod_eq_sub_mod (by norm_num at h63 ⊢; omega),
              Nat.mod_eq_of_lt (by omega)]; omega);
            (rw [Nat.mod_eq_of_lt (by norm_num at h63 ⊢; omega)]; omega)]
      have hwlt : x * 2 % wB + cin < wB := by
        have h1 : x * 2 % wB ≤ wB - 2 := by
          rw [wB_val]
          rw [wB_val] at hx
          have : x * 2 % 18446744073709551616 % 2 = 0 := by
            rw [Nat.mod_mod_of_dvd _ (by norm_num)]
            omega
          have h2 : x * 2 % 18446744073709551616 < 18446744073709551616 :=
            Nat.mod_lt _ (by norm_num)
          omega
        rw [wB_val] at h1 ⊢
        omega
      refine ⟨?_, by simpa using ihl, bounded_cons.mpr ⟨hwlt, ihb⟩, ihc⟩
      show (x * 2 % wB + cin)
          + wB * wval (Rcl2_one xs (if 2 ^ 63 ≤ x then 1 else 0)).1
          + wB ^ (xs.length + 1) * (Rcl2_one xs (if 2 ^ 63 ≤ x then 1 else 0)).2
          = (x + wB * wval xs) * 2 + cin
      rw [pow_succ]
      calc (x * 2 % wB + cin)
          + wB * wval (Rcl2_one xs (if 2 ^ 63 ≤ x then 1 else 0)).1
          + wB ^ xs.length * wB * (Rcl2_one xs (if 2 ^ 63 ≤ x then 1 else 0)).2
          = (x * 2 % wB + cin)
            + wB * (wval (Rcl2_one xs (if 2 ^ 63 ≤ x then 1 else 0)).1
              + wB ^ xs.length * (Rcl2_one xs (if 2 ^ 63 ≤ x then 1 else 0)).2) := by
            ring
        _ = (x * 2 % wB + cin)
            + wB * (wval xs * 2 + (if 2 ^ 63 ≤ x then 1 else 0)) := by rw [ihv]
        _ = (x * 2 % wB + (if 2 ^ 63 ≤ x then 1 else 0) * wB)
            + wB * wval xs * 2 + cin := by ring
        _ = x * 2 + wB * wval xs * 2 + cin := by rw [hkey]
        _ = (x + wB * wval xs) * 2 + cin := by ring

theorem rcl_val (xs : List ℕ) (bits : ℕ) (hb : Bounded xs)
    (h1 : 1 ≤ bits) (h2 : bits ≤ 63) :
    wval (Rcl xs bits 0).1 = wval xs * 2 ^ bits % wB ^ xs.length ∧
      (Rcl xs bits 0).1.length = xs.length ∧ Bounded (Rcl xs bits 0).1 := by
  have hmod : ∀ ys : List ℕ, ∀ k κ : ℕ, Bounded ys →
      wval ys + wB ^ xs.length * κ = k →
      ys.length = xs.length → wval ys = k % wB ^ xs.length := by
    intro ys k κ hby hsum hlen
    have hlt : wval ys < wB ^ xs.length := by
      have := wval_lt hby
      rwa [hlen] at this
    rw [← hsum, Nat.add_mul_mod_self_left, Nat.mod_eq_of_lt hlt]
  have hnotge : ¬ 64 ≤ bits := by omega
  have hne : bits ≠ 0 := by omega
  by_cases hb1 : bits = 1
  · subst hb1
    have hrun : Rcl xs 1 0 = Rcl2_one xs 0 := by
      unfold Rcl
      rw [if_neg hne, if_neg hnotge]
      rfl
    obtain ⟨hv, hl, hbb, hc⟩ := rcl2One_spec xs 0 hb (by omega)
    rw [hrun]
    refine ⟨?_, hl, hbb⟩
    have := hmod (Rcl2_one xs 0).1 (wval xs * 2) (Rcl2_one xs 0).2 hbb
      (by omega) hl
    rw [this]
    norm_num
  · by_cases hb2' : bits = 2
    · subst hb2'
      have hrun : Rcl xs 2 0 = Rcl2_one (Rcl2_one xs 0).1 0 := by
        unfold Rcl
        rw [if_neg hne, if_neg hnotge]
        rfl
      obtain ⟨hv1, hl1, hbb1, hc1⟩ := rcl2One_spec xs 0 hb (by omega)
      obtain ⟨hv2, hl2, hbb2, hc2⟩ := rcl2One_spec (Rcl2_one xs 0).1 0 hbb1 (by omega)
      rw [hrun]
      refine ⟨?_, by rw [hl2, hl1], hbb2⟩
      have hv1' : wval (Rcl2_one xs 0).1 = wval xs * 2 % wB ^ xs.length := by
        have := hmod (Rcl2_one xs 0).1 (wval xs * 2) (Rcl2_one xs 0).2 hbb1
          (by omega) hl1
        rw [this]
      have hv2' : wval (Rcl2_one (Rcl2_one xs 0).1 0).1
          = (wval (Rcl2_one xs 0).1 * 2) % wB ^ xs.length := by
        rw [hl1] at hv2
        have := hmod (Rcl2_one (Rcl2_one xs 0).1 0).1
          (wval (Rcl2_one xs 0).1 * 2) (Rcl2_one (Rcl2_one xs 0).1 0).2 hbb2
          (by omega) (by rw [hl2, hl1])
        rw [this]
      rw [hv2', hv1', Nat.mod_mul_mod]
      have : wval xs * 2 * 2 = wval xs * 2 ^ 2 := by ring
      rw [this]
    · have hb3 : 3 ≤ bits := by omega
      have hrun : Rcl xs bits 0 = Rcl2 xs bits 0 := by
        unfold Rcl
        rw [if_neg hne, if_neg hnotge]
        show (if bits = 0 then (xs, 0)
              else if bits = 1 then Rcl2_one xs 0
              else if bits = 2 then Rcl2_one (Rcl2_one xs 0).1 0
              else Rcl2 xs bits 0) = Rcl2 xs bits 0
        rw [if_neg hne, if_neg hb1, if_neg hb2']
      have hcin : Rcl2 xs bits 0 = ((rcl2Aux bits xs 0).1, (rcl2Aux bits xs 0).2 % 2) := by
        unfold Rcl2
        norm_num
      obtain ⟨hv, hl, hbb, hc⟩ := rcl2Aux_spec bits (by omega) h2 xs 0 hb
        (Nat.pos_pow_of_pos _ (by omega))
      rw [hrun, hcin]
      refine ⟨?_, hl, hbb⟩
      have := hmod (rcl2Aux bits xs 0).1 (wval xs * 2 ^ bits) (rcl2Aux bits xs 0).2
        hbb (by omega) hl
      exact this

theorem rcr2Aux_spec (bits : ℕ) (hb1 : 1 ≤ bits) (hb2 : bits ≤ 63) :
    ∀ xs : List ℕ, ∀ γ : ℕ, Bounded xs → γ < 2 ^ bits →
    wval (rcr2Aux bits xs (γ * 2 ^ (64 - bits))).1
        = (wval xs + γ * wB ^ xs.length) / 2 ^ bits ∧
      (rcr2Aux bits xs (γ * 2 ^ (64 - bits))).2
        = (wval xs + γ * wB ^ xs.length) % 2 ^ bits * 2 ^ (64 - bits) ∧
      (rcr2Aux bits xs (γ * 2 ^ (64 - bits))).1.length = xs.length ∧
      Bounded (rcr2Aux bits xs (γ * 2 ^ (64 - bits))).1 := by
  have hmb : (64 - bits) + bits = 64 := by omega
  have hWB : 2 ^ (64 - bits) * 2 ^ bits = wB := by
    rw [← pow_add, hmb, wB]
    rfl
  intro xs
  induction xs with
  | nil =>
      intro γ hb hγ
      refine ⟨?_, ?_, rfl, bounded_nil⟩
      · show (0 : ℕ) = (0 + γ * 1) / 2 ^ bits
        rw [Nat.zero_add, Nat.mul_one, Nat.div_eq_of_lt hγ]
      · show γ * 2 ^ (64 - bits) = (0 + γ * 1) % 2 ^ bits * 2 ^ (64 - bits)
        rw [Nat.zero_add, Nat.mul_one, Nat.mod_eq_of_lt hγ]
  | cons x xs ih =>
      intro γ hb hγ
      obtain ⟨hx, hxs⟩ := bounded_cons.mp hb
      obtain ⟨ihv, ihc, ihl, ihb⟩ := ih γ hxs hγ
      have hrun : rcr2Aux bits (x :: xs) (γ * 2 ^ (64 - bits))
          = ((x / 2 ^ bits + (rcr2Aux bits xs (γ * 2 ^ (64 - bits))).2)
              :: (rcr2Aux bits xs (γ * 2 ^ (64 - bits))).1,
             x % 2 ^ bits * 2 ^ (64 - bits)) := rfl
      rw [hrun]
      set A := wval xs + γ * wB ^ xs.length with hA
      have hxdiv : x / 2 ^ bits < 2 ^ (64 - bits) := by
        apply Nat.div_lt_iff_lt_mul (Nat.pos_pow_of_pos _ (by omega)) |>.mpr
        calc x < wB := hx
          _ = 2 ^ (64 - bits) * 2 ^ bits := hWB.symm
      have hAmod : A % 2 ^ bits < 2 ^ bits :=
        Nat.mod_lt _ (Nat.pos_pow_of_pos _ (by omega))
      have hwlt : x / 2 ^ bits + A % 2 ^ bits * 2 ^ (64 - bits) < wB := by
        calc x / 2 ^ bits + A % 2 ^ bits * 2 ^ (64 - bits)
            < 2 ^ (64 - bits) + A % 2 ^ bits * 2 ^ (64 - bits) := by omega
          _ = (A % 2 ^ bits + 1) * 2 ^ (64 - bits) := by ring
          _ ≤ 2 ^ bits * 2 ^ (64 - bits) := Nat.mul_le_mul_right _ (by omega)
          _ = wB := by rw [← hWB]; ring
      have hfull : x + wB * wval xs + γ * wB ^ (xs.length + 1)
          = x + wB * A := by
        rw [hA, pow_succ]
        ring
      refine ⟨?_, ?_, by simpa using ihl, bounded_cons.mpr ⟨by rw [ihc]; exact hwlt, ihb⟩⟩
      · show x / 2 ^ bits + (rcr2Aux bits xs (γ * 2 ^ (64 - bits))).2
            + wB * wval (rcr2Aux bits xs (γ * 2 ^ (64 - bits))).1
            = (x + wB * wval xs + γ * wB ^ (xs.length + 1)) / 2 ^ bits
        rw [hfull, ihv, ihc]
        have hdivstep : (x + wB * A) / 2 ^ bits = x / 2 ^ bits + 2 ^ (64 - bits) * A := by
          have : x + wB * A = x + (2 ^ (64 - bits) * A) * 2 ^ bits := by
            rw [← hWB]; ring
          rw [this, Nat.add_mul_div_right _ _ (Nat.pos_pow_of_pos _ (by omega))]
        rw [hdivstep]
        have hAspl : 2 ^ (64 - bits) * A
            = A % 2 ^ bits * 2 ^ (64 - bits) + wB * (A / 2 ^ bits) := by
          have hdm : 2 ^ bits * (A / 2 ^ bits) + A % 2 ^ bits = A :=
            Nat.div_add_mod A _
          calc 2 ^ (64 - bits) * A
              = 2 ^ (64 - bits) * (2 ^ bits * (A / 2 ^ bits) + A % 2 ^ bits) := by
                rw [hdm]
            _ = A % 2 ^ bits * 2 ^ (64 - bits)
                + (2 ^ (64 - bits) * 2 ^ bits) * (A / 2 ^ bits) := by ring
            _ = A % 2 ^ bits * 2 ^ (64 - bits) + wB * (A / 2 ^ bits) := by rw [hWB]
        rw [hAspl]
        ring
      · show x % 2 ^ bits * 2 ^ (64 - bits)
            = (x + wB * wval xs + γ * wB ^ (xs.length + 1)) % 2 ^ bits * 2 ^ (64 - bits)
        rw [hfull]
        congr 1
        have : x + wB * A = x + 2 ^ bits * (2 ^ (64 - bits) * A) := by
          rw [← hWB]; ring
        rw [this, Nat.add_mul_mod_self_left]

theorem rcr2One_spec (xs : List ℕ) (hb : Bounded xs) :
    wval (Rcr2_one xs 0).1 = wval xs / 2 ∧
      (Rcr2_one xs 0).1.length = xs.length ∧ Bounded (Rcr2_one xs 0).1 := by
  have haux : ∀ ys : List ℕ, Bounded ys →
      wval (rcr2OneAux ys 0).1 = wval ys / 2 ∧
      (rcr2OneAux ys 0).2 = wval ys % 2 * 2 ^ 63 ∧
      (rcr2OneAux ys 0).1.length = ys.length ∧
      Bounded (rcr2OneAux ys 0).1 := by
    intro ys hby
    induction ys with
    | nil => exact ⟨rfl, rfl, rfl, bounded_nil⟩
    | cons x xs ih =>
        obtain ⟨hx, hxs⟩ := bounded_cons.mp hby
        obtain ⟨ihv, ihc, ihl, ihb⟩ := ih hxs
        have hrun : rcr2OneAux (x :: xs) 0
            = ((x / 2 + (rcr2OneAux xs 0).2) :: (rcr2OneAux xs 0).1,
               x % 2 * 2 ^ 63) := rfl
        rw [hrun]
        have hwlt : x / 2 + wval xs % 2 * 2 ^ 63 < wB := by
          rw [wB_val] at hx ⊢
          have h1 : x / 2 < 9223372036854775808 := by omega
          have h2 : wval xs % 2 ≤ 1 := by omega
          have h3 : wval xs % 2 * 2 ^ 63 ≤ 9223372036854775808 := by
            calc wval xs % 2 * 2 ^ 63 ≤ 1 * 2 ^ 63 := Nat.mul_le_mul_right _ h2
              _ = 9223372036854775808 := by norm_num
          omega
        refine ⟨?_, ?_, by simpa using ihl,
          bounded_cons.mpr ⟨by rw [ihc]; exact hwlt, ihb⟩⟩
        · show x / 2 + (rcr2OneAux xs 0).2 + wB * wval (rcr2OneAux xs 0).1
              = (x + wB * wval xs) / 2
          rw [ihv, ihc]
          have hsplit : (x + wB * wval xs) / 2 = x / 2 + 2 ^ 63 * wval xs := by
            have h1 : x + wB * wval xs = x + (2 ^ 63 * wval xs) * 2 := by
              rw [wB_val]; ring_nf
            rw [h1, Nat.add_mul_div_right _ _ (by omega : (0:ℕ) < 2)]
          rw [hsplit]
          have h2 : 2 ^ 63 * wval xs
              = wval xs % 2 * 2 ^ 63 + wB * (wval xs / 2) := by
            have hdm : 2 * (wval xs / 2) + wval xs % 2 = wval xs :=
              Nat.div_add_mod _ _
            calc 2 ^ 63 * wval xs = 2 ^ 63 * (2 * (wval xs / 2) + wval xs % 2) := by
                  rw [hdm]
              _ = wval xs % 2 * 2 ^ 63 + (2 ^ 63 * 2) * (wval xs / 2) := by ring
              _ = wval xs % 2 * 2 ^ 63 + wB * (wval xs / 2) := by
                  rw [wB_val]; norm_num
          rw [h2]
          ring
        · show x % 2 * 2 ^ 63 = (x + wB * wval xs) % 2 * 2 ^ 63
          congr 1
          rw [wB_val]
          omega
  obtain ⟨hv, hc, hl, hbb⟩ := haux xs hb
  have hrun : Rcr2_one xs 0 = ((rcr2OneAux xs 0).1,
      if (rcr2OneAux xs 0).2 ≠ 0 then 1 else 0) := by
    unfold Rcr2_one
    norm_num
  rw [hrun]
  exact ⟨hv, hl, hbb⟩

theorem rcr_val (xs : List ℕ) (bits : ℕ) (hb : Bounded xs) (h2 : bits ≤ 63) :
    wval (Rcr xs bits 0).1 = wval xs / 2 ^ bits ∧
      (Rcr xs bits 0).1.length = xs.length ∧ Bounded (Rcr xs bits 0).1 := by
  by_cases h0 : bits = 0
  · subst h0
    have hrun : Rcr xs 0 0 = (xs, 0) := by
      unfold Rcr
      rw [if_pos rfl]
    rw [hrun]
    exact ⟨by norm_num, rfl, hb⟩
  · have hnotge : ¬ 64 ≤ bits := by omega
    by_cases hb1 : bits = 1
    · subst hb1
      have hrun : Rcr xs 1 0 = Rcr2_one xs 0 := by
        unfold Rcr
        rw [if_neg (by omega), if_neg hnotge]
        rfl
      obtain ⟨hv, hl, hbb⟩ := rcr2One_spec xs hb
      rw [hrun]
      exact ⟨by rw [hv]; norm_num, hl, hbb⟩
    · by_cases hb2' : bits = 2
      · subst hb2'
        have hrun : Rcr xs 2 0 = Rcr2_one (Rcr2_one xs 0).1 0 := by
          unfold Rcr
          rw [if_neg (by omega), if_neg hnotge]
          rfl
        obtain ⟨hv1, hl1, hbb1⟩ := rcr2One_spec xs hb
        obtain ⟨hv2, hl2, hbb2⟩ := rcr2One_spec (Rcr2_one xs 0).1 hbb1
        rw [hrun]
        refine ⟨?_, by rw [hl2, hl1], hbb2⟩
        rw [hv2, hv1, Nat.div_div_eq_div_mul]
        norm_num
      · have hb3 : 3 ≤ bits := by omega
        have hrun : Rcr xs bits 0
            = ((rcr2Aux bits xs 0).1,
               if 2 ^ 63 ≤ (rcr2Aux bits xs 0).2 then 1 else 0) := by
          unfold Rcr
          rw [if_neg (by omega), if_neg hnotge]
          show (if bits = 0 then (xs, (0:ℕ))
                else if bits = 1 then Rcr2_one xs 0
                else if bits = 2 then Rcr2_one (Rcr2_one xs 0).1 0
                else Rcr2 xs bits 0)
              = ((rcr2Aux bits xs 0).1,
                 if 2 ^ 63 ≤ (rcr2Aux bits xs 0).2 then 1 else 0)
          rw [if_neg h0, if_neg hb1, if_neg hb2']
          unfold Rcr2
          norm_num
        have hγ : (0 : ℕ) * 2 ^ (64 - bits) = 0 := by ring
        obtain ⟨hv, hc, hl, hbb⟩ := rcr2Aux_spec bits (by omega) h2 xs 0 hb
          (Nat.pos_pow_of_pos _ (by omega))
        rw [hγ] at hv hc hl hbb
        rw [hrun]
        refine ⟨?_, hl, hbb⟩
        rw [hv]
        norm_num

/-! ### Division: the leading-bit scan -/

theorem flbLoop_spec : ∀ fuel x bit : ℕ, 0 < x → x < wB → bit ≤ 63 →
    2 ^ (63 - bit) ≤ x → bit + 1 ≤ fuel →
    2 ^ 63 ≤ x * 2 ^ (bit - flbLoop fuel x bit) ∧
      x * 2 ^ (bit - flbLoop fuel x bit) < 2 ^ 64 ∧
      flbLoop fuel x bit ≤ bit := by
  intro fuel
  induction fuel with
  | zero => intro x bit _ _ _ _ hf; omega
  | succ f ih =>
      intro x bit hx hxw hb hlow hf
      by_cases htop : x / 2 ^ 63 = 0
      · have hlt : x < 2 ^ 63 := by
          by_contra h
          push_neg at h
          have : 1 ≤ x / 2 ^ 63 := Nat.one_le_div_iff (by norm_num) |>.mpr h
          omega
        have hbit1 : 1 ≤ bit := by
          by_contra h
          push_neg at h
          interval_cases bit
          simp at hlow
          omega
        have hrun : flbLoop (f + 1) x bit = flbLoop f (x * 2 % wB) (bit - 1) := by
          show (if x / 2 ^ 63 = 0 then flbLoop f (x * 2 % wB) (bit - 1) else bit)
              = flbLoop f (x * 2 % wB) (bit - 1)
          rw [if_pos htop]
        have hx2 : x * 2 % wB = x * 2 := by
          apply Nat.mod_eq_of_lt
          rw [wB_val]
          omega
        rw [hrun, hx2]
        have hlow' : 2 ^ (63 - (bit - 1)) ≤ x * 2 := by
          have h1 : 63 - (bit - 1) = (63 - bit) + 1 := by omega
          rw [h1, pow_succ]
          exact Nat.mul_le_mul_right 2 hlow
        obtain ⟨c1, c2, c3⟩ := ih (x * 2) (bit - 1) (by omega)
          (by rw [wB_val]; omega)
          (by omega) hlow' (by omega)
        have heq : x * 2 * 2 ^ (bit - 1 - flbLoop f (x * 2) (bit - 1))
            = x * 2 ^ (bit - flbLoop f (x * 2) (bit - 1)) := by
          have h1 : bit - flbLoop f (x * 2) (bit - 1)
              = (bit - 1 - flbLoop f (x * 2) (bit - 1)) + 1 := by omega
          rw [h1, pow_succ]
          ring
        rw [heq] at c1 c2
        exact ⟨c1, c2, by omega⟩
      · have hge : 2 ^ 63 ≤ x := by
          rcases Nat.lt_or_ge x (2 ^ 63) with h | h
          · exact absurd (Nat.div_eq_of_lt h) htop
          · exact h
        have hrun : flbLoop (f + 1) x bit = bit := by
          show (if x / 2 ^ 63 = 0 then flbLoop f (x * 2 % wB) (bit - 1) else bit)
              = bit
          rw [if_neg htop]
        rw [hrun]
        have : bit - bit = 0 := by omega
        rw [this, pow_zero, Nat.mul_one]
        exact ⟨hge, by rw [wB_val] at hxw; norm_num; omega, le_rfl⟩

theorem findLeadingBit_spec (x : ℕ) (hx : 0 < x) (hxw : x < wB) :
    FindLeadingBitInWord x ≤ 63 ∧
      2 ^ FindLeadingBitInWord x ≤ x ∧
      x < 2 ^ (FindLeadingBitInWord x + 1) := by
  have hrun : FindLeadingBitInWord x = flbLoop 64 x 63 := by
    unfold FindLeadingBitInWord
    rw [if_neg (by omega)]
  obtain ⟨c1, c2, c3⟩ := flbLoop_spec 64 x 63 hx hxw (by omega)
    (by norm_num; omega) (by omega)
  rw [hrun]
  set b := flbLoop 64 x 63 with hbd
  refine ⟨by omega, ?_, ?_⟩
  · have h1 : (2:ℕ) ^ 63 = 2 ^ b * 2 ^ (63 - b) := by
      rw [← pow_add]
      congr 1
      omega
    rw [h1] at c1
    exact Nat.le_of_mul_le_mul_right (by
      calc 2 ^ b * 2 ^ (63 - b) ≤ x * 2 ^ (63 - b) := c1) (Nat.pos_pow_of_pos _ (by omega))
  · have h1 : (2:ℕ) ^ 64 = 2 ^ (b + 1) * 2 ^ (63 - b) := by
      rw [← pow_add]
      congr 1
      omega
    rw [h1] at c2
    exact Nat.lt_of_mul_lt_mul_right c2

/-! ### Division: one-word addition and multiplication on tables -/

theorem addIntL_spec : ∀ index : ℕ, ∀ tbl : List ℕ, ∀ value : ℕ,
    index + 1 ≤ tbl.length → Bounded tbl → value < wB →
    wval (AddIntL tbl value index).1 + wB ^ tbl.length * (AddIntL tbl value index).2
        = wval tbl + value * wB ^ index ∧
      (AddIntL tbl value index).1.length = tbl.length ∧
      Bounded (AddIntL tbl value index).1 ∧
      (AddIntL tbl value index).2 ≤ 1 := by
  intro index
  induction index with
  | zero =>
      intro tbl value hlen hb hv
      match tbl, hlen with
      | t0 :: rest, _ =>
        obtain ⟨ht0, hrest⟩ := bounded_cons.mp hb
        obtain ⟨h0, h0lt, h0c⟩ := addTwoWords_spec t0 value 0 ht0 hv (by omega)
        obtain ⟨hcv, hcl, hcb, hcc⟩ :=
          addCarry_spec rest (AddTwoWords t0 value 0).2 hrest h0c
        have hrun : AddIntL (t0 :: rest) value 0
            = ((AddTwoWords t0 value 0).1
                :: (addCarry rest (AddTwoWords t0 value 0).2).1,
               (addCarry rest (AddTwoWords t0 value 0).2).2) := rfl
        rw [hrun]
        refine ⟨?_, by simpa using hcl, bounded_cons.mpr ⟨h0lt, hcb⟩, hcc⟩
        show (AddTwoWords t0 value 0).1
            + wB * wval (addCarry rest (AddTwoWords t0 value 0).2).1
            + wB ^ (rest.length + 1)
              * (addCarry rest (AddTwoWords t0 value 0).2).2
            = (t0 + wB * wval rest) + value * wB ^ 0
        rw [pow_succ, pow_zero]
        calc (AddTwoWords t0 value 0).1
            + wB * wval (addCarry rest (AddTwoWords t0 value 0).2).1
            + wB ^ rest.length * wB * (addCarry rest (AddTwoWords t0 value 0).2).2
            = (AddTwoWords t0 value 0).1
              + wB * (wval (addCarry rest (AddTwoWords t0 value 0).2).1
                + wB ^ rest.length * (addCarry rest (AddTwoWords t0 value 0).2).2) := by
              ring
          _ = (AddTwoWords t0 value 0).1
              + wB * (wval rest + (AddTwoWords t0 value 0).2) := by rw [hcv]
          _ = ((AddTwoWords t0 value 0).1 + wB * (AddTwoWords t0 value 0).2)
              + wB * wval rest := by ring
          _ = (t0 + value + 0) + wB * wval rest := by rw [h0]
          _ = (t0 + wB * wval rest) + value * 1 := by ring
  | succ i ih =>
      intro tbl value hlen hb hv
      match tbl, hlen with
      | t0 :: rest, hlen2 =>
        obtain ⟨ht0, hrest⟩ := bounded_cons.mp hb
        obtain ⟨ihv, ihl, ihb, ihc⟩ := ih rest value (by simpa using hlen2) hrest hv
        have hrun : AddIntL (t0 :: rest) value (i + 1)
            = (t0 :: (AddIntL rest value i).1, (AddIntL rest value i).2) := rfl
        rw [hrun]
        refine ⟨?_, by simpa using ihl, bounded_cons.mpr ⟨ht0, ihb⟩, ihc⟩
        show t0 + wB * wval (AddIntL rest value i).1
            + wB ^ (rest.length + 1) * (AddIntL rest value i).2
            = (t0 + wB * wval rest) + value * wB ^ (i + 1)
        rw [pow_succ, pow_succ]
        calc t0 + wB * wval (AddIntL rest value i).1
            + wB ^ rest.length * wB * (AddIntL rest value i).2
            = t0 + wB * (wval (AddIntL rest value i).1
              + wB ^ rest.length * (AddIntL rest value i).2) := by ring
          _ = t0 + wB * (wval rest + value * wB ^ i) := by rw [ihv]
          _ = (t0 + wB * wval rest) + value * (wB ^ i * wB) := by ring

theorem modEq_add_mul (n a k : ℕ) : a + n * k ≡ a [MOD n] := by
  show (a + n * k) % n = a % n
  exact Nat.add_mul_mod_self_left a n k

theorem mulIntFold_spec (xs : List ℕ) (ss2 : ℕ) (hb : Bounded xs) (hs : ss2 < wB) :
    ∀ l x1s acc c0, x1s + l + 1 ≤ xs.length → acc.length = xs.length → Bounded acc →
    wval (List.foldl
        (fun (acc : List ℕ × ℕ) x1 =>
          let r := MulTwoWords (xs.getD x1 0) ss2
          let s := AddTwoInts acc.1 r.1 r.2 x1
          (s.1, acc.2 + s.2))
        (acc, c0) (List.range' x1s l)).1
      ≡ wval acc + ss2 * sliceVal xs x1s l [MOD wB ^ xs.length] ∧
    (List.foldl
        (fun (acc : List ℕ × ℕ) x1 =>
          let r := MulTwoWords (xs.getD x1 0) ss2
          let s := AddTwoInts acc.1 r.1 r.2 x1
          (s.1, acc.2 + s.2))
        (acc, c0) (List.range' x1s l)).1.length = xs.length ∧
    Bounded (List.foldl
        (fun (acc : List ℕ × ℕ) x1 =>
          let r := MulTwoWords (xs.getD x1 0) ss2
          let s := AddTwoInts acc.1 r.1 r.2 x1
          (s.1, acc.2 + s.2))
        (acc, c0) (List.range' x1s l)).1 := by
  intro l
  induction l with
  | zero =>
      intro x1s acc c0 _ hlen hbacc
      refine ⟨?_, hlen, hbacc⟩
      rw [sliceVal_zero_len]
      simp [Nat.ModEq]
  | succ l ih =>
      intro x1s acc c0 hx1 hlen hbacc
      rw [List.range'_succ, List.foldl_cons]
      have hxw : xs.getD x1s 0 < wB := getD_lt_of_bounded hb x1s
      obtain ⟨hmv, hmh, hml⟩ := mulTwoWords_spec (xs.getD x1s 0) ss2 hxw hs
      set M := MulTwoWords (xs.getD x1s 0) ss2 with hM
      obtain ⟨hav, hal, hab, hac⟩ := addTwoInts_spec x1s acc M.1 M.2
        (by omega) hbacc hml hmh
      set S := AddTwoInts acc M.1 M.2 x1s with hS
      obtain ⟨ihv, ihl, ihb⟩ := ih (x1s + 1) S.1 (c0 + S.2)
        (by omega) (by rw [hal, hlen]) hab
      refine ⟨?_, ihl, ihb⟩
      refine ihv.trans ?_
      have hprod : ss2 * (xs.getD x1s 0 * wB ^ x1s)
          = (M.2 + wB * M.1) * wB ^ x1s := by
        calc ss2 * (xs.getD x1s 0 * wB ^ x1s)
            = xs.getD x1s 0 * ss2 * wB ^ x1s := by ring
          _ = (M.1 * wB + M.2) * wB ^ x1s := by rw [hmv]
          _ = (M.2 + wB * M.1) * wB ^ x1s := by ring
      have h1 : wval acc + ss2 * (xs.getD x1s 0 * wB ^ x1s)
          = wval S.1 + wB ^ xs.length * S.2 := by
        rw [hprod, ← hlen]
        exact hav.symm
      have hstep : wval S.1 ≡ wval acc + ss2 * (xs.getD x1s 0 * wB ^ x1s)
          [MOD wB ^ xs.length] := by
        rw [h1]
        exact (modEq_add_mul (wB ^ xs.length) (wval S.1) S.2).symm
      have hslice : wval acc + ss2 * sliceVal xs x1s (l + 1)
          = (wval acc + ss2 * (xs.getD x1s 0 * wB ^ x1s))
            + ss2 * sliceVal xs (x1s + 1) l := by
        rw [sliceVal_succ]
        ring
      rw [hslice]
      exact Nat.ModEq.add_right (ss2 * sliceVal xs (x1s + 1) l) hstep

theorem mulIntL_val (xs : List ℕ) (ss2 : ℕ) (hb : Bounded xs) (hs : ss2 < wB)
    (hxs : 1 ≤ xs.length) :
    wval (MulIntL xs ss2).1 = wval xs * ss2 % wB ^ xs.length ∧
      (MulIntL xs ss2).1.length = xs.length ∧
      Bounded (MulIntL xs ss2).1 := by
  by_cases h0 : ss2 = 0
  · subst h0
    have hrun : MulIntL xs 0 = (List.replicate xs.length 0, 0) := rfl
    rw [hrun]
    refine ⟨?_, List.length_replicate _ _, bounded_replicate_zero _⟩
    rw [wval_replicate_zero, Nat.mul_zero, Nat.zero_mod]
  · set F := List.foldl
        (fun (acc : List ℕ × ℕ) x1 =>
          let r := MulTwoWords (xs.getD x1 0) ss2
          let s := AddTwoInts acc.1 r.1 r.2 x1
          (s.1, acc.2 + s.2))
        (List.replicate xs.length 0, 0)
        (List.range' 0 (xs.length - 1)) with hF
    set M := MulTwoWords (xs.getD (xs.length - 1) 0) ss2 with hM
    set A := AddIntL F.1 M.2 (xs.length - 1) with hA
    have hrun : MulIntL xs ss2
        = (A.1, if F.2 + (if M.1 ≠ 0 then 1 else 0) + A.2 = 0 then 0 else 1) := by
      rw [hA, hM, hF]
      show MulIntL xs ss2 = _
      unfold MulIntL
      rw [if_neg h0]
    obtain ⟨hfv, hfl, hfb⟩ := mulIntFold_spec xs ss2 hb hs (xs.length - 1) 0
      (List.replicate xs.length 0) 0 (by omega)
      (List.length_replicate _ _) (bounded_replicate_zero _)
    rw [← hF, wval_replicate_zero, Nat.zero_add] at hfv
    rw [← hF] at hfl hfb
    obtain ⟨hmv, hmh, hml⟩ :=
      mulTwoWords_spec (xs.getD (xs.length - 1) 0) ss2
        (getD_lt_of_bounded hb _) hs
    rw [← hM] at hmv hmh hml
    obtain ⟨hav, hal, hab, hac⟩ := addIntL_spec (xs.length - 1) F.1 M.2
      (by omega) hfb hml
    rw [← hA, hfl] at hav
    rw [← hA] at hal hab hac
    rw [hrun]
    refine ⟨?_, by rw [hal, hfl], hab⟩
    have hstep1 : wval A.1 ≡ wval F.1 + M.2 * wB ^ (xs.length - 1)
        [MOD wB ^ xs.length] := by
      have h1 : wval F.1 + M.2 * wB ^ (xs.length - 1)
          = wval A.1 + wB ^ xs.length * A.2 := hav.symm
      rw [h1]
      exact (modEq_add_mul (wB ^ xs.length) (wval A.1) A.2).symm
    have hstep2 : wval F.1 + M.2 * wB ^ (xs.length - 1)
        ≡ ss2 * sliceVal xs 0 (xs.length - 1) + M.2 * wB ^ (xs.length - 1)
        [MOD wB ^ xs.length] :=
      Nat.ModEq.add_right _ hfv
    have hxsplit : wval xs = sliceVal xs 0 (xs.length - 1)
        + xs.getD (xs.length - 1) 0 * wB ^ (xs.length - 1) := by
      have h5 : xs.length = (xs.length - 1) + 1 := by omega
      have h4 := wval_eq_sliceVal xs
      rw [h5] at h4
      rw [h4, sliceVal_split]
      have h7 : sliceVal xs (0 + (xs.length - 1)) 1
          = xs.getD (xs.length - 1) 0 * wB ^ (xs.length - 1) := by
        have h8 : (0:ℕ) + (xs.length - 1) = xs.length - 1 := by omega
        rw [h8]
        show sliceVal xs (xs.length - 1) (0 + 1) = _
        rw [sliceVal_succ, sliceVal_zero_len]
        ring
      rw [h7]
    have hstep3 : ss2 * sliceVal xs 0 (xs.length - 1) + M.2 * wB ^ (xs.length - 1)
        ≡ wval xs * ss2 [MOD wB ^ xs.length] := by
      have h7 : wval xs * ss2 = ss2 * sliceVal xs 0 (xs.length - 1)
          + (xs.getD (xs.length - 1) 0 * ss2) * wB ^ (xs.length - 1) := by
        rw [hxsplit]
        ring
      have h10 : wB ^ (xs.length - 1) * wB = wB ^ xs.length := by
        rw [← pow_succ]
        congr 1
        omega
      have h9 : wval xs * ss2
          = (ss2 * sliceVal xs 0 (xs.length - 1) + M.2 * wB ^ (xs.length - 1))
            + wB ^ xs.length * M.1 := by
        rw [h7, ← hmv, ← h10]
        ring
      rw [h9]
      exact (modEq_add_mul (wB ^ xs.length) _ M.1).symm
    have hfinal : wval A.1 ≡ wval xs * ss2 [MOD wB ^ xs.length] :=
      (hstep1.trans hstep2).trans hstep3
    have hlt : wval A.1 < wB ^ xs.length := by
      have := wval_lt hab
      rw [hal, hfl] at this
      exact this
    have := hfinal
    unfold Nat.ModEq at this
    rw [Nat.mod_eq_of_lt hlt] at this
    exact this

/-! ### Division: the multiply-subtract step -/

theorem div3MS_spec (uu vv : List ℕ) (qp : ℕ) (hlen : uu.length = vv.length)
    (hbu : Bounded uu) (hbv : Bounded vv) (hqp : qp < wB)
    (hvv : 1 ≤ vv.length)
    (hnof : qp * wval vv < wB ^ uu.length)
    (hlow : (qp - 1) * wval vv ≤ wval uu) :
    (Div3_MultiplySubtract uu vv qp).2
        = (if qp * wval vv ≤ wval uu then qp else qp - 1) ∧
      wval (Div3_MultiplySubtract uu vv qp).1
          + (Div3_MultiplySubtract uu vv qp).2 * wval vv = wval uu ∧
      (Div3_MultiplySubtract uu vv qp).1.length = uu.length ∧
      Bounded (Div3_MultiplySubtract uu vv qp).1 := by
  obtain ⟨hmv, hmll, hmb⟩ := mulIntL_val vv qp hbv hqp hvv
  have hmv' : wval (MulIntL vv qp).1 = qp * wval vv := by
    rw [hmv, Nat.mod_eq_of_lt]
    · ring
    · calc wval vv * qp = qp * wval vv := by ring
        _ < wB ^ uu.length := hnof
        _ = wB ^ vv.length := by rw [hlen]
  obtain ⟨hsv, hsl, hsb, hsc⟩ := uintSub_spec uu (MulIntL vv qp).1 0
    (by rw [hmll, hlen]) hbu hmb (by omega)
  rw [hmv', Nat.add_zero] at hsv
  have hulim := wval_lt hbu
  have hslim : wval (UIntSub uu (MulIntL vv qp).1 0).1 < wB ^ uu.length := by
    have := wval_lt hsb
    rwa [hsl] at this
  by_cases hcase : qp * wval vv ≤ wval uu
  · have hb0 : (UIntSub uu (MulIntL vv qp).1 0).2 = 0 := by
      rcases Nat.le_one_iff_eq_zero_or_eq_one.mp hsc with h | h
      · exact h
      · exfalso
        rw [h, Nat.mul_one] at hsv
        omega
    have hrun : Div3_MultiplySubtract uu vv qp
        = ((UIntSub uu (MulIntL vv qp).1 0).1, qp) := by
      unfold Div3_MultiplySubtract
      show (if (UIntSub uu (MulIntL vv qp).1 0).2 ≠ 0
            then ((UIntAdd (UIntSub uu (MulIntL vv qp).1 0).1 vv 0).1, qp - 1)
            else ((UIntSub uu (MulIntL vv qp).1 0).1, qp))
          = ((UIntSub uu (MulIntL vv qp).1 0).1, qp)
      rw [hb0]
      norm_num
    rw [hrun]
    rw [hb0, Nat.mul_zero, Nat.add_zero] at hsv
    exact ⟨by rw [if_pos hcase], hsv, hsl, hsb⟩
  · push_neg at hcase
    have hqp1 : 1 ≤ qp := by
      by_contra h
      push_neg at h
      interval_cases qp
      simp at hcase
    have hb1 : (UIntSub uu (MulIntL vv qp).1 0).2 = 1 := by
      rcases Nat.le_one_iff_eq_zero_or_eq_one.mp hsc with h | h
      · exfalso
        rw [h, Nat.mul_zero, Nat.add_zero] at hsv
        omega
      · exact h
    have hrun : Div3_MultiplySubtract uu vv qp
        = ((UIntAdd (UIntSub uu (MulIntL vv qp).1 0).1 vv 0).1, qp - 1) := by
      unfold Div3_MultiplySubtract
      show (if (UIntSub uu (MulIntL vv qp).1 0).2 ≠ 0
            then ((UIntAdd (UIntSub uu (MulIntL vv qp).1 0).1 vv 0).1, qp - 1)
            else ((UIntSub uu (MulIntL vv qp).1 0).1, qp))
          = ((UIntAdd (UIntSub uu (MulIntL vv qp).1 0).1 vv 0).1, qp - 1)
      rw [hb1]
      norm_num
    obtain ⟨hadv, hadl, hadb, hadc⟩ := uintAdd_spec
      (UIntSub uu (MulIntL vv qp).1 0).1 vv 0
      (by rw [hsl, hlen]) hsb hbv (by omega)
    rw [Nat.add_zero, hsl] at hadv
    have hadlim : wval (UIntAdd (UIntSub uu (MulIntL vv qp).1 0).1 vv 0).1
        < wB ^ uu.length := by
      have := wval_lt hadb
      rwa [hadl, hsl] at this
    rw [hb1, Nat.mul_one] at hsv
    have hvlow : (qp - 1) * wval vv + wval vv = qp * wval vv := by
      have : qp - 1 + 1 = qp := by omega
      calc (qp - 1) * wval vv + wval vv = (qp - 1 + 1) * wval vv := by ring
        _ = qp * wval vv := by rw [this]
    have hc1 : (UIntAdd (UIntSub uu (MulIntL vv qp).1 0).1 vv 0).2 = 1 := by
      rcases Nat.le_one_iff_eq_zero_or_eq_one.mp hadc with h | h
      · exfalso
        rw [h, Nat.mul_zero, Nat.add_zero] at hadv
        omega
      · exact h
    rw [hc1, Nat.mul_one] at hadv
    rw [hrun]
    refine ⟨by rw [if_neg (by omega)], ?_,
      by show (UIntAdd (UIntSub uu (MulIntL vv qp).1 0).1 vv 0).1.length
            = uu.length
         rw [hadl, hsl], hadb⟩
    show wval (UIntAdd (UIntSub uu (MulIntL vv qp).1 0).1 vv 0).1
        + (qp - 1) * wval vv = wval uu
    omega

/-! ### Division: the quotient-digit estimate -/

theorem wval_two (l : List ℕ) (h : l.length = 2) :
    wval l = l.getD 0 0 + wB * l.getD 1 0 := by
  match l, h with
  | [a, b], _ =>
    show a + wB * (b + wB * 0) = a + wB * b
    ring

set_option maxHeartbeats 1000000 in
theorem div3CalcLoop_spec (v1 v0 u0 u1 u2 : ℕ)
    (hv1l : 2 ^ 63 ≤ v1) (hv1u : v1 < wB) (hv0 : v0 < wB)
    (hu0 : u0 < wB) (hu1 : u1 < wB) (hu2 : u2 ≤ v1) :
    ∀ fuel qv rp,
      qv * v1 + rp = u2 * wB + u1 →
      rp < wB →
      qv ≤ wB + 1 →
      (wB - 1 ≤ qv
        ∨ u2 * (wB * wB) + u1 * wB + u0 < (qv + 1) * (v1 * wB + v0)
        ∨ u2 * wB + u1 < (qv + 1) * v1) →
      qv + 1 ≤ fuel →
      div3CalcLoop v1 v0 u0 fuel qv rp < wB ∧
      (div3CalcLoop v1 v0 u0 fuel qv rp = wB - 1
        ∨ u2 * (wB * wB) + u1 * wB + u0
            < (div3CalcLoop v1 v0 u0 fuel qv rp + 1) * (v1 * wB + v0)) ∧
      (div3CalcLoop v1 v0 u0 fuel qv rp * (v1 * wB + v0)
          ≤ u2 * (wB * wB) + u1 * wB + u0
        ∨ div3CalcLoop v1 v0 u0 fuel qv rp * v1 + wB ≤ u2 * wB + u1) := by
  rw [wB_val] at hv1u hv0 hu0 hu1
  intro fuel
  induction fuel with
  | zero => intro qv rp _ _ _ _ hf; omega
  | succ f ih =>
      intro qv rp hid hrp hqv hlow hf
      simp only [wB_val] at hid hrp hqv hlow ⊢
      obtain ⟨htv, hth, htl⟩ := mulTwoWords_spec (qv % wB) v0
        (Nat.mod_lt _ wB_pos) (by rw [wB_val]; omega)
      set t := MulTwoWords (qv % wB) v0 with ht
      rw [wB_val] at hth htl
      have hrun : div3CalcLoop v1 v0 u0 (f + 1) qv rp
          = if qv / wB = 1 ∨ rp < t.1 ∨ (rp = t.1 ∧ u0 < t.2) then
              (if v1 ≤ (rp + v1) % wB
               then div3CalcLoop v1 v0 u0 f
                 ((qv + wB * wB - 1) % (wB * wB)) ((rp + v1) % wB)
               else ((qv + wB * wB - 1) % (wB * wB)) % wB)
            else qv % wB := rfl
      rw [wB_val] at hrun
      by_cases hdec : qv / (18446744073709551616 : ℕ) = 1
          ∨ rp < t.1 ∨ (rp = t.1 ∧ u0 < t.2)
      · rw [if_pos hdec] at hrun
        have hqv1 : 1 ≤ qv := by
          by_contra h0
          push_neg at h0
          have hq0 : qv = 0 := by omega
          have hqm : qv % wB = 0 := by rw [hq0]; simp
          rw [hqm, Nat.zero_mul, wB_val] at htv
          rcases hdec with h | h | h
          · rw [hq0] at h; omega
          · omega
          · omega
        have hqv2eq : (qv + (18446744073709551616 : ℕ) * 18446744073709551616 - 1)
            % ((18446744073709551616 : ℕ) * 18446744073709551616) = qv - 1 := by
          omega
        rw [hqv2eq] at hrun
        have hbridge : (qv - 1) * v1 + v1 = qv * v1 := by
          have h : qv - 1 + 1 = qv := by omega
          calc (qv - 1) * v1 + v1 = (qv - 1 + 1) * v1 := by ring
            _ = qv * v1 := by rw [h]
        by_cases hqw : (18446744073709551616 : ℕ) ≤ qv
        · -- big estimate: the decrease keeps the digit at least wB - 1
          by_cases hnext : v1 ≤ (rp + v1) % (18446744073709551616 : ℕ)
          · rw [if_pos hnext] at hrun
            have hnw : rp + v1 < 18446744073709551616 := by
              by_contra hcon
              push_neg at hcon
              have : (rp + v1) % (18446744073709551616 : ℕ)
                  = rp + v1 - 18446744073709551616 := by omega
              omega
            have hrp2 : (rp + v1) % (18446744073709551616 : ℕ) = rp + v1 := by
              omega
            rw [hrp2] at hrun
            have hid' : (qv - 1) * v1 + (rp + v1)
                = u2 * 18446744073709551616 + u1 := by omega
            obtain ⟨c1, c2, c3⟩ := ih (qv - 1) (rp + v1)
              (by rw [wB_val]; exact hid') (by rw [wB_val]; omega)
              (by rw [wB_val]; omega)
              (by left; rw [wB_val]; omega)
              (by omega)
            rw [wB_val] at c1 c2 c3
            rw [hrun]
            exact ⟨c1, c2, c3⟩
          · rw [if_neg hnext] at hrun
            have hwrap : 18446744073709551616 ≤ rp + v1 := by
              by_contra hcon
              push_neg at hcon
              have : (rp + v1) % (18446744073709551616 : ℕ) = rp + v1 := by omega
              omega
            have hqvne : qv ≠ 18446744073709551617 := by
              intro hq
              have hqv1e : qv * v1 = 18446744073709551616 * v1 + v1 := by
                rw [hq]; ring
              have hscale : u2 * 18446744073709551616 ≤ v1 * 18446744073709551616 :=
                Nat.mul_le_mul_right _ hu2
              omega
            have hqveq : qv = 18446744073709551616 := by omega
            have hq2m : (qv - 1) % (18446744073709551616 : ℕ) = qv - 1 := by
              omega
            rw [hq2m] at hrun
            rw [hrun]
            refine ⟨by omega, by left; omega, ?_⟩
            right
            have hfin : (qv - 1) * v1 + v1 + rp
                = u2 * 18446744073709551616 + u1 := by omega
            omega
        · -- small estimate: the two-word comparison justified the decrease
          have hqlt : qv < 18446744073709551616 := by omega
          have hd0 : qv / (18446744073709551616 : ℕ) = 0 := by omega
          have hcmp : rp < t.1 ∨ (rp = t.1 ∧ u0 < t.2) := by
            rcases hdec with h | h
            · omega
            · exact h
          have hqm : qv % wB = qv := by rw [wB_val]; omega
          rw [hqm] at htv
          rw [wB_val] at htv
          have hval : rp * 18446744073709551616 + u0 < qv * v0 := by
            rcases hcmp with h | ⟨h1, h2⟩
            · omega
            · omega
          have hjust : u2 * (18446744073709551616 * 18446744073709551616)
              + u1 * 18446744073709551616 + u0
              < qv * v1 * 18446744073709551616 + qv * v0 := by omega
          by_cases hnext : v1 ≤ (rp + v1) % (18446744073709551616 : ℕ)
          · rw [if_pos hnext] at hrun
            have hnw : rp + v1 < 18446744073709551616 := by
              by_contra hcon
              push_neg at hcon
              have : (rp + v1) % (18446744073709551616 : ℕ)
                  = rp + v1 - 18446744073709551616 := by omega
              omega
            have hrp2 : (rp + v1) % (18446744073709551616 : ℕ) = rp + v1 := by
              omega
            rw [hrp2] at hrun
            have hid' : (qv - 1) * v1 + (rp + v1)
                = u2 * 18446744073709551616 + u1 := by omega
            have hlow' : u2 * (18446744073709551616 * 18446744073709551616)
                + u1 * 18446744073709551616 + u0
                < ((qv - 1) + 1) * (v1 * 18446744073709551616 + v0) := by
              have hexp : ((qv - 1) + 1) * (v1 * 18446744073709551616 + v0)
                  = qv * v1 * 18446744073709551616 + qv * v0 := by
                have h : qv - 1 + 1 = qv := by omega
                rw [h]
                ring
              rw [hexp]
              omega
            obtain ⟨c1, c2, c3⟩ := ih (qv - 1) (rp + v1)
              (by rw [wB_val]; exact hid') (by rw [wB_val]; omega)
              (by rw [wB_val]; omega)
              (by right; left; rw [wB_val]; exact hlow')
              (by omega)
            rw [wB_val] at c1 c2 c3
            rw [hrun]
            exact ⟨c1, c2, c3⟩
          · rw [if_neg hnext] at hrun
            have hwrap : 18446744073709551616 ≤ rp + v1 := by
              by_contra hcon
              push_neg at hcon
              have : (rp + v1) % (18446744073709551616 : ℕ) = rp + v1 := by omega
              omega
            have hq2m : (qv - 1) % (18446744073709551616 : ℕ) = qv - 1 := by
              omega
            rw [hq2m] at hrun
            rw [hrun]
            refine ⟨by omega, ?_, ?_⟩
            · right
              have hexp : ((qv - 1) + 1) * (v1 * 18446744073709551616 + v0)
                  = qv * v1 * 18446744073709551616 + qv * v0 := by
                have h : qv - 1 + 1 = qv := by omega
                rw [h]
                ring
              rw [hexp]
              omega
            · right
              have hfin : (qv - 1) * v1 + v1 + rp
                  = u2 * 18446744073709551616 + u1 := by omega
              omega
      · rw [if_neg hdec] at hrun
        push_neg at hdec
        obtain ⟨hd1, hd2, hd3⟩ := hdec
        have hqlt : qv < 18446744073709551616 := by
          by_contra hcon
          push_neg at hcon
          exact hd1 (by omega)
        have hqm : qv % (18446744073709551616 : ℕ) = qv := by omega
        rw [hqm] at hrun
        have hqm2 : qv % wB = qv := by rw [wB_val]; omega
        rw [hqm2] at htv
        rw [wB_val] at htv
        have hvalneg : qv * v0 ≤ rp * 18446744073709551616 + u0 := by
          by_cases he : rp = t.1
          · have h2 := hd3 he
            omega
          · have h1 : t.1 < rp := by omega
            omega
        rw [hrun]
        refine ⟨by omega, ?_, ?_⟩
        · rcases hlow with h | h | h
          · left; omega
          · right; exact h
          · right
            have hexp : (qv + 1) * (v1 * 18446744073709551616 + v0)
                = qv * v1 * 18446744073709551616 + v1 * 18446744073709551616
                  + qv * v0 + v0 := by ring
            have hexp2 : (qv + 1) * v1 = qv * v1 + v1 := by ring
            rw [hexp]
            rw [hexp2] at h
            omega
        · left
          have hexp3 : qv * (v1 * 18446744073709551616 + v0)
              = qv * v1 * 18446744073709551616 + qv * v0 := by ring
          rw [hexp3]
          omega

/-- Consequences of `Div3_Calculate` at the three-digit level: the returned
digit `qp` is a word, and it brackets the true quotient of the window in
the sense of the Knuth estimates. -/
theorem div3Calculate_spec (u2 u1 u0 v1 v0 : ℕ)
    (hv1l : 2 ^ 63 ≤ v1) (hv1u : v1 < wB) (hv0 : v0 < wB)
    (hu0 : u0 < wB) (hu1 : u1 < wB) (hu2 : u2 ≤ v1) :
    Div3_Calculate u2 u1 u0 v1 v0 < wB ∧
    (Div3_Calculate u2 u1 u0 v1 v0 = wB - 1
      ∨ u2 * (wB * wB) + u1 * wB + u0
          < (Div3_Calculate u2 u1 u0 v1 v0 + 1) * (v1 * wB + v0)) ∧
    (Div3_Calculate u2 u1 u0 v1 v0 * (v1 * wB + v0)
        ≤ u2 * (wB * wB) + u1 * wB + u0
      ∨ Div3_Calculate u2 u1 u0 v1 v0 * v1 + wB ≤ u2 * wB + u1) := by
  have hu1w : u1 < wB := hu1
  have hu2w : u2 < wB := by
    calc u2 ≤ v1 := hu2
      _ < wB := hv1u
  have hbu : Bounded [u1, u2] := by
    intro a ha
    rcases List.mem_cons.mp ha with h | h
    · rw [h]; exact hu1w
    · rcases List.mem_cons.mp h with h2 | h2
      · rw [h2]; exact hu2w
      · cases h2
  obtain ⟨hdc, hdl, hdb, hdv, hdr⟩ := divIntL_spec [u1, u2] v1 hbu
    (by have := hv1l; positivity) (le_of_lt hv1u)
  set d := DivIntL [u1, u2] v1 with hd
  set qv := d.1.getD 0 0 + wB * d.1.getD 1 0 with hqv
  have hrun : Div3_Calculate u2 u1 u0 v1 v0
      = div3CalcLoop v1 v0 u0 (qv + 2) qv d.2.1 := rfl
  have hwv : wval d.1 = qv := by
    rw [wval_two d.1 hdl, hqv]
  have htwo : wval [u1, u2] = u2 * wB + u1 := by
    show u1 + wB * (u2 + wB * 0) = u2 * wB + u1
    ring
  rw [hwv, htwo] at hdv
  have hid : qv * v1 + d.2.1 = u2 * wB + u1 := hdv
  have hrp : d.2.1 < wB := lt_trans hdr hv1u
  have hqvle : qv ≤ wB + 1 := by
    by_contra hcon
    push_neg at hcon
    have h1 : (wB + 2) * v1 ≤ qv * v1 := Nat.mul_le_mul_right v1 (by omega)
    have h2 : (wB + 2) * v1 = wB * v1 + 2 * v1 := by ring
    have h3 : u2 * wB ≤ v1 * wB := Nat.mul_le_mul_right wB hu2
    rw [wB_val] at *
    omega
  have hlow : wB - 1 ≤ qv
      ∨ u2 * (wB * wB) + u1 * wB + u0 < (qv + 1) * (v1 * wB + v0)
      ∨ u2 * wB + u1 < (qv + 1) * v1 := by
    right; right
    have hexp : (qv + 1) * v1 = qv * v1 + v1 := by ring
    rw [hexp]
    omega
  obtain ⟨c1, c2, c3⟩ := div3CalcLoop_spec v1 v0 u0 u1 u2 hv1l hv1u hv0 hu0 hu1 hu2
    (qv + 2) qv d.2.1 hid hrp hqvle hlow (by omega)
  rw [hrun]
  exact ⟨c1, c2, c3⟩

/-! ### Division: window bookkeeping -/

theorem getD_append_left (b : List ℕ) : ∀ a : List ℕ, ∀ i : ℕ, i < a.length →
    (a ++ b).getD i 0 = a.getD i 0 := by
  intro a
  induction a with
  | nil => intro i hi; simp at hi
  | cons x xs ih =>
      intro i hi
      cases i with
      | zero => simp
      | succ i => simpa using ih i (by simpa using hi)

theorem getD_append_right (b : List ℕ) : ∀ a : List ℕ, ∀ i : ℕ,
    (a ++ b).getD (a.length + i) 0 = b.getD i 0 := by
  intro a
  induction a with
  | nil => intro i; simp
  | cons x xs ih =>
      intro i
      have h1 : (x :: xs).length + i = (xs.length + i) + 1 := by
        simp
        omega
      rw [h1]
      simpa using ih i

theorem take_succ_eq (xs : List ℕ) (k : ℕ) (h : k < xs.length) :
    xs.take (k + 1) = xs.take k ++ [xs.getD k 0] := by
  have h1 : xs.take (k + 1) = xs.take k ++ (xs.drop k).take 1 := by
    rw [← List.take_add]
  have h3 : xs.drop k = xs.getD k 0 :: xs.drop (k + 1) := by
    rw [List.drop_eq_getElem_cons h, List.getD_eq_getElem?_getD,
      List.getElem?_eq_getElem h]
    rfl
  have h2 : (xs.drop k).take 1 = [xs.getD k 0] := by rw [h3]; rfl
  rw [h1, h2]

theorem take_append_of_len_le {a : List ℕ} (b : List ℕ) {n : ℕ}
    (h : n ≤ a.length) : (a ++ b).take n = a.take n := by
  induction a generalizing n with
  | nil =>
      have : n = 0 := by simpa using h
      simp [this]
  | cons x xs ih =>
      cases n with
      | zero => simp
      | succ n =>
          show x :: (xs ++ b).take n = x :: xs.take n
          rw [ih (by simpa using h)]

theorem drop_append_of_len (a b : List ℕ) : (a ++ b).drop a.length = b := by
  induction a with
  | nil => simp
  | cons x xs ih => simpa using ih

/-- The two Knuth estimate facts at the three-digit level bracket the true
quotient digit of the full window. -/
theorem knuth_bracket (nm2 W V qp v1 v0 u2 u1 u0w Wlow Vlow : ℕ)
    (hWeq : W = wB ^ nm2 * (u2 * (wB * wB) + u1 * wB + u0w) + Wlow)
    (hWlow : Wlow < wB ^ nm2)
    (hVeq : V = wB ^ nm2 * (v1 * wB + v0) + Vlow)
    (hVlow : Vlow < wB ^ nm2)
    (hv1l : 2 ^ 63 ≤ v1) (hv1u : v1 < wB) (hv0 : v0 < wB) (hqp : qp < wB)
    (hWV : W < wB * V)
    (hbound1 : qp = wB - 1
      ∨ u2 * (wB * wB) + u1 * wB + u0w < (qp + 1) * (v1 * wB + v0))
    (hbound2 : qp * (v1 * wB + v0) ≤ u2 * (wB * wB) + u1 * wB + u0w
      ∨ qp * v1 + wB ≤ u2 * wB + u1) :
    W / V ≤ qp ∧ qp ≤ W / V + 1 := by
  have hpow : 0 < wB ^ nm2 := Nat.pos_pow_of_pos _ wB_pos
  have hv1pos : 1 ≤ v1 := by
    have h63 : (0:ℕ) < 2 ^ 63 := by positivity
    omega
  have hVmid : 0 < v1 * wB + v0 := by
    have h3 : 1 * 1 ≤ v1 * wB := Nat.mul_le_mul hv1pos (by have := wB_pos; omega)
    omega
  have hV0 : 0 < V := by
    calc 0 < wB ^ nm2 * (v1 * wB + v0) := Nat.mul_pos hpow hVmid
      _ ≤ V := by omega
  have hQlt : W / V < wB := by
    apply Nat.div_lt_iff_lt_mul hV0 |>.mpr
    exact hWV
  constructor
  · rcases hbound1 with h | h
    · omega
    · by_contra hcon
      push_neg at hcon
      have h1 : (qp + 1) * V ≤ W / V * V := Nat.mul_le_mul_right V (by omega)
      have h2 : W / V * V ≤ W := Nat.div_mul_le_self W V
      have h3 : wB ^ nm2 * ((qp + 1) * (v1 * wB + v0)) ≤ (qp + 1) * V := by
        calc wB ^ nm2 * ((qp + 1) * (v1 * wB + v0))
            = (qp + 1) * (wB ^ nm2 * (v1 * wB + v0)) := by ring
          _ ≤ (qp + 1) * V := Nat.mul_le_mul_left _ (by omega)
      have h4 : wB ^ nm2 * (u2 * (wB * wB) + u1 * wB + u0w + 1)
          ≤ wB ^ nm2 * ((qp + 1) * (v1 * wB + v0)) :=
        Nat.mul_le_mul_left _ (by omega)
      have h5 : W < wB ^ nm2 * (u2 * (wB * wB) + u1 * wB + u0w + 1) := by
        calc W = wB ^ nm2 * (u2 * (wB * wB) + u1 * wB + u0w) + Wlow := hWeq
          _ < wB ^ nm2 * (u2 * (wB * wB) + u1 * wB + u0w) + wB ^ nm2 := by omega
          _ = wB ^ nm2 * (u2 * (wB * wB) + u1 * wB + u0w + 1) := by ring
      omega
  · by_cases hqp0 : qp = 0
    · rw [hqp0]
      exact Nat.zero_le _
    · have hqp1 : 1 ≤ qp := by omega
      have hb7 : qp - 1 + 1 = qp := by omega
      have hfin : (qp - 1) * V ≤ W := by
        rcases hbound2 with h | h
        · have h1 : wB ^ nm2 * (qp * (v1 * wB + v0)) ≤ W := by
            calc wB ^ nm2 * (qp * (v1 * wB + v0))
                ≤ wB ^ nm2 * (u2 * (wB * wB) + u1 * wB + u0w) :=
                  Nat.mul_le_mul_left _ h
              _ ≤ W := by omega
          have h2 : qp * Vlow < wB * wB ^ nm2 :=
            mul_lt_mul'' hqp hVlow (Nat.zero_le _) (Nat.zero_le _)
          have h3 : qp * V < W + wB * wB ^ nm2 := by
            calc qp * V = wB ^ nm2 * (qp * (v1 * wB + v0)) + qp * Vlow := by
                  rw [hVeq]; ring
              _ < W + wB * wB ^ nm2 := by omega
          have h4 : wB * wB ^ nm2 ≤ V := by
            have h5 : wB ≤ v1 * wB + v0 := by
              have h6 := Nat.mul_le_mul_right wB hv1pos
              rw [Nat.one_mul] at h6
              omega
            calc wB * wB ^ nm2 = wB ^ nm2 * wB := by ring
              _ ≤ wB ^ nm2 * (v1 * wB + v0) := Nat.mul_le_mul_left _ h5
              _ ≤ V := by omega
          have h6 : (qp - 1) * V + V = qp * V := by
            calc (qp - 1) * V + V = (qp - 1 + 1) * V := by ring
              _ = qp * V := by rw [hb7]
          omega
        · have hkey : (qp - 1) * v1 + (qp - 1) ≤ u2 * wB + u1 := by
            have hb : (qp - 1) * v1 + v1 = qp * v1 := by
              calc (qp - 1) * v1 + v1 = (qp - 1 + 1) * v1 := by ring
                _ = qp * v1 := by rw [hb7]
            rw [wB_val] at h hqp ⊢
            omega
          have h1 : (qp - 1) * V ≤ ((qp - 1) * v1 + (qp - 1)) * (wB ^ nm2 * wB) := by
            have h2 : V ≤ (v1 + 1) * (wB ^ nm2 * wB) := by
              calc V = wB ^ nm2 * (v1 * wB + v0) + Vlow := hVeq
                _ ≤ wB ^ nm2 * (v1 * wB + v0) + wB ^ nm2 := by omega
                _ = wB ^ nm2 * (v1 * wB + v0 + 1) := by ring
                _ ≤ wB ^ nm2 * (v1 * wB + wB) := Nat.mul_le_mul_left _ (by omega)
                _ = (v1 + 1) * (wB ^ nm2 * wB) := by ring
            calc (qp - 1) * V ≤ (qp - 1) * ((v1 + 1) * (wB ^ nm2 * wB)) :=
                  Nat.mul_le_mul_left _ h2
              _ = ((qp - 1) * v1 + (qp - 1)) * (wB ^ nm2 * wB) := by ring
          have h3 : ((qp - 1) * v1 + (qp - 1)) * (wB ^ nm2 * wB)
              ≤ (u2 * wB + u1) * (wB ^ nm2 * wB) :=
            Nat.mul_le_mul_right _ hkey
          have h4 : (u2 * wB + u1) * (wB ^ nm2 * wB) ≤ W := by
            calc (u2 * wB + u1) * (wB ^ nm2 * wB)
                = wB ^ nm2 * (u2 * (wB * wB) + u1 * wB) := by ring
              _ ≤ wB ^ nm2 * (u2 * (wB * wB) + u1 * wB + u0w) :=
                  Nat.mul_le_mul_left _ (by omega)
              _ ≤ W := by omega
          omega
      have h8 : qp - 1 ≤ W / V := (Nat.le_div_iff_mul_le hV0).mpr hfin
      omega

set_option maxHeartbeats 1600000 in
/-- One iteration of the `Div3_Division` loop: the produced digit is the
exact quotient digit of the current window, and the window is replaced by
the remainder. -/
theorem div3Step_spec (vnorm u : List ℕ) (n j u2 : ℕ)
    (hbv : Bounded vnorm) (hbu : Bounded u)
    (hlen : vnorm.length = u.length)
    (hn2 : 2 ≤ n) (hjn : j + n ≤ u.length)
    (hvtop : 2 ^ 63 ≤ vnorm.getD (n - 1) 0)
    (hvlt : wval vnorm < wB ^ n)
    (hu2 : u2 < wB)
    (hW : u2 * wB ^ n + wval ((u.drop j).take n) < wB * wval vnorm) :
    (div3Step (vnorm ++ [0]) vnorm n j u u2).2
        = (u2 * wB ^ n + wval ((u.drop j).take n)) / wval vnorm ∧
    (div3Step (vnorm ++ [0]) vnorm n j u u2).2 < wB ∧
    ∃ w : List ℕ, w.length = n ∧ Bounded w ∧
      wval w = (u2 * wB ^ n + wval ((u.drop j).take n)) % wval vnorm ∧
      (div3Step (vnorm ++ [0]) vnorm n j u u2).1
        = u.take j ++ w
          ++ (if j + n < u.length then 0 :: u.drop (j + n + 1) else []) := by
  have hn1e : n - 1 + 1 = n := by omega
  have hn2e : n - 2 + 1 = n - 1 := by omega
  have hp1 : wB ^ n = wB ^ (n - 2) * (wB * wB) := by
    calc wB ^ n = wB ^ ((n - 2) + 2) := by congr 1; omega
      _ = wB ^ (n - 2) * (wB * wB) := by rw [pow_add]; ring
  have hp2 : wB ^ (n - 1) = wB ^ (n - 2) * wB := by
    calc wB ^ (n - 1) = wB ^ ((n - 2) + 1) := by congr 1; omega
      _ = wB ^ (n - 2) * wB := by rw [pow_succ]
  have hp3 : wB ^ n = wB * wB ^ (n - 1) := by
    calc wB ^ n = wB ^ ((n - 1) + 1) := by congr 1; omega
      _ = wB * wB ^ (n - 1) := by rw [pow_succ]; ring
  set win := (u.drop j).take n with hwin
  set W := u2 * wB ^ n + wval win with hWdef
  set V := wval vnorm with hV
  set v1 := vnorm.getD (n - 1) 0 with hv1
  set v0 := vnorm.getD (n - 2) 0 with hv0
  set u1w := u.getD (j + n - 1) 0 with hu1w
  set u0w := u.getD (j + n - 2) 0 with hu0w
  have hwinlen : win.length = n := by
    rw [hwin, List.length_take, List.length_drop]
    omega
  have hbwin : Bounded win := bounded_take (bounded_drop hbu j) n
  have hv1u : v1 < wB := getD_lt_of_bounded hbv _
  have hv0u : v0 < wB := getD_lt_of_bounded hbv _
  have hu1u : u1w < wB := getD_lt_of_bounded hbu _
  have hu0u : u0w < wB := getD_lt_of_bounded hbu _
  have hpow1 : 0 < wB ^ (n - 1) := Nat.pos_pow_of_pos _ wB_pos
  have hpow2 : 0 < wB ^ (n - 2) := Nat.pos_pow_of_pos _ wB_pos
  have hv1d : v1 = V / wB ^ (n - 1) := by
    have h := getD_eq_digit hbv (n - 1)
    rw [hv1, h, ← hV]
    apply Nat.mod_eq_of_lt
    apply Nat.div_lt_iff_lt_mul hpow1 |>.mpr
    calc V < wB ^ n := hvlt
      _ = wB * wB ^ (n - 1) := hp3
  have hv1low : v1 * wB ^ (n - 1) ≤ V := by
    rw [hv1d]
    exact Nat.div_mul_le_self V _
  have hVpos : 0 < V := by
    have h63 : (0:ℕ) < 2 ^ 63 := by positivity
    calc 0 < 1 * wB ^ (n - 1) := by omega
      _ ≤ v1 * wB ^ (n - 1) := Nat.mul_le_mul_right _ (by rw [hv1]; omega)
      _ ≤ V := hv1low
  -- window digits
  have hwd1 : win.getD (n - 1) 0 = u1w := by
    rw [hwin, getD_take _ _ _ (by omega), getD_drop, hu1w]
    congr 1
    omega
  have hwd0 : win.getD (n - 2) 0 = u0w := by
    rw [hwin, getD_take _ _ _ (by omega), getD_drop, hu0w]
    congr 1
    omega
  -- split of the window value
  have hwtake : win.take n = win := List.take_of_length_le (le_of_eq hwinlen)
  have hsp1 : wval win = wval (win.take (n - 1)) + u1w * wB ^ (n - 1) := by
    have h := wval_take_succ win (n - 1)
    rw [hn1e, hwtake, hwd1] at h
    exact h
  have hsp2 : wval (win.take (n - 1))
      = wval (win.take (n - 2)) + u0w * wB ^ (n - 2) := by
    have h := wval_take_succ win (n - 2)
    rw [hn2e, hwd0] at h
    exact h
  have hWlow : wval (win.take (n - 2)) < wB ^ (n - 2) := wval_take_lt hbwin _
  have hWsplit : W = wB ^ (n - 2) * (u2 * (wB * wB) + u1w * wB + u0w)
      + wval (win.take (n - 2)) := by
    rw [hWdef, hsp1, hsp2, hp1, hp2]
    ring
  -- split of the divisor value
  have hnv : n ≤ vnorm.length := by omega
  set Vw := vnorm.take n with hVw
  have hVwlen : Vw.length = n := List.length_take_of_le hnv
  have hbVw : Bounded Vw := bounded_take hbv n
  have hVwval : wval Vw = V := wval_take_of_lt_pow n hvlt
  have hVwd1 : Vw.getD (n - 1) 0 = v1 := by
    rw [hVw, getD_take _ _ _ (by omega), hv1]
  have hVwd0 : Vw.getD (n - 2) 0 = v0 := by
    rw [hVw, getD_take _ _ _ (by omega), hv0]
  have hVwtake : Vw.take n = Vw := List.take_of_length_le (le_of_eq hVwlen)
  have hvsp1 : wval Vw = wval (Vw.take (n - 1)) + v1 * wB ^ (n - 1) := by
    have h := wval_take_succ Vw (n - 1)
    rw [hn1e, hVwtake, hVwd1] at h
    exact h
  have hvsp2 : wval (Vw.take (n - 1))
      = wval (Vw.take (n - 2)) + v0 * wB ^ (n - 2) := by
    have h := wval_take_succ Vw (n - 2)
    rw [hn2e, hVwd0] at h
    exact h
  have hVlow : wval (Vw.take (n - 2)) < wB ^ (n - 2) := wval_take_lt hbVw _
  have hVsplit : V = wB ^ (n - 2) * (v1 * wB + v0) + wval (Vw.take (n - 2)) := by
    rw [← hVwval, hvsp1, hvsp2, hp2]
    ring
  -- the top dividend digit does not exceed the top divisor digit
  have hVub : V < (v1 + 1) * wB ^ (n - 1) := by
    calc V = wB ^ (n - 2) * (v1 * wB + v0) + wval (Vw.take (n - 2)) := hVsplit
      _ < wB ^ (n - 2) * (v1 * wB + v0) + wB ^ (n - 2) := by omega
      _ = wB ^ (n - 2) * (v1 * wB + (v0 + 1)) := by ring
      _ ≤ wB ^ (n - 2) * (v1 * wB + wB) := Nat.mul_le_mul_left _ (by omega)
      _ = (v1 + 1) * (wB ^ (n - 2) * wB) := by ring
      _ = (v1 + 1) * wB ^ (n - 1) := by rw [← hp2]
  have hu2v1 : u2 ≤ v1 := by
    have h1 : u2 * wB ^ n < (v1 + 1) * wB ^ n := by
      calc u2 * wB ^ n ≤ W := by omega
        _ < wB * V := hW
        _ ≤ wB * ((v1 + 1) * wB ^ (n - 1)) := by
            apply Nat.mul_le_mul_left
            omega
        _ = (v1 + 1) * (wB * wB ^ (n - 1)) := by ring
        _ = (v1 + 1) * wB ^ n := by rw [← hp3]
    have h2 : u2 < v1 + 1 := Nat.lt_of_mul_lt_mul_right h1
    omega
  -- the estimated digit
  obtain ⟨hc1, hc2, hc3⟩ := div3Calculate_spec u2 u1w u0w v1 v0
    (by rw [hv1]; exact hvtop) hv1u hv0u hu0u hu1u hu2v1
  set qp := Div3_Calculate u2 u1w u0w v1 v0 with hqp
  obtain ⟨hQle, hQge⟩ := knuth_bracket (n - 2) W V qp v1 v0 u2 u1w u0w
    (wval (win.take (n - 2))) (wval (Vw.take (n - 2)))
    hWsplit hWlow hVsplit hVlow (by rw [hv1]; exact hvtop) hv1u hv0u hc1 hW hc2 hc3
  -- the multiply-subtract step
  set uu := Div3_MakeNewU u j n u2 with huu
  have huuexp : uu = win ++ [u2] ++ List.replicate (u.length - n) 0 := rfl
  have huulen : uu.length = u.length + 1 := by
    rw [huuexp]
    simp only [List.length_append, List.length_replicate, List.length_singleton,
      hwinlen]
    omega
  have hbuu : Bounded uu := by
    rw [huuexp]
    apply bounded_append
    apply bounded_append hbwin
    · intro a ha
      rw [List.mem_singleton.mp ha]
      exact hu2
    · exact bounded_replicate_zero _
  have huuval : wval uu = W := by
    have hl12 : (win ++ [u2]).length = n + 1 := by
      simp only [List.length_append, List.length_singleton, hwinlen]
    have h1 : wval [u2] = u2 := by
      show u2 + wB * 0 = u2
      ring
    rw [huuexp, wval_append, wval_append, hwinlen, hl12, h1,
      wval_replicate_zero, hWdef]
    ring
  set vv := vnorm ++ [0] with hvv
  have hvvlen : vv.length = vnorm.length + 1 := by
    rw [hvv]
    simp
  have hbvv : Bounded vv := by
    rw [hvv]
    apply bounded_append hbv
    intro a ha
    rw [List.mem_singleton.mp ha]
    exact wB_pos
  have hvvval : wval vv = V := by
    rw [hvv, wval_append]
    have h1 : wval [0] = 0 := by
      show 0 + wB * 0 = 0
      ring
    rw [h1, hV]
    ring
  have hlenuv : uu.length = vv.length := by rw [huulen, hvvlen, hlen]
  have hnof : qp * wval vv < wB ^ uu.length := by
    rw [hvvval, huulen]
    have h1 : qp * V < wB * V := (Nat.mul_lt_mul_right hVpos).mpr hc1
    have h2 : wB * V < wB * wB ^ n := mul_lt_mul_of_pos_left hvlt wB_pos
    have h3 : wB * wB ^ n ≤ wB ^ (u.length + 1) := by
      calc wB * wB ^ n = wB ^ (n + 1) := by rw [pow_succ]; ring
        _ ≤ wB ^ (u.length + 1) :=
          Nat.pow_le_pow_right wB_pos (by omega)
    omega
  have hWdm := Nat.div_add_mod W V
  have hWmod : W % V < V := Nat.mod_lt _ hVpos
  have hQVle : W / V * V ≤ W := Nat.div_mul_le_self W V
  have hlow' : (qp - 1) * wval vv ≤ wval uu := by
    rw [hvvval, huuval]
    calc (qp - 1) * V ≤ W / V * V :=
          Nat.mul_le_mul_right V (Nat.sub_le_of_le_add hQge)
      _ ≤ W := hQVle
  obtain ⟨hms2, hmsv, hmsl, hmsb⟩ := div3MS_spec uu vv qp hlenuv hbuu hbvv hc1
    (by rw [hvvlen]; omega) hnof hlow'
  set ms := Div3_MultiplySubtract uu vv qp with hms
  rw [huuval, hvvval] at hms2 hmsv
  -- the step digit is the exact window quotient
  have hVQcomm : W / V * V = V * (W / V) := by ring
  have hdig : ms.2 = W / V := by
    have hcase : qp = W / V ∨ qp = W / V + 1 := by
      rcases Nat.eq_or_lt_of_le hQle with h | h
      · exact Or.inl h.symm
      · exact Or.inr (Nat.le_antisymm hQge h)
    rcases hcase with h | h
    · rw [hms2, h, if_pos hQVle]
    · have hgt : ¬ (qp * V ≤ W) := by
        push_neg
        have hx : (W / V + 1) * V = V * (W / V) + V := by ring
        rw [h, hx]
        calc W = V * (W / V) + W % V := hWdm.symm
          _ < V * (W / V) + V := Nat.add_lt_add_left hWmod _
      rw [hms2, if_neg hgt, h]
      exact Nat.add_sub_cancel (W / V) 1
  have hmsval : wval ms.1 = W % V := by
    rw [hdig] at hmsv
    have h5 : W % V + W / V * V = W := by
      calc W % V + W / V * V = V * (W / V) + W % V := by rw [hVQcomm]; ring
        _ = W := hWdm
    exact Nat.add_right_cancel (hmsv.trans h5.symm)
  -- assemble the structural form of the written-back table
  have hmsl2 : ms.1.length = u.length + 1 := by rw [hmsl, huulen]
  have hmslt : wval ms.1 < wB ^ n := by
    rw [hmsval]
    calc W % V < V := hWmod
      _ < wB ^ n := hvlt
  set w := ms.1.take n with hw
  have hwlen : w.length = n := by
    rw [hw, List.length_take, hmsl2]
    omega
  have hbw : Bounded w := bounded_take hmsb n
  have hwval : wval w = W % V := by
    rw [hw, wval_take_of_lt_pow n hmslt, hmsval]
  have hrun : div3Step (vnorm ++ [0]) vnorm n j u u2
      = (Div3_CopyNewU u ms.1 j n, ms.2) := rfl
  refine ⟨by rw [hrun, hdig], ?_, w, hwlen, hbw, hwval, ?_⟩
  · rw [hrun]
    show ms.2 < wB
    rw [hdig]
    exact lt_of_le_of_lt hQle hc1
  rw [hrun]
  show Div3_CopyNewU u ms.1 j n
      = u.take j ++ w ++ (if j + n < u.length then 0 :: u.drop (j + n + 1) else [])
  have hcopy : Div3_CopyNewU u ms.1 j n
      = u.take j ++ ms.1.take (if j + n < u.length then n + 1 else n)
        ++ u.drop (j + (if j + n < u.length then n + 1 else n)) := rfl
  by_cases hjlt : j + n < u.length
  · rw [hcopy]
    simp only [if_pos hjlt]
    have hms1n : ms.1.getD n 0 = 0 := by
      rw [getD_eq_digit hmsb n]
      have h0 : wval ms.1 / wB ^ n = 0 := Nat.div_eq_of_lt hmslt
      rw [h0]
      simp
    have htk : ms.1.take (n + 1) = w ++ [0] := by
      rw [take_succ_eq ms.1 n (by omega), hms1n, hw]
    rw [htk]
    have h1 : j + (n + 1) = j + n + 1 := by omega
    rw [h1]
    simp [List.append_assoc]
  · rw [hcopy]
    simp only [if_neg hjlt]
    have hjn2 : u.length ≤ j + n := by omega
    have hdrop : u.drop (j + n) = ([] : List ℕ) := List.drop_eq_nil_of_le hjn2
    rw [hdrop, ← hw]

set_option maxHeartbeats 1600000 in
/-- The full digit loop of `Div3_Division`: it writes the base-`wB` digits
of the quotient of the running region into `q` and leaves the remainder in
the low `n` words of the table. -/
theorem div3Loop_spec (vnorm : List ℕ) (n : ℕ)
    (hbv : Bounded vnorm) (hn2 : 2 ≤ n)
    (hvtop : 2 ^ 63 ≤ vnorm.getD (n - 1) 0)
    (hvlt : wval vnorm < wB ^ n) :
    ∀ j u u2 q,
      Bounded u → vnorm.length = u.length → j + n ≤ u.length → u2 < wB →
      u2 * wB ^ n + wval ((u.drop j).take n) < wB * wval vnorm →
      q.length = u.length → Bounded q →
      (∀ i, i ≤ j → q.getD i 0 = 0) →
      (div3Loop (vnorm ++ [0]) vnorm n j u u2 q).1.length = u.length ∧
      Bounded (div3Loop (vnorm ++ [0]) vnorm n j u u2 q).1 ∧
      wval ((div3Loop (vnorm ++ [0]) vnorm n j u u2 q).1.take n)
          = ((u2 * wB ^ n + wval ((u.drop j).take n)) * wB ^ j + wval (u.take j))
              % wval vnorm ∧
      (div3Loop (vnorm ++ [0]) vnorm n j u u2 q).2.length = q.length ∧
      Bounded (div3Loop (vnorm ++ [0]) vnorm n j u u2 q).2 ∧
      wval (div3Loop (vnorm ++ [0]) vnorm n j u u2 q).2
          = wval q + ((u2 * wB ^ n + wval ((u.drop j).take n)) * wB ^ j
              + wval (u.take j)) / wval vnorm := by
  have hVpos : 0 < wval vnorm := by
    by_contra hcon
    push_neg at hcon
    have h0 : wval vnorm = 0 := by omega
    have h1 := getD_eq_digit hbv (n - 1)
    rw [h0] at h1
    have h2 : vnorm.getD (n - 1) 0 = 0 := by
      rw [h1]
      simp
    rw [h2] at hvtop
    have : (0:ℕ) < 2 ^ 63 := by positivity
    omega
  set V := wval vnorm with hV
  intro j
  induction j with
  | zero =>
      intro u u2 q hbu hlenv hjn hu2 hWlt hqlen hbq hq0
      obtain ⟨hd1, hd2, w, hwlen, hbw, hwval, hseq⟩ :=
        div3Step_spec vnorm u n 0 u2 hbv hbu hlenv hn2 hjn hvtop hvlt hu2 hWlt
      set s := div3Step (vnorm ++ [0]) vnorm n 0 u u2 with hs
      have hrun : div3Loop (vnorm ++ [0]) vnorm n 0 u u2 q
          = (s.1, q.set 0 s.2) := rfl
      set rest := (if 0 + n < u.length then 0 :: u.drop (0 + n + 1)
        else ([] : List ℕ)) with hrest
      have hseq' : s.1 = w ++ rest := by
        rw [hseq]
        simp
      have hbrest : Bounded rest := by
        rw [hrest]
        split_ifs
        · apply bounded_cons.mpr ⟨wB_pos, bounded_drop hbu _⟩
        · exact bounded_nil
      have hrestlen : rest.length = u.length - n := by
        rw [hrest]
        split_ifs with h
        · simp only [List.length_cons, List.length_drop]
          omega
        · simp only [List.length_nil]
          omega
      have hslen : s.1.length = u.length := by
        rw [hseq']
        simp only [List.length_append, hwlen, hrestlen]
        omega
      have hsb : Bounded s.1 := by
        rw [hseq']
        exact bounded_append hbw hbrest
      have htaken : s.1.take n = w := by
        rw [hseq', take_append_of_len_le rest (le_of_eq hwlen.symm),
          List.take_of_length_le (le_of_eq hwlen)]
      have hW0 : (u2 * wB ^ n + wval ((u.drop 0).take n)) * wB ^ 0
          + wval (u.take 0)
          = u2 * wB ^ n + wval ((u.drop 0).take n) := by
        simp [wval]
      rw [hrun]
      refine ⟨hslen, hsb, ?_, by simp [hqlen], bounded_set hbq hd2 0, ?_⟩
      · rw [htaken, hwval, hW0]
      · have hset := wval_set s.2 q 0 (by omega) (hq0 0 (le_refl 0))
        rw [hset, hd1, hW0]
        simp
  | succ j ih =>
      intro u u2 q hbu hlenv hjn hu2 hWlt hqlen hbq hq0
      obtain ⟨hd1, hd2, w, hwlen, hbw, hwval, hseq⟩ :=
        div3Step_spec vnorm u n (j + 1) u2 hbv hbu hlenv hn2 hjn hvtop hvlt hu2 hWlt
      set s := div3Step (vnorm ++ [0]) vnorm n (j + 1) u u2 with hs
      have hrun : div3Loop (vnorm ++ [0]) vnorm n (j + 1) u u2 q
          = div3Loop (vnorm ++ [0]) vnorm n j s.1 (s.1.getD (j + n) 0)
              (q.set (j + 1) s.2) := rfl
      set W := u2 * wB ^ n + wval ((u.drop (j + 1)).take n) with hWd
      set rest := (if j + 1 + n < u.length then 0 :: u.drop (j + 1 + n + 1)
        else ([] : List ℕ)) with hrest
      have hbrest : Bounded rest := by
        rw [hrest]
        split_ifs
        · exact bounded_cons.mpr ⟨wB_pos, bounded_drop hbu _⟩
        · exact bounded_nil
      have hrestlen : rest.length = u.length - (j + 1 + n) := by
        rw [hrest]
        split_ifs with h
        · simp only [List.length_cons, List.length_drop]
          omega
        · simp only [List.length_nil]
          omega
      have htlen : (u.take (j + 1)).length = j + 1 :=
        List.length_take_of_le (by omega)
      have hslen : s.1.length = u.length := by
        rw [hseq]
        simp only [List.length_append, hwlen, hrestlen, htlen]
        omega
      have hsb : Bounded s.1 := by
        rw [hseq]
        exact bounded_append (bounded_append (bounded_take hbu _) hbw) hbrest
      -- decompose the prefix once more
      have hup : u.take (j + 1) = u.take j ++ [u.getD j 0] :=
        take_succ_eq u j (by omega)
      have hseq2 : s.1 = u.take j ++ ([u.getD j 0] ++ (w ++ rest)) := by
        rw [hseq, hup]
        simp [List.append_assoc]
      have hjtake : (u.take j).length = j := List.length_take_of_le (by omega)
      have hdropj : s.1.drop j = u.getD j 0 :: (w ++ rest) := by
        rw [hseq2]
        have h := drop_append_of_len (u.take j) ([u.getD j 0] ++ (w ++ rest))
        rw [hjtake] at h
        rw [h]
        rfl
      have hwinj : (s.1.drop j).take n = u.getD j 0 :: w.take (n - 1) := by
        rw [hdropj]
        have h1 : (u.getD j 0 :: (w ++ rest)).take n
            = u.getD j 0 :: (w ++ rest).take (n - 1) := by
          have h2 : n = (n - 1) + 1 := by omega
          rw [h2]
          rfl
        rw [h1, take_append_of_len_le rest (by omega)]
      have hu2' : s.1.getD (j + n) 0 = w.getD (n - 1) 0 := by
        have h1 : j + n = (u.take (j + 1)).length + (n - 1) := by
          rw [htlen]
          omega
        rw [hseq, List.append_assoc, h1, getD_append_right,
          getD_append_left _ _ _ (by omega)]
      have hu2lt : s.1.getD (j + n) 0 < wB := by
        rw [hu2']
        exact getD_lt_of_bounded hbw _
      -- the new window value
      have hwsplit : wval w = wval (w.take (n - 1))
          + w.getD (n - 1) 0 * wB ^ (n - 1) := by
        have h := wval_take_succ w (n - 1)
        have hn1e : n - 1 + 1 = n := by omega
        rw [hn1e, List.take_of_length_le (le_of_eq hwlen)] at h
        exact h
      have hWnew : s.1.getD (j + n) 0 * wB ^ n + wval ((s.1.drop j).take n)
          = wB * (W % V) + u.getD j 0 := by
        rw [hwinj, hu2']
        show w.getD (n - 1) 0 * wB ^ n
            + (u.getD j 0 + wB * wval (w.take (n - 1)))
            = wB * (W % V) + u.getD j 0
        rw [← hwval, hwsplit]
        have hpn : wB ^ n = wB * wB ^ (n - 1) := by
          calc wB ^ n = wB ^ ((n - 1) + 1) := by congr 1; omega
            _ = wB * wB ^ (n - 1) := by rw [pow_succ]; ring
        rw [hpn]
        ring
      have hWmodlt : W % V < V := Nat.mod_lt _ hVpos
      have hWnewlt : s.1.getD (j + n) 0 * wB ^ n + wval ((s.1.drop j).take n)
          < wB * V := by
        rw [hWnew]
        have hujb : u.getD j 0 < wB := getD_lt_of_bounded hbu j
        calc wB * (W % V) + u.getD j 0 < wB * (W % V) + wB := by omega
          _ = wB * (W % V + 1) := by ring
          _ ≤ wB * V := Nat.mul_le_mul_left _ (by omega)
      -- the updated quotient table
      have hq'len : (q.set (j + 1) s.2).length = u.length := by
        rw [List.length_set, hqlen]
      have hq'b : Bounded (q.set (j + 1) s.2) := bounded_set hbq hd2 _
      have hq'0 : ∀ i, i ≤ j → (q.set (j + 1) s.2).getD i 0 = 0 := by
        intro i hi
        rw [getD_set]
        rw [if_neg (by omega)]
        exact hq0 i (by omega)
      obtain ⟨ih1, ih2, ih3, ih4, ih5, ih6⟩ := ih s.1 (s.1.getD (j + n) 0)
        (q.set (j + 1) s.2) hsb (by rw [hslen, hlenv]) (by omega) hu2lt
        hWnewlt (by rw [List.length_set, hqlen, hslen]) hq'b hq'0
      rw [hrun]
      -- identify the two running values
      have hstake : s.1.take j = u.take j := by
        rw [hseq2, take_append_of_len_le _ (by omega),
          List.take_of_length_le (by omega)]
      have hRrel : (s.1.getD (j + n) 0 * wB ^ n + wval ((s.1.drop j).take n))
            * wB ^ j + wval (s.1.take j)
          = W % V * wB ^ (j + 1) + wval (u.take (j + 1)) := by
        rw [hWnew, hstake]
        have hx : wval (u.take (j + 1))
            = wval (u.take j) + u.getD j 0 * wB ^ j := wval_take_succ u j
        rw [hx, pow_succ]
        ring
      have hdm := Nat.div_add_mod W V
      have hR : W * wB ^ (j + 1) + wval (u.take (j + 1))
          = V * (W / V * wB ^ (j + 1))
            + (W % V * wB ^ (j + 1) + wval (u.take (j + 1))) := by
        calc W * wB ^ (j + 1) + wval (u.take (j + 1))
            = (V * (W / V) + W % V) * wB ^ (j + 1) + wval (u.take (j + 1)) := by
              rw [hdm]
          _ = V * (W / V * wB ^ (j + 1))
              + (W % V * wB ^ (j + 1) + wval (u.take (j + 1))) := by ring
      have hRdiv : (W * wB ^ (j + 1) + wval (u.take (j + 1))) / V
          = W / V * wB ^ (j + 1)
            + (W % V * wB ^ (j + 1) + wval (u.take (j + 1))) / V := by
        rw [hR]
        exact Nat.mul_add_div hVpos _ _
      have hRmod : (W * wB ^ (j + 1) + wval (u.take (j + 1))) % V
          = (W % V * wB ^ (j + 1) + wval (u.take (j + 1))) % V := by
        rw [hR]
        exact Nat.mul_add_mod _ _ _
      refine ⟨by rw [ih1, hslen], ih2, ?_, by rw [ih4, List.length_set], ih5, ?_⟩
      · rw [ih3, hRrel, hRmod]
      · rw [ih6, hRrel]
        have hqset : wval (q.set (j + 1) s.2) = wval q + s.2 * wB ^ (j + 1) := by
          apply wval_set
          · omega
          · exact hq0 (j + 1) (le_refl _)
        rw [hqset, hd1, hRdiv]
        ring

set_option maxHeartbeats 1600000 in
/-- Effect of `Div3_Normalize`: both operands are scaled by `2^d`, the top
divisor word becomes normalized, and the bits shifted out of the dividend
are returned. -/
theorem div3Normalize_spec (u v : List ℕ) (n : ℕ)
    (hbu : Bounded u) (hbv : Bounded v)
    (hul : 1 ≤ u.length)
    (hn1 : 1 ≤ n) (hnlen : n ≤ v.length)
    (htopne : v.getD (n - 1) 0 ≠ 0)
    (hvlt : wval v < wB ^ n) :
    (Div3_Normalize u v n).2.2.1 ≤ 63 ∧
    (Div3_Normalize u v n).1.length = u.length ∧
    Bounded (Div3_Normalize u v n).1 ∧
    (Div3_Normalize u v n).2.1.length = v.length ∧
    Bounded (Div3_Normalize u v n).2.1 ∧
    wval (Div3_Normalize u v n).2.1
        = wval v * 2 ^ (Div3_Normalize u v n).2.2.1 ∧
    wval (Div3_Normalize u v n).2.1 < wB ^ n ∧
    2 ^ 63 ≤ (Div3_Normalize u v n).2.1.getD (n - 1) 0 ∧
    (Div3_Normalize u v n).2.2.2 * wB ^ u.length
        + wval (Div3_Normalize u v n).1
      = wval u * 2 ^ (Div3_Normalize u v n).2.2.1 := by
  have hvw : v.getD (n - 1) 0 < wB := getD_lt_of_bounded hbv _
  obtain ⟨hb63, hblow, hbhigh⟩ :=
    findLeadingBit_spec (v.getD (n - 1) 0) (by omega) hvw
  set bit := FindLeadingBitInWord (v.getD (n - 1) 0) with hbit
  have hrun : Div3_Normalize u v n
      = (if 0 < 64 - bit - 1 then
          ((Rcl u (64 - bit - 1) 0).1, (Rcl v (64 - bit - 1) 0).1,
           64 - bit - 1, u.getD (u.length - 1) 0 / 2 ^ (bit + 1))
        else (u, v, 64 - bit - 1, 0)) := rfl
  -- the value split of v at the top word
  have hvtake : wval (v.take n) = wval v := wval_take_of_lt_pow n hvlt
  have hsplit : wval (v.take n)
      = wval (v.take (n - 1)) + v.getD (n - 1) 0 * wB ^ (n - 1) := by
    have h := wval_take_succ v (n - 1)
    have hn1e : n - 1 + 1 = n := by omega
    rw [hn1e] at h
    exact h
  have hvlow : wval (v.take (n - 1)) < wB ^ (n - 1) := wval_take_lt hbv _
  have hvub : wval v < 2 ^ (bit + 1) * wB ^ (n - 1) := by
    calc wval v = wval (v.take (n - 1)) + v.getD (n - 1) 0 * wB ^ (n - 1) := by
          rw [← hvtake, hsplit]
      _ < wB ^ (n - 1) + v.getD (n - 1) 0 * wB ^ (n - 1) := by omega
      _ = (v.getD (n - 1) 0 + 1) * wB ^ (n - 1) := by ring
      _ ≤ 2 ^ (bit + 1) * wB ^ (n - 1) := Nat.mul_le_mul_right _ (by omega)
  have hvlb : 2 ^ bit * wB ^ (n - 1) ≤ wval v := by
    calc 2 ^ bit * wB ^ (n - 1) ≤ v.getD (n - 1) 0 * wB ^ (n - 1) :=
          Nat.mul_le_mul_right _ hblow
      _ ≤ wval (v.take (n - 1)) + v.getD (n - 1) 0 * wB ^ (n - 1) := by omega
      _ = wval v := by rw [← hsplit, hvtake]
  by_cases hmove : 0 < 64 - bit - 1
  · rw [hrun, if_pos hmove]
    set move := 64 - bit - 1 with hmovd
    have hm1 : 1 ≤ move := hmove
    have hm63 : move ≤ 63 := by omega
    have hmb : 2 ^ (bit + 1) * 2 ^ move = wB := by
      rw [← pow_add]
      have : bit + 1 + move = 64 := by omega
      rw [this, wB]
      rfl
    obtain ⟨hrv, hrvl, hrvb⟩ := rcl_val v move hbv hm1 hm63
    obtain ⟨hru, hrul, hrub⟩ := rcl_val u move hbu hm1 hm63
    have hvnof : wval v * 2 ^ move < wB ^ n := by
      calc wval v * 2 ^ move < 2 ^ (bit + 1) * wB ^ (n - 1) * 2 ^ move :=
            Nat.mul_lt_mul_of_lt_of_le hvub (le_refl _) (Nat.pos_pow_of_pos _ (by omega))
        _ = (2 ^ (bit + 1) * 2 ^ move) * wB ^ (n - 1) := by ring
        _ = wB * wB ^ (n - 1) := by rw [hmb]
        _ = wB ^ n := by
            rw [← pow_succ']
            congr 1
            omega
    have hvval : wval (Rcl v move 0).1 = wval v * 2 ^ move := by
      rw [hrv]
      apply Nat.mod_eq_of_lt
      calc wval v * 2 ^ move < wB ^ n := hvnof
        _ ≤ wB ^ v.length := Nat.pow_le_pow_right wB_pos hnlen
    refine ⟨hm63, hrul, hrub, hrvl, hrvb, hvval, by rw [hvval]; exact hvnof,
      ?_, ?_⟩
    · -- the normalized top divisor word
      have hd := getD_eq_digit hrvb (n - 1)
      have hlt : wval (Rcl v move 0).1 / wB ^ (n - 1) < wB := by
        apply Nat.div_lt_iff_lt_mul (Nat.pos_pow_of_pos _ wB_pos) |>.mpr
        calc wval (Rcl v move 0).1 < wB ^ n := by rw [hvval]; exact hvnof
          _ = wB * wB ^ (n - 1) := by
              rw [← pow_succ']
              congr 1
              omega
      rw [hd, Nat.mod_eq_of_lt hlt, hvval]
      apply Nat.le_div_iff_mul_le (Nat.pos_pow_of_pos _ wB_pos) |>.mpr
      have hbm : bit + move = 63 := by omega
      calc 2 ^ 63 * wB ^ (n - 1) = 2 ^ (bit + move) * wB ^ (n - 1) := by rw [hbm]
        _ = 2 ^ bit * wB ^ (n - 1) * 2 ^ move := by rw [pow_add]; ring
        _ ≤ wval v * 2 ^ move := Nat.mul_le_mul_right _ hvlb
    · -- the dividend identity
      have hX : wval u < wB ^ u.length := wval_lt hbu
      have htopd : u.getD (u.length - 1) 0 = wval u / wB ^ (u.length - 1) := by
        have hd := getD_eq_digit hbu (u.length - 1)
        rw [hd]
        apply Nat.mod_eq_of_lt
        apply Nat.div_lt_iff_lt_mul (Nat.pos_pow_of_pos _ wB_pos) |>.mpr
        calc wval u < wB ^ u.length := hX
          _ = wB * wB ^ (u.length - 1) := by
              rw [← pow_succ']
              congr 1
              omega
      have hqd : u.getD (u.length - 1) 0 / 2 ^ (bit + 1)
          = wval u * 2 ^ move / wB ^ u.length := by
        rw [htopd, Nat.div_div_eq_div_mul]
        have hden : wB ^ u.length = wB ^ (u.length - 1) * 2 ^ (bit + 1) * 2 ^ move := by
          rw [Nat.mul_assoc, hmb, ← pow_succ]
          congr 1
          omega
        rw [hden, Nat.mul_div_mul_right _ _ (Nat.pos_pow_of_pos _ (by omega))]
      rw [hqd, hru]
      calc wval u * 2 ^ move / wB ^ u.length * wB ^ u.length
            + wval u * 2 ^ move % wB ^ u.length
          = wB ^ u.length * (wval u * 2 ^ move / wB ^ u.length)
            + wval u * 2 ^ move % wB ^ u.length := by ring
        _ = wval u * 2 ^ move := Nat.div_add_mod _ _
  · rw [hrun, if_neg hmove]
    have hbit63 : bit = 63 := by omega
    have hmove0 : 64 - bit - 1 = 0 := by omega
    rw [hmove0]
    refine ⟨Nat.zero_le _, rfl, hbu, rfl, hbv, by norm_num, by simpa using hvlt,
      ?_, by norm_num⟩
    rw [hbit63] at hblow
    exact hblow

theorem getD_replicate_zero : ∀ k i : ℕ, (List.replicate k (0:ℕ)).getD i 0 = 0 := by
  intro k
  induction k with
  | zero => intro i; rfl
  | succ k ih =>
      intro i
      cases i with
      | zero => rfl
      | succ i => exact ih i

set_option maxHeartbeats 1600000 in
/-- Correctness of `Div3_Division`: for a divisor of `n` words (top word
nonzero) and a dividend below `wB^(m+n)`, it returns exactly the quotient
and remainder of the word-table values. -/
theorem div3Division_spec (u v : List ℕ) (m n : ℕ)
    (hbu : Bounded u) (hbv : Bounded v)
    (hlenv : v.length = u.length)
    (hn2 : 2 ≤ n) (hmn : m + n ≤ u.length)
    (htopne : v.getD (n - 1) 0 ≠ 0)
    (hvlt : wval v < wB ^ n)
    (hXlt : wval u < wB ^ (m + n)) :
    (Div3_Division u v m n).1.length = u.length ∧
    Bounded (Div3_Division u v m n).1 ∧
    wval (Div3_Division u v m n).1 = wval u / wval v ∧
    (Div3_Division u v m n).2.length = u.length ∧
    Bounded (Div3_Division u v m n).2 ∧
    wval (Div3_Division u v m n).2 = wval u % wval v := by
  have hul : 1 ≤ u.length := by omega
  have hnlen : n ≤ v.length := by omega
  obtain ⟨hd63, hunl, hbun, hvnl, hbvn, hvnval, hvnlt, hvntop, huid⟩ :=
    div3Normalize_spec u v n hbu hbv hul (by omega) hnlen htopne hvlt
  set un := (Div3_Normalize u v n).1 with hundef
  set vn := (Div3_Normalize u v n).2.1 with hvndef
  set d := (Div3_Normalize u v n).2.2.1 with hddef
  set uvs := (Div3_Normalize u v n).2.2.2 with huvsdef
  have hVlb : wB ^ (n - 1) ≤ wval v := by
    rcases Nat.lt_or_ge (wval v) (wB ^ (n - 1)) with h | h
    · exfalso
      have h1 := getD_eq_digit hbv (n - 1)
      rw [Nat.div_eq_of_lt h, Nat.zero_mod] at h1
      exact htopne h1
    · exact h
  have hdle : 2 ^ d ≤ 2 ^ 63 := Nat.pow_le_pow_right (by omega) hd63
  have hdpos : 0 < 2 ^ d := Nat.pos_pow_of_pos _ (by omega)
  have hw63 : 2 ^ 63 < wB := by rw [wB_val]; norm_num
  set u2 := if m + n = u.length then uvs else un.getD (m + n) 0 with hu2def
  have hrun : Div3_Division u v m n
      = ((div3Loop (vn ++ [0]) vn n m un u2 (List.replicate u.length 0)).2,
         Div3_Unnormalize
           (div3Loop (vn ++ [0]) vn n m un u2 (List.replicate u.length 0)).1
           n d) := rfl
  have hsplit1 : wval un = wval (un.take m) + wB ^ m * wval (un.drop m) :=
    wval_take_drop m un
  have hsplit2 : wval (un.drop m)
      = wval ((un.drop m).take n) + wB ^ n * wval ((un.drop m).drop n) :=
    wval_take_drop n (un.drop m)
  have hdd : (un.drop m).drop n = un.drop (n + m) := by
    rw [List.drop_drop]
    congr 1
    omega
  have hkey : (u2 * wB ^ n + wval ((un.drop m).take n)) * wB ^ m + wval (un.take m)
        = wval u * 2 ^ d ∧ u2 < wB := by
    by_cases hcase : m + n = u.length
    · have hu2v : u2 = uvs := by rw [hu2def, if_pos hcase]
      have hdrop0 : wval (un.drop (n + m)) = 0 := by
        have hnil : un.drop (n + m) = [] := by
          apply List.drop_eq_nil_of_le
          rw [hunl]
          omega
        rw [hnil]
        rfl
      have huvslt : uvs < 2 ^ d := by
        have h1 : uvs * wB ^ u.length < wB ^ u.length * 2 ^ d := by
          calc uvs * wB ^ u.length ≤ wval u * 2 ^ d := by omega
            _ < wB ^ (m + n) * 2 ^ d :=
                Nat.mul_lt_mul_of_lt_of_le hXlt (le_refl _) hdpos
            _ ≤ wB ^ u.length * 2 ^ d :=
                Nat.mul_le_mul_right _
                  (Nat.pow_le_pow_right wB_pos hmn)
        by_contra hge
        push_neg at hge
        have h2 : wB ^ u.length * 2 ^ d ≤ uvs * wB ^ u.length := by
          calc wB ^ u.length * 2 ^ d = 2 ^ d * wB ^ u.length := by ring
            _ ≤ uvs * wB ^ u.length := Nat.mul_le_mul_right _ hge
        omega
      constructor
      · rw [hu2v]
        have e1 : wval un = wval (un.take m)
            + wB ^ m * (wval ((un.drop m).take n) + wB ^ n * 0) := by
          rw [hsplit1, hsplit2, hdd, hdrop0]
        have e2 : wB ^ u.length = wB ^ m * wB ^ n := by
          rw [← pow_add]
          congr 1
          omega
        calc (uvs * wB ^ n + wval ((un.drop m).take n)) * wB ^ m + wval (un.take m)
            = uvs * (wB ^ m * wB ^ n)
              + (wval (un.take m)
                  + wB ^ m * (wval ((un.drop m).take n) + wB ^ n * 0)) := by ring
          _ = uvs * wB ^ u.length + wval un := by rw [← e2, ← e1]
          _ = wval u * 2 ^ d := huid
      · rw [hu2v]
        calc uvs < 2 ^ d := huvslt
          _ ≤ 2 ^ 63 := hdle
          _ < wB := hw63
    · have hu2v : u2 = un.getD (m + n) 0 := by rw [hu2def, if_neg hcase]
      have huvs0 : uvs = 0 := by
        have h1 : uvs * wB ^ u.length < wB ^ u.length := by
          calc uvs * wB ^ u.length ≤ wval u * 2 ^ d := by omega
            _ < wB ^ (m + n) * 2 ^ d :=
                Nat.mul_lt_mul_of_lt_of_le hXlt (le_refl _) hdpos
            _ ≤ wB ^ (m + n) * wB := Nat.mul_le_mul_left _ (by omega)
            _ = wB ^ (m + n + 1) := by rw [pow_succ]
            _ ≤ wB ^ u.length :=
                Nat.pow_le_pow_right wB_pos (by omega)
        by_contra h
        have h2 : 1 ≤ uvs := Nat.pos_of_ne_zero h
        have h3 : wB ^ u.length ≤ uvs * wB ^ u.length :=
          le_mul_of_one_le_left (Nat.zero_le _) h2
        omega
      have hunval : wval un = wval u * 2 ^ d := by
        have h := huid
        rw [huvs0] at h
        simpa using h
      have hunlt : wval un < wB ^ (m + n + 1) := by
        rw [hunval]
        calc wval u * 2 ^ d < wB ^ (m + n) * 2 ^ d :=
              Nat.mul_lt_mul_of_lt_of_le hXlt (le_refl _) hdpos
          _ ≤ wB ^ (m + n) * wB := Nat.mul_le_mul_left _ (by omega)
          _ = wB ^ (m + n + 1) := by rw [pow_succ]
      have hsp := wval_take_drop (n + m) un
      have htk : wval (un.take (n + m)) < wB ^ (n + m) := wval_take_lt hbun _
      have hDlt : wval (un.drop (n + m)) < wB := by
        have hnm : wB ^ (m + n + 1) = wB ^ (n + m) * wB := by
          rw [← pow_succ]
          congr 1
          omega
        by_contra hge
        push_neg at hge
        have h4 : wB ^ (n + m) * wB ≤ wB ^ (n + m) * wval (un.drop (n + m)) :=
          Nat.mul_le_mul_left _ hge
        omega
      have hu2D : u2 = wval (un.drop (n + m)) := by
        rw [hu2v]
        have hdig := getD_eq_digit hbun (m + n)
        have hdiv : wval un / wB ^ (m + n) = wval (un.drop (n + m)) := by
          have hnm : m + n = n + m := by omega
          rw [hnm, hsp, Nat.add_mul_div_left _ _ (Nat.pos_pow_of_pos _ wB_pos),
            Nat.div_eq_of_lt htk]
          omega
        rw [hdig, hdiv, Nat.mod_eq_of_lt hDlt]
      constructor
      · calc (u2 * wB ^ n + wval ((un.drop m).take n)) * wB ^ m + wval (un.take m)
            = wval (un.take m)
              + wB ^ m * (wval ((un.drop m).take n) + wB ^ n * u2) := by ring
          _ = wval un := by rw [hu2D, ← hdd, ← hsplit2, ← hsplit1]
          _ = wval u * 2 ^ d := hunval
      · rw [hu2v]
        exact getD_lt_of_bounded hbun _
  obtain ⟨hR, hu2w⟩ := hkey
  have hWle : (u2 * wB ^ n + wval ((un.drop m).take n)) * wB ^ m
      ≤ wval u * 2 ^ d := by omega
  have hn1e : n - 1 + 1 = n := by omega
  have hW : u2 * wB ^ n + wval ((un.drop m).take n) < wB * wval vn := by
    have e3 : wB ^ (m + n) = wB * wB ^ (n - 1) * wB ^ m := by
      rw [← pow_succ', ← pow_add]
      congr 1
      omega
    have h1 : (u2 * wB ^ n + wval ((un.drop m).take n)) * wB ^ m
        < (wB * wval vn) * wB ^ m := by
      calc (u2 * wB ^ n + wval ((un.drop m).take n)) * wB ^ m
          ≤ wval u * 2 ^ d := hWle
        _ < wB ^ (m + n) * 2 ^ d :=
            Nat.mul_lt_mul_of_lt_of_le hXlt (le_refl _) hdpos
        _ = (wB * wB ^ (n - 1) * 2 ^ d) * wB ^ m := by rw [e3]; ring
        _ ≤ (wB * (wval v * 2 ^ d)) * wB ^ m := by
            apply Nat.mul_le_mul_right
            calc wB * wB ^ (n - 1) * 2 ^ d = wB * (wB ^ (n - 1) * 2 ^ d) := by ring
              _ ≤ wB * (wval v * 2 ^ d) :=
                  Nat.mul_le_mul_left _ (Nat.mul_le_mul_right _ hVlb)
        _ = (wB * wval vn) * wB ^ m := by rw [hvnval]
    exact Nat.lt_of_mul_lt_mul_right h1
  have hvnun : vn.length = un.length := by
    rw [hvnl, hunl]
    exact hlenv
  obtain ⟨hl1, hl2, hl3, hl4, hl5, hl6⟩ :=
    div3Loop_spec vn n hbvn hn2 hvntop hvnlt m un u2 (List.replicate u.length 0)
      hbun hvnun (by rw [hunl]; exact hmn) hu2w hW
      (by rw [List.length_replicate, hunl])
      (bounded_replicate_zero _)
      (fun i _ => getD_replicate_zero _ _)
  set L := div3Loop (vn ++ [0]) vn n m un u2 (List.replicate u.length 0)
    with hLdef
  have hq1 : (Div3_Division u v m n).1 = L.2 := by rw [hrun]
  have hr1 : (Div3_Division u v m n).2 = Div3_Unnormalize L.1 n d := by rw [hrun]
  have hQval : wval L.2 = wval u / wval v := by
    rw [hl6, wval_replicate_zero, hR, hvnval,
      Nat.mul_div_mul_right _ _ hdpos]
    omega
  have hunn : Div3_Unnormalize L.1 n d
      = (Rcr (L.1.take n ++ List.replicate (L.1.length - n) 0) d 0).1 := rfl
  have htklen : (L.1.take n).length = n := by
    rw [List.length_take]
    rw [hl1, hunl]
    omega
  have hbpad : Bounded (L.1.take n ++ List.replicate (L.1.length - n) 0) :=
    bounded_append (bounded_take hl2 n) (bounded_replicate_zero _)
  have hpadlen : (L.1.take n ++ List.replicate (L.1.length - n) 0).length
      = u.length := by
    rw [List.length_append, htklen, List.length_replicate, hl1, hunl]
    omega
  have hpadval : wval (L.1.take n ++ List.replicate (L.1.length - n) 0)
      = wval (L.1.take n) := by
    rw [wval_append, wval_replicate_zero]
    ring
  obtain ⟨hrv, hrl, hrb⟩ :=
    rcr_val (L.1.take n ++ List.replicate (L.1.length - n) 0) d hbpad hd63
  have hRval : wval (L.1.take n) = wval u % wval v * 2 ^ d := by
    rw [hl3, hR, hvnval, Nat.mul_mod_mul_right]
  refine ⟨?_, ?_, ?_, ?_, ?_, ?_⟩
  · rw [hq1, hl4, List.length_replicate]
  · rw [hq1]
    exact hl5
  · rw [hq1]
    exact hQval
  · rw [hr1, hunn, hrl]
    exact hpadlen
  · rw [hr1, hunn]
    exact hrb
  · rw [hr1, hunn, hrv, hpadval, hRval, Nat.mul_div_cancel _ hdpos]

/-! ## Claim theorems -/

/-- C1 counterexample: at the odd modulus `n = 45` (with `M = 5 < n`,
`d = 4`), the square-and-multiply variant and the ladder variant disagree:
`ModExp` returns 26 while `PoweringLadder` returns the true power
`5^4 mod 45 = 40`. -/
theorem c1_counterexample :
    45 % 2 = 1 ∧ 1 < 45 ∧ 5 < 45 ∧
      ModExp 5 4 45 = 26 ∧ PoweringLadder 5 4 45 = 40 ∧
      5 ^ 4 % 45 = 40 ∧ ModExp 5 4 45 ≠ PoweringLadder 5 4 45 := by decide

/-- C1 amended: for every odd modulus `n > 1` whose derived Montgomery
parameters satisfy the relation `r·r⁻¹ = 1 + n·n'` (true of `n = 9991`,
false of `n = 45`), and all `M` and `d`, the two variants agree and both
equal `M^d mod n`. -/
theorem c1_modexp_ladder_agree (M d n : ℕ) (hn : 1 < n) (hodd : n % 2 = 1)
    (hok : montParamsOk n) :
    ModExp M d n = PoweringLadder M d n ∧ ModExp M d n = M ^ d % n ∧
      PoweringLadder M d n = M ^ d % n := by
  have h1 := ModExp_eq_pow M d n hn hodd hok
  have h2 := PoweringLadder_eq_pow M d n hn
  exact ⟨h1.trans h2.symm, h1, h2⟩

/-- C1 witness: the agreement instantiated at `M = 100`, `d = 200`,
`n = 9991` (a point of the S3 grid). -/
theorem c1_modexp_ladder_agree_witness :
    ModExp 100 200 9991 = PoweringLadder 100 200 9991 ∧
      ModExp 100 200 9991 = 100 ^ 200 % 9991 ∧
      PoweringLadder 100 200 9991 = 100 ^ 200 % 9991 :=
  c1_modexp_ladder_agree 100 200 9991 (by decide) (by decide) (by decide)

/-- C2 counterexample: for the odd modulus `n = 45` the derived parameters
violate the Montgomery relation, and `MP(44, 44)` returns 32 where
`44·44·r⁻¹ mod 45 = 31`: the congruence `u ≡ a·b·r⁻¹ (mod n)` fails. -/
theorem c2_counterexample :
    45 % 2 = 1 ∧ 44 < 45 ∧
      MontgomeryProduct 44 44 (nPrime 45).2.1 (nPrime 45).1 45 = 32 ∧
      44 * 44 * (nPrime 45).2.2 % 45 = 31 ∧
      ¬ MontgomeryProduct 44 44 (nPrime 45).2.1 (nPrime 45).1 45 % 45
          = 44 * 44 * (nPrime 45).2.2 % 45 := by decide

/-- C2 amended: for every odd `n > 1` whose derived parameters satisfy the
Montgomery relation `r·r⁻¹ = 1 + n·n'` (which the §4.2 derivation yields
for `n = 9991` but not for every odd `n`, e.g. not for `n = 45`), and all
`a, b < n`, the Montgomery product is reduced and congruent to
`a·b·r⁻¹ (mod n)`. -/
theorem c2_montgomery_product (n a b : ℕ) (hodd : n % 2 = 1) (hn : 1 < n)
    (ha : a < n) (hb : b < n) (hok : montParamsOk n) :
    MontgomeryProduct a b (nPrime n).2.1 (nPrime n).1 n < n ∧
      MontgomeryProduct a b (nPrime n).2.1 (nPrime n).1 n
        ≡ a * b * (nPrime n).2.2 [MOD n] := by
  unfold montParamsOk at hok
  have hnr : n < (nPrime n).1 := lt_nPrimeR n
  have hab : a * b < n * (nPrime n).1 := lt_of_lt_of_le
    (Nat.mul_lt_mul_of_lt_of_le ha (le_of_lt hb) (by omega))
    (Nat.mul_le_mul_left n (le_of_lt hnr))
  obtain ⟨hlt, hc⟩ := montgomeryProduct_spec a b (nPrime n).2.1 (nPrime n).1 n
    (nPrime n).2.2 hok hab
  refine ⟨hlt, ?_⟩
  apply cancel_r _ _ (nPrime n).2.1 (nPrime n).1 n (nPrime n).2.2 hok
  calc MontgomeryProduct a b (nPrime n).2.1 (nPrime n).1 n * (nPrime n).1
      ≡ a * b [MOD n] := hc
    _ = a * b * 1 := by ring
    _ ≡ a * b * ((nPrime n).1 * (nPrime n).2.2) [MOD n] :=
        ((montRel_unit (nPrime n).2.1 (nPrime n).1 n (nPrime n).2.2 hok).symm.mul_left
          (a * b))
    _ = a * b * (nPrime n).2.2 * (nPrime n).1 := by ring

/-- C2 witness: the S2 instance `MP(100, 200)` at `n = 9991`. -/
theorem c2_montgomery_product_witness :
    MontgomeryProduct 100 200 (nPrime 9991).2.1 (nPrime 9991).1 9991 < 9991 ∧
      MontgomeryProduct 100 200 (nPrime 9991).2.1 (nPrime 9991).1 9991
        ≡ 100 * 200 * (nPrime 9991).2.2 [MOD 9991] :=
  c2_montgomery_product 9991 100 200 (by decide) (by decide) (by decide)
    (by decide) (by decide)

/-- C3: for every even (hence also zero) modulus, both exponentiations and
the Montgomery-parameter construction fail with `InvalidModulus`. -/
theorem c3_invalid_modulus (M d n : ℕ) (h : n % 2 = 0) :
    ModExpE M d n = .error .invalidModulus ∧
      ModExpSleepE M d n = .error .invalidModulus ∧
      nPrimeE n = .error .invalidModulus := by
  have h1 : ¬ n % 2 = 1 := by omega
  simp [ModExpE, ModExpSleepE, nPrimeE, h1]

/-- C3 witness: the S6 instance `n = 8`. -/
theorem c3_invalid_modulus_witness :
    ModExpE 1234 6415 8 = .error .invalidModulus ∧
      ModExpSleepE 1234 6415 8 = .error .invalidModulus ∧
      nPrimeE 8 = .error .invalidModulus :=
  c3_invalid_modulus 1234 6415 8 (by decide)

set_option maxRecDepth 40000 in
/-- C4 counterexample: for `p = 97`, `q = 103`, `e = 31` the spec's S1
numbers are wrong: `φ(9991) = 9792`, not 9504; `31·6415 mod 9504 = 8785`,
not 1; `1234^6415 mod 9991 = 661`, not 3545; and `3545^31 mod 9991 = 8727`,
not 1234. -/
theorem c4_counterexample :
    rsaPhi 97 103 = 9792 ∧ rsaPhi 97 103 ≠ 9504 ∧
      31 * 6415 % 9504 = 8785 ∧
      ModExp 1234 6415 9991 = 661 ∧ ModExp 1234 6415 9991 ≠ 3545 ∧
      rsaVerify 97 103 31 3545 = 8727 ∧ rsaVerify 97 103 31 3545 ≠ 1234 := by
  decide

set_option maxRecDepth 40000 in
/-- C4 amended: for `p = 97`, `q = 103`, `e = 31`: `n = 9991`, `φ = 9792`,
the derived private exponent is `d = 2527` with `31·2527 mod 9792 = 1`,
and the round-trip gives `Sign(1234) = 1234^2527 mod 9991 = 8809` and
`Verify(8809) = 8809^31 mod 9991 = 1234`. -/
theorem c4_small_rsa_roundtrip :
    rsaN 97 103 = 9991 ∧ rsaPhi 97 103 = 9792 ∧ rsaD 97 103 31 = 2527 ∧
      31 * 2527 % 9792 = 1 ∧ rsaSign 97 103 31 1234 = 8809 ∧
      1234 ^ 2527 % 9991 = 8809 ∧ rsaVerify 97 103 31 8809 = 1234 ∧
      8809 ^ 31 % 9991 = 1234 :=
  ⟨by decide, by decide, by decide, by decide, by decide, by norm_num,
    by decide, by norm_num⟩

/-- C5: across the ladder loop, after processing the top `j` bits (forming
the integer `p`), the registers satisfy `R₀ ≡ M^p` and `R₁ ≡ M^(p+1)`
modulo `n`, hence `R₁ − R₀ ≡ M^(p+1) − M^p (mod n)` over `ℤ`. -/
theorem c5_ladder_invariant (M d n j : ℕ) (hj : j ≤ numBits d) :
    ((ladderRun M d n (numBits d) j).1
        ≡ M ^ (d / 2 ^ (numBits d - j)) [MOD n] ∧
      (ladderRun M d n (numBits d) j).2
        ≡ M ^ (d / 2 ^ (numBits d - j) + 1) [MOD n]) ∧
      ((ladderRun M d n (numBits d) j).2 : ℤ)
          - ((ladderRun M d n (numBits d) j).1 : ℤ)
        ≡ (M : ℤ) ^ (d / 2 ^ (numBits d - j) + 1)
          - (M : ℤ) ^ (d / 2 ^ (numBits d - j)) [ZMOD n] := by
  obtain ⟨h0, h1⟩ := ladderRun_inv M d n j hj
  refine ⟨⟨h0, h1⟩, ?_⟩
  have hi0 : ((ladderRun M d n (numBits d) j).1 : ℤ)
      ≡ ((M ^ (d / 2 ^ (numBits d - j)) : ℕ) : ℤ) [ZMOD (n : ℤ)] :=
    Int.natCast_modEq_iff.mpr h0
  have hi1 : ((ladderRun M d n (numBits d) j).2 : ℤ)
      ≡ ((M ^ (d / 2 ^ (numBits d - j) + 1) : ℕ) : ℤ) [ZMOD (n : ℤ)] :=
    Int.natCast_modEq_iff.mpr h1
  have := hi1.sub hi0
  push_cast at this
  exact this

/-- C5 witness: the invariant instantiated at `M = 3`, `d = 6`, `n = 7`,
after `j = 2` of the three iterations. -/
theorem c5_ladder_invariant_witness :
    ((ladderRun 3 6 7 (numBits 6) 2).1
        ≡ 3 ^ (6 / 2 ^ (numBits 6 - 2)) [MOD 7] ∧
      (ladderRun 3 6 7 (numBits 6) 2).2
        ≡ 3 ^ (6 / 2 ^ (numBits 6 - 2) + 1) [MOD 7]) ∧
      ((ladderRun 3 6 7 (numBits 6) 2).2 : ℤ)
          - ((ladderRun 3 6 7 (numBits 6) 2).1 : ℤ)
        ≡ (3 : ℤ) ^ (6 / 2 ^ (numBits 6 - 2) + 1)
          - (3 : ℤ) ^ (6 / 2 ^ (numBits 6 - 2)) [ZMOD 7] :=
  c5_ladder_invariant 3 6 7 2 (by decide)

/-- C8: over `N`-word operands, interpreting results modulo `2^(N·64)`:
word-table addition (`UInt::Add`) and multiplication (`UInt::Mul2Big` /
its truncation `UInt::Mul2`) are commutative and associative,
multiplication distributes over addition, and subtracting an operand
after adding it restores the other operand. -/
theorem c8_big_arithmetic_laws (N : ℕ) (a b c : List ℕ)
    (hal : a.length = N) (hbl : b.length = N) (hcl : c.length = N)
    (hba : Bounded a) (hbb : Bounded b) (hbc : Bounded c) :
    UIntAdd a b 0 = UIntAdd b a 0 ∧
      (UIntAdd (UIntAdd a b 0).1 c 0).1 = (UIntAdd a (UIntAdd b c 0).1 0).1 ∧
      Mul2Big a b = Mul2Big b a ∧
      (Mul2 a b).1 = (Mul2 b a).1 ∧
      (Mul2 (Mul2 a b).1 c).1 = (Mul2 a (Mul2 b c).1).1 ∧
      (Mul2 a (UIntAdd b c 0).1).1 = (UIntAdd (Mul2 a b).1 (Mul2 a c).1 0).1 ∧
      (UIntSub (UIntAdd a b 0).1 b 0).1 = a := by
  obtain ⟨eab, lab, bab, cab⟩ := uintAdd_spec a b 0 (by omega) hba hbb (by omega)
  obtain ⟨eba, lba, bba, cba⟩ := uintAdd_spec b a 0 (by omega) hbb hba (by omega)
  obtain ⟨ebc, lbc, bbc, cbc⟩ := uintAdd_spec b c 0 (by omega) hbb hbc (by omega)
  have vab := uintAdd_val a b (by omega) hba hbb
  have vba := uintAdd_val b a (by omega) hbb hba
  have vbc := uintAdd_val b c (by omega) hbb hbc
  rw [hal] at vab lab
  rw [hbl] at vba lba vbc lbc
  have haddcomm1 : (UIntAdd a b 0).1 = (UIntAdd b a 0).1 := by
    apply wval_inj _ _ (by omega) bab bba
    rw [vab, vba, Nat.add_comm]
  have hcarry : (UIntAdd a b 0).2 = (UIntAdd b a 0).2 := by
    rw [Nat.add_zero] at eab eba
    rw [hal] at eab
    rw [hbl] at eba
    apply Nat.eq_of_mul_eq_mul_left (pow_pos wB_pos N)
    rw [haddcomm1] at eab
    omega
  refine ⟨Prod.ext_iff.mpr ⟨haddcomm1, hcarry⟩, ?_, ?_, ?_, ?_, ?_, ?_⟩
  · -- associativity of addition
    have v1 := uintAdd_val (UIntAdd a b 0).1 c (by omega) bab hbc
    have v2 := uintAdd_val a (UIntAdd b c 0).1 (by omega) hba bbc
    obtain ⟨e1, l1, b1, c1⟩ :=
      uintAdd_spec (UIntAdd a b 0).1 c 0 (by omega) bab hbc (by omega)
    obtain ⟨e2, l2, b2, c2⟩ :=
      uintAdd_spec a (UIntAdd b c 0).1 0 (by omega) hba bbc (by omega)
    apply wval_inj _ _ (by omega) b1 b2
    rw [v1, v2, vab, vbc, lab, hal]
    rw [Nat.mod_add_mod, Nat.add_mod_mod, Nat.add_assoc]
  · -- full double-width commutativity
    obtain ⟨m1, ml1, mb1⟩ := mul2Big_spec a b (by omega) hba hbb
    obtain ⟨m2, ml2, mb2⟩ := mul2Big_spec b a (by omega) hbb hba
    apply wval_inj _ _ (by omega) mb1 mb2
    rw [m1, m2, Nat.mul_comm]
  · -- truncated commutativity
    obtain ⟨m1, ml1, mb1⟩ := mul2_spec a b (by omega) hba hbb
    obtain ⟨m2, ml2, mb2⟩ := mul2_spec b a (by omega) hbb hba
    apply wval_inj _ _ (by omega) mb1 mb2
    rw [m1, m2, hal, hbl, Nat.mul_comm]
  · -- associativity modulo 2^(N·w)
    obtain ⟨mab, mlab, mbab⟩ := mul2_spec a b (by omega) hba hbb
    obtain ⟨mbc, mlbc, mbbc⟩ := mul2_spec b c (by omega) hbb hbc
    obtain ⟨m1, ml1, mb1⟩ := mul2_spec (Mul2 a b).1 c (by omega) mbab hbc
    obtain ⟨m2, ml2, mb2⟩ := mul2_spec a (Mul2 b c).1 (by omega) hba mbbc
    apply wval_inj _ _ (by omega) mb1 mb2
    rw [m1, m2, mab, mbc, mlab, hal, hbl]
    rw [Nat.mod_mul_mod, Nat.mul_mod_mod, Nat.mul_assoc]
  · -- distributivity modulo 2^(N·w)
    obtain ⟨mab, mlab, mbab⟩ := mul2_spec a b (by omega) hba hbb
    obtain ⟨mac, mlac, mbac⟩ := mul2_spec a c (by omega) hba hbc
    obtain ⟨m1, ml1, mb1⟩ := mul2_spec a (UIntAdd b c 0).1 (by omega) hba bbc
    obtain ⟨e2, l2, b2, c2⟩ :=
      uintAdd_spec (Mul2 a b).1 (Mul2 a c).1 0 (by omega) mbab mbac (by omega)
    have v2 := uintAdd_val (Mul2 a b).1 (Mul2 a c).1 (by omega) mbab mbac
    apply wval_inj _ _ (by omega) mb1 b2
    rw [m1, v2, mab, mac, vbc, mlab, hal]
    rw [Nat.mul_mod_mod, Nat.mul_add, Nat.add_mod]
  · -- subtracting after adding restores the operand
    obtain ⟨es, ls, bs, cs⟩ :=
      uintSub_spec (UIntAdd a b 0).1 b 0 (by omega) bab hbb (by omega)
    apply wval_inj _ _ (by omega) bs hba
    rw [Nat.add_zero] at eab es
    rw [lab] at es
    rw [hal] at eab
    have hAlt : wval a < wB ^ N := by
      have := wval_lt hba
      rwa [hal] at this
    have hSlt : wval (UIntSub (UIntAdd a b 0).1 b 0).1 < wB ^ N := by
      have := wval_lt bs
      rwa [ls, lab] at this
    rcases Nat.le_one_iff_eq_zero_or_eq_one.mp cab with h1 | h1 <;>
      rcases Nat.le_one_iff_eq_zero_or_eq_one.mp cs with h2 | h2 <;>
        rw [h1] at eab <;> rw [h2] at es <;> omega

/-- C8 witness: the laws at a concrete triple of 3-word operands. -/
theorem c8_big_arithmetic_laws_witness :
    UIntAdd [5, 7, 11] [13, 17, 19] 0 = UIntAdd [13, 17, 19] [5, 7, 11] 0 ∧
      (UIntAdd (UIntAdd [5, 7, 11] [13, 17, 19] 0).1 [2, 3, 4] 0).1
        = (UIntAdd [5, 7, 11] (UIntAdd [13, 17, 19] [2, 3, 4] 0).1 0).1 ∧
      Mul2Big [5, 7, 11] [13, 17, 19] = Mul2Big [13, 17, 19] [5, 7, 11] ∧
      (Mul2 [5, 7, 11] [13, 17, 19]).1 = (Mul2 [13, 17, 19] [5, 7, 11]).1 ∧
      (Mul2 (Mul2 [5, 7, 11] [13, 17, 19]).1 [2, 3, 4]).1
        = (Mul2 [5, 7, 11] (Mul2 [13, 17, 19] [2, 3, 4]).1).1 ∧
      (Mul2 [5, 7, 11] (UIntAdd [13, 17, 19] [2, 3, 4] 0).1).1
        = (UIntAdd (Mul2 [5, 7, 11] [13, 17, 19]).1
            (Mul2 [5, 7, 11] [2, 3, 4]).1 0).1 ∧
      (UIntSub (UIntAdd [5, 7, 11] [13, 17, 19] 0).1 [13, 17, 19] 0).1
        = [5, 7, 11] :=
  c8_big_arithmetic_laws 3 [5, 7, 11] [13, 17, 19] [2, 3, 4]
    (by decide) (by decide) (by decide) (by decide) (by decide) (by decide)

/-- C7 counterexample: for `n = 9991` the derivation yields
`n' = 26953` and `r⁻¹ = 4109`, not the claimed `49537` and `2049`; and the
claimed values cannot satisfy the relation:
`65536·2049 − 9991·49537 ≠ 1`. -/
theorem c7_counterexample :
    (nPrime 9991).2.1 = 26953 ∧ (nPrime 9991).2.1 ≠ 49537 ∧
      (nPrime 9991).2.2 = 4109 ∧ (nPrime 9991).2.2 ≠ 2049 ∧
      ¬ ((65536 * 2049 : ℤ) - 9991 * 49537 = 1) := by decide

/-- C7 amended: for `n = 9991` the derivation yields `r = 2^16 = 65536`,
`n' = 26953` and `r⁻¹ = 4109`, and these satisfy `r·r⁻¹ − n·n' = 1`, with
`r = 2^k` for `k = 16` the smallest multiple of the word width 16 strictly
exceeding the bit length 14 of `n`. -/
theorem c7_montgomery_parameters :
    (nPrime 9991).1 = 2 ^ 16 ∧ (2 : ℕ) ^ 16 = 65536 ∧
      (nPrime 9991).2.1 = 26953 ∧ (nPrime 9991).2.2 = 4109 ∧
      (65536 * 4109 : ℤ) - 9991 * 26953 = 1 ∧
      nPrimeK 9991 = 16 ∧ numBits 9991 = 14 ∧
      wordWidth ∣ 16 ∧ numBits 9991 < 16 ∧
      (∀ k, wordWidth ∣ k → numBits 9991 < k → 16 ≤ k) := by
  refine ⟨by decide, by decide, by decide, by decide, by decide, by decide,
    by decide, by decide, by decide, ?_⟩
  intro k hdvd hlt
  obtain ⟨c, rfl⟩ := hdvd
  have hnb : numBits 9991 = 14 := by decide
  rw [hnb] at hlt
  unfold wordWidth at hlt ⊢
  omega

/-- C7 witness: the minimality clause applied at `k = 32`. -/
theorem c7_montgomery_parameters_witness : 16 ≤ 32 :=
  c7_montgomery_parameters.2.2.2.2.2.2.2.2.2 32 (by decide) (by decide)

/-- C9 counterexample: `setExpFunc` called after construction changes the
function the signer dispatches to (construction defaults to `ModExp`; a
later `setExpFunc(POWERLADDER)` re-points it at `PoweringLadder`). -/
theorem c9_counterexample :
    (mkRsa 97 103).ef = ExpFuncId.modExpF ∧
      (setExpFunc (mkRsa 97 103) ExpType.POWERLADDER).ef
        = ExpFuncId.poweringLadderF ∧
      (setExpFunc (mkRsa 97 103) ExpType.POWERLADDER).ef ≠ (mkRsa 97 103).ef := by
  decide

/-- C9 amended: the selector always lies in the closed set
{`ModExp`, `ModExpSleep`, `PoweringLadder`}; construction defaults it to
`ModExp`, and `setExpFunc` leaves the key fields unchanged — but the
selection is mutable: `setExpFunc` may be invoked at any time after
construction and re-points the dispatch to the selected variant. -/
theorem c9_selector_closed_but_mutable (s : Rsa) (t : ExpType) :
    ((mkRsa s.p s.q).ef = ExpFuncId.modExpF) ∧
      ((setExpFunc s t).ef = setExpFuncSel t) ∧
      ((setExpFunc s t).p = s.p ∧ (setExpFunc s t).q = s.q ∧
        (setExpFunc s t).theta = s.theta) ∧
      (setExpFuncSel t = ExpFuncId.modExpF ∨
        setExpFuncSel t = ExpFuncId.modExpSleepF ∨
        setExpFuncSel t = ExpFuncId.poweringLadderF) := by
  cases t <;> simp [mkRsa, setExpFunc, setExpFuncSel]

/-- C9 witness: the amended statement at a concrete signer and selector. -/
theorem c9_selector_closed_but_mutable_witness :
    ((mkRsa (Rsa.mk 97 103 9792 ExpFuncId.modExpF).p
        (Rsa.mk 97 103 9792 ExpFuncId.modExpF).q).ef = ExpFuncId.modExpF) ∧
      ((setExpFunc (Rsa.mk 97 103 9792 ExpFuncId.modExpF)
          ExpType.MODEXP_SLEEP).ef = setExpFuncSel ExpType.MODEXP_SLEEP) ∧
      ((setExpFunc (Rsa.mk 97 103 9792 ExpFuncId.modExpF)
          ExpType.MODEXP_SLEEP).p = (Rsa.mk 97 103 9792 ExpFuncId.modExpF).p ∧
        (setExpFunc (Rsa.mk 97 103 9792 ExpFuncId.modExpF)
          ExpType.MODEXP_SLEEP).q = (Rsa.mk 97 103 9792 ExpFuncId.modExpF).q ∧
        (setExpFunc (Rsa.mk 97 103 9792 ExpFuncId.modExpF)
          ExpType.MODEXP_SLEEP).theta
            = (Rsa.mk 97 103 9792 ExpFuncId.modExpF).theta) ∧
      (setExpFuncSel ExpType.MODEXP_SLEEP = ExpFuncId.modExpF ∨
        setExpFuncSel ExpType.MODEXP_SLEEP = ExpFuncId.modExpSleepF ∨
        setExpFuncSel ExpType.MODEXP_SLEEP = ExpFuncId.poweringLadderF) :=
  c9_selector_closed_but_mutable (Rsa.mk 97 103 9792 ExpFuncId.modExpF)
    ExpType.MODEXP_SLEEP

/-- C10: for every even (or zero) modulus, `ModExp` and `ModExpSleep`
return the in-band value 0 — inside the ordinary result range rather than
a distinct error outcome — and execute no Montgomery products at all. -/
theorem c10_even_modulus_inband_zero (M d n : ℕ) (h : n % 2 = 0) :
    ModExp M d n = 0 ∧ ModExpSleep M d n = 0 ∧
      ModExpMPCount M d n = 0 ∧ ModExpSleepMPCount M d n = 0 := by
  have h1 : ¬ n % 2 = 1 := by omega
  simp [ModExp, ModExpSleep, ModExpMPCount, ModExpSleepMPCount, h1]

/-- C10 witness: instantiated at the even modulus `n = 9992`. -/
theorem c10_even_modulus_inband_zero_witness :
    ModExp 1234 6415 9992 = 0 ∧ ModExpSleep 1234 6415 9992 = 0 ∧
      ModExpMPCount 1234 6415 9992 = 0 ∧ ModExpSleepMPCount 1234 6415 9992 = 0 :=
  c10_even_modulus_inband_zero 1234 6415 9992 (by decide)

/-- C6: big-integer division `UInt::Div` (default algorithm `Div3`) returns
the div-by-zero code 1 exactly when the divisor's value is zero, and for
every nonzero divisor succeeds with code 0, returning a quotient and a
remainder with `u = q·v + r` and `r < v`. -/
theorem c6_division_divmod (u v : List ℕ)
    (hlen : v.length = u.length) (hbu : Bounded u) (hbv : Bounded v) :
    ((UIntDiv u v).1 = 1 ↔ wval v = 0) ∧
    (wval v ≠ 0 →
      (UIntDiv u v).1 = 0 ∧
      wval u = wval (UIntDiv u v).2.1 * wval v + wval (UIntDiv u v).2.2 ∧
      wval (UIntDiv u v).2.2 < wval v) := by
  have hUD : UIntDiv u v = Div3 u v := rfl
  rcases divCalculatingSize_spec u v hbu hbv with
    ⟨hc, hv0⟩ | ⟨hc, hu0, hvne⟩ | ⟨hc, hult, hune⟩ | ⟨hc, hueq, hvne⟩ |
    ⟨hc, hvleu, hvne, htsle, htspos⟩
  · -- divisor zero: return code 1
    have hst : Div_StandardTest u v
        = (1, u, List.replicate u.length 0, 0, 0) := by
      unfold Div_StandardTest
      rw [hc]
    have hd3 : Div3 u v = (1, u, List.replicate u.length 0) := by
      unfold Div3
      rw [hst]
      rfl
    constructor
    · constructor
      · intro _
        exact hv0
      · intro _
        rw [hUD, hd3]
    · intro hne
      exact absurd hv0 hne
  · -- dividend zero: quotient 0, remainder 0
    have hst : Div_StandardTest u v
        = (0, List.replicate u.length 0, List.replicate u.length 0, 0, 0) := by
      unfold Div_StandardTest
      rw [hc]
    have hd3 : Div3 u v
        = (0, List.replicate u.length 0, List.replicate u.length 0) := by
      unfold Div3
      rw [hst]
      rfl
    rw [hUD, hd3]
    refine ⟨⟨fun h => ?_, fun h => absurd h hvne⟩, fun _ => ⟨rfl, ?_, ?_⟩⟩
    · have h0 : (0:ℕ) = 1 := h
      omega
    · rw [wval_replicate_zero, hu0]
      ring
    · rw [wval_replicate_zero]
      exact Nat.pos_of_ne_zero hvne
  · -- dividend smaller than divisor: quotient 0, remainder u
    have hvne : wval v ≠ 0 := by omega
    have hst : Div_StandardTest u v
        = (0, List.replicate u.length 0, u, topSize u - 1, topSize v - 1) := by
      unfold Div_StandardTest
      rw [hc]
      rfl
    have hd3 : Div3 u v = (0, List.replicate u.length 0, u) := by
      unfold Div3
      rw [hst]
      rfl
    rw [hUD, hd3]
    refine ⟨⟨fun h => ?_, fun h => absurd h hvne⟩, fun _ => ⟨rfl, ?_, hult⟩⟩
    · have h0 : (0:ℕ) = 1 := h
      omega
    · rw [wval_replicate_zero]
      ring
  · -- equal operands: quotient 1, remainder 0
    have hst : Div_StandardTest u v
        = (0, 1 :: List.replicate (u.length - 1) 0, List.replicate u.length 0,
           topSize u - 1, topSize v - 1) := by
      unfold Div_StandardTest
      rw [hc]
      rfl
    have hd3 : Div3 u v
        = (0, 1 :: List.replicate (u.length - 1) 0,
           List.replicate u.length 0) := by
      unfold Div3
      rw [hst]
      rfl
    rw [hUD, hd3]
    refine ⟨⟨fun h => ?_, fun h => absurd h hvne⟩, fun _ => ⟨rfl, ?_, ?_⟩⟩
    · have h0 : (0:ℕ) = 1 := h
      omega
    · show wval u
        = wval (1 :: List.replicate (u.length - 1) 0) * wval v
          + wval (List.replicate u.length 0)
      have h1 : wval (1 :: List.replicate (u.length - 1) 0)
          = 1 + wB * wval (List.replicate (u.length - 1) 0) := rfl
      rw [h1, wval_replicate_zero, wval_replicate_zero, hueq]
      ring
    · show wval (List.replicate u.length 0) < wval v
      rw [wval_replicate_zero]
      exact Nat.pos_of_ne_zero hvne
  · -- the real division
    have hst : Div_StandardTest u v
        = (2, u, List.replicate u.length 0, topSize u - 1, topSize v - 1) := by
      unfold Div_StandardTest
      rw [hc]
      rfl
    by_cases htv1 : topSize v = 1
    · -- one-word divisor: DivInt path
      have hn0 : topSize v - 1 = 0 := by omega
      have hd3 : Div3 u v
          = (0, (DivIntL u (v.getD 0 0)).1,
             (DivIntL u (v.getD 0 0)).2.1
               :: List.replicate (u.length - 1) 0) := by
        unfold Div3
        rw [hst]
        simp [hn0]
      have hvw : wval v < wB := by
        have h := wval_lt_topSize_pow v hbv
        rw [htv1, pow_one] at h
        exact h
      have hv0d : v.getD 0 0 = wval v := by
        have h1 := getD_eq_digit hbv 0
        rw [h1, pow_zero, Nat.div_one, Nat.mod_eq_of_lt hvw]
      obtain ⟨_, _, _, hid, hrem⟩ :=
        divIntL_spec u (v.getD 0 0) hbu
          (by rw [hv0d]; exact hvne) (le_of_lt (getD_lt_of_bounded hbv 0))
      rw [hUD, hd3]
      refine ⟨⟨fun h => ?_, fun h => absurd h hvne⟩, fun _ => ⟨rfl, ?_, ?_⟩⟩
      · have h0 : (0:ℕ) = 1 := h
        omega
      · show wval u
          = wval (DivIntL u (v.getD 0 0)).1 * wval v
            + wval ((DivIntL u (v.getD 0 0)).2.1
                :: List.replicate (u.length - 1) 0)
        have h1 : wval ((DivIntL u (v.getD 0 0)).2.1
              :: List.replicate (u.length - 1) 0)
            = (DivIntL u (v.getD 0 0)).2.1
              + wB * wval (List.replicate (u.length - 1) 0) := rfl
        rw [h1, wval_replicate_zero, ← hv0d]
        omega
      · show wval ((DivIntL u (v.getD 0 0)).2.1
              :: List.replicate (u.length - 1) 0) < wval v
        have h1 : wval ((DivIntL u (v.getD 0 0)).2.1
              :: List.replicate (u.length - 1) 0)
            = (DivIntL u (v.getD 0 0)).2.1
              + wB * wval (List.replicate (u.length - 1) 0) := rfl
        rw [h1, wval_replicate_zero, ← hv0d]
        omega
    · -- multi-word divisor: Div3_Division path
      have htv2 : 2 ≤ topSize v := by omega
      have hn0ne : ¬ (topSize v - 1 = 0) := by omega
      have hd3 : Div3 u v
          = (0, (Div3_Division u v ((topSize u - 1) - (topSize v - 1))
                  ((topSize v - 1) + 1)).1,
             (Div3_Division u v ((topSize u - 1) - (topSize v - 1))
                  ((topSize v - 1) + 1)).2) := by
        unfold Div3
        rw [hst]
        simp [hn0ne]
      set m' := (topSize u - 1) - (topSize v - 1) with hm'
      set n' := (topSize v - 1) + 1 with hn'
      have hn'v : n' = topSize v := by omega
      have hmnsum : m' + n' = topSize u := by omega
      obtain ⟨_, _, hqv, _, _, hrv⟩ :=
        div3Division_spec u v m' n' hbu hbv hlen (by omega)
          (by rw [hmnsum]; exact topSize_le u)
          (by
            have he : n' - 1 = topSize v - 1 := by omega
            rw [he]
            exact getD_topSize_ne_zero v htspos)
          (by rw [hn'v]; exact wval_lt_topSize_pow v hbv)
          (by rw [hmnsum]; exact wval_lt_topSize_pow u hbu)
      rw [hUD, hd3]
      refine ⟨⟨fun h => ?_, fun h => absurd h hvne⟩, fun _ => ⟨rfl, ?_, ?_⟩⟩
      · have h0 : (0:ℕ) = 1 := h
        omega
      · show wval u
          = wval (Div3_Division u v m' n').1 * wval v
            + wval (Div3_Division u v m' n').2
        rw [hqv, hrv, Nat.mul_comm]
        exact (Nat.div_add_mod _ _).symm
      · show wval (Div3_Division u v m' n').2 < wval v
        rw [hrv]
        exact Nat.mod_lt _ (Nat.pos_of_ne_zero hvne)

theorem c6_division_divmod_witness :
    ((UIntDiv [7, 5] [3, 2]).1 = 1 ↔ wval [3, 2] = 0) ∧
    (wval [3, 2] ≠ 0 →
      (UIntDiv [7, 5] [3, 2]).1 = 0 ∧
      wval [7, 5] = wval (UIntDiv [7, 5] [3, 2]).2.1 * wval [3, 2]
          + wval (UIntDiv [7, 5] [3, 2]).2.2 ∧
      wval (UIntDiv [7, 5] [3, 2]).2.2 < wval [3, 2]) :=
  c6_division_divmod [7, 5] [3, 2] rfl (by decide) (by decide)

